import Mathlib

/-!
Verification of the `packagemerge` crate: the package-merge algorithm for
optimal length-limited prefix-free codes (`src/lib.rs`) and the generic
two-way ordered-merge iterator (`src/mergeiter.rs`).

The Rust code is shallowly embedded as follows.

* `f64` values are modeled by `F64`: finite values carry an exact rational
  payload (finite doubles are rationals; addition of finite values is modeled
  exactly, without rounding — none of the properties verified here depend on
  rounding, only on ordering and nonnegativity), plus the two infinities and
  `nan`.  The IEEE comparison `<` (all comparisons involving `nan` are false)
  is `F64.lt`.
* The engine (`package_merge`) is embedded generically over the value type,
  taking the comparison `lt`, the addition `add` and a default element
  (used only for the always-in-range slice indexing `frequencies[i]`,
  cf. claim C10) as explicit arguments; `package_merge` instantiates it at
  `F64`.  A second instantiation at `ℤ` plus a proved transport lemma is used
  to evaluate concrete runs, and one at `ℚ` to prove value-dependent
  properties for all finite inputs.
* `itertools`' `merge_by(self, other, is_first)` (which yields the head of
  `self` when `is_first` returns `true`, hence the head of `other` on ties)
  is `mergeBy`, a fuel-based computable function proved equal to the library
  function `List.merge` (which has the same one-sided semantics).
* Rust `usize` arithmetic is `Nat` arithmetic; the shift `1usize << max_len`
  is modeled with release-mode 64-bit semantics, where an overflowing shift
  amount is masked (`2 ^ (max_len % 64)`); debug builds panic on
  `max_len ≥ 64` instead, which the embedding cannot return a value for, so
  the masked behavior is taken as the model (claim C2 discusses this point).
  `i - merged` is `Nat` (truncating) subtraction; `merged ≤ i` is proved
  (claim C10), where both agree with `usize`.
* The per-position `u32` flag words are `Nat`s; the code's
  `flags[i] |= 1 << depth` and `(flags[i] & (1 << depth)) == 0` are `bitSet`
  and `bitGet`, written with division so that they evaluate in the kernel,
  and proved equal to `Nat.lor`/`Nat.testBit` below (`bitSet_eq_lor`,
  `bitGet_eq_testBit`).  All bits used are `< 32`, so `u32` never overflows.
* `Vec::sort_by` is a stable sort; it is modeled by a stable insertion sort
  (`sortIdx`) on the index list, inserting each index after all earlier ones
  its frequency does not compare strictly below.  For a total comparator a
  stable sort is unique as a function, so this agrees with Rust's sort.
-/

namespace PackageMerge

/-- Model of an `f64` value: an exact finite rational, `+∞`, `-∞`, or `NaN`. -/
inductive F64 where
  | fin (q : ℚ)
  | posInf
  | negInf
  | nan
deriving DecidableEq

/-- IEEE-754 `<` on doubles: every comparison involving NaN is false. -/
def F64.lt : F64 → F64 → Bool
  | .fin a, .fin b => a < b
  | .fin _, .posInf => true
  | .negInf, .fin _ => true
  | .negInf, .posInf => true
  | _, _ => false

/-- IEEE-754 `+` on doubles (finite addition modeled exactly, see header). -/
def F64.add : F64 → F64 → F64
  | .nan, _ => .nan
  | _, .nan => .nan
  | .posInf, .negInf => .nan
  | .negInf, .posInf => .nan
  | .posInf, _ => .posInf
  | _, .posInf => .posInf
  | .negInf, _ => .negInf
  | _, .negInf => .negInf
  | .fin a, .fin b => .fin (a + b)

/-- The error type of `src/lib.rs` (`enum Error`). -/
inductive Error where
  | NoSymbols
  | MaxLenTooSmall
  | MaxLenTooLarge
deriving DecidableEq

/-- Generic form of the comparator `order_non_nan` of `src/lib.rs:20-24`:
`if a < b { Less } else if a > b { Greater } else { Equal }`. -/
def ordBy (lt : α → α → Bool) (a b : α) : Ordering :=
  if lt a b then .lt else if lt b a then .gt else .eq

/-- `order_non_nan` itself (`src/lib.rs:20-24`). -/
def order_non_nan (a b : F64) : Ordering :=
  ordBy F64.lt a b

/-- One step of the stable insertion sort modeling `tmp.sort_by(...)`
(`src/lib.rs:86-91`): index `i` (whose original position is after every index
already in the accumulator) moves past every `j` it does not compare strictly
below, so equal elements keep their original relative order. -/
def insertRank (lt : α → α → Bool) (dflt : α) (freqs : List α) (i : Nat) :
    List Nat → List Nat
  | [] => [i]
  | j :: js =>
    if ordBy lt (freqs.getD i dflt) (freqs.getD j dflt) = .lt then i :: j :: js
    else j :: insertRank lt dflt freqs i js

/-- The `sorted` index vector of `src/lib.rs:86-91`: the indices
`0..frequencies.len()` stably sorted ascending by frequency value. -/
def sortIdx (lt : α → α → Bool) (dflt : α) (freqs : List α) : List Nat :=
  (List.range freqs.length).foldl (fun acc i => insertRank lt dflt freqs i acc) []

/-- `complete_chunks(&list, 2).map(|s| s[0] + s[1])` (`src/lib.rs:26-32,102`):
sum consecutive non-overlapping pairs, dropping a trailing odd element. -/
def pairSums (add : α → α → α) : List α → List α
  | a :: b :: rest => add a b :: pairSums add rest
  | _ => []

/-- Fuel-driven merge; with sufficient fuel this is `List.merge`
(`mergeBy_eq_merge`), which has exactly the semantics of itertools'
`merge_by(self, other, is_first)`: when `is_first` (here `p`) holds, the head
of the first stream is emitted, otherwise — in particular on ties — the head
of the second. -/
def mergeFuel (p : α → α → Bool) : Nat → List α → List α → List α
  | _, [], bs => bs
  | _, a :: as, [] => a :: as
  | 0, as, bs => as ++ bs
  | f + 1, a :: as, b :: bs =>
    if p a b then a :: mergeFuel p f as (b :: bs) else b :: mergeFuel p f (a :: as) bs

/-- The merge of `src/lib.rs:104`, computable in the kernel. -/
def mergeBy (p : α → α → Bool) (as bs : List α) : List α :=
  mergeFuel p (as.length + bs.length) as bs

/-- The ranked-frequency stream `sorted.iter().map(|&i| (frequencies[i], false))`
(`src/lib.rs:103`). -/
def leaves (dflt : α) (freqs : List α) (sorted : List Nat) : List (α × Bool) :=
  sorted.map fun i => (freqs.getD i dflt, false)

/-- The merge predicate `|a, b| a.0 < b.0` of `src/lib.rs:104`. -/
def mergePred (lt : α → α → Bool) (a b : α × Bool) : Bool :=
  lt a.1 b.1

/-- One forward level (`src/lib.rs:100-109`): merge the pair-sum stream of the
previous level (tagged `true`) with the ranked-frequency stream (tagged
`false`). -/
def levelTagged (lt : α → α → Bool) (add : α → α → α) (dflt : α) (freqs : List α)
    (sorted : List Nat) (l : List α) : List (α × Bool) :=
  mergeBy (mergePred lt) ((pairSums add l).map fun s => (s, true)) (leaves dflt freqs sorted)

/-- The sequence of level lists of the forward pass, as a function of the
level number: level `0` is the empty initial `list`, level `d + 1` is the
merged output of iteration `d` of `src/lib.rs:98-112` (so the `list` variable
holds level `d` at the start of iteration `d`). -/
def levelList (lt : α → α → Bool) (add : α → α → α) (dflt : α) (freqs : List α)
    (sorted : List Nat) : Nat → List α
  | 0 => []
  | d + 1 =>
    (levelTagged lt add dflt freqs sorted (levelList lt add dflt freqs sorted d)).map Prod.fst

/-- Bit `d` of the flag word `f`: the code's `(f & (1u32 << d)) != 0`,
written with division/modulus so it evaluates; equals `Nat.testBit`
(`bitGet_eq_testBit`). -/
def bitGet (f d : Nat) : Bool :=
  f / 2 ^ d % 2 = 1

/-- The code's `f |= 1u32 << d`: equals `f ||| 2 ^ d` (`bitSet_eq_lor`). -/
def bitSet (f d : Nat) : Nat :=
  if bitGet f d then f else f + 2 ^ d

/-- The flag update of one forward level (`src/lib.rs:105-108`): position `i`
of the flag vector gets bit `depth` set iff position `i` of the merged level
came from the pair-sum side.  (The writes are in bounds: the merged level is
never longer than the flag vector, claim C10.) -/
def updateFlags (d : Nat) : List Nat → List (α × Bool) → List Nat
  | fs, [] => fs
  | [], _ => []
  | f :: fs, t :: ts => (if t.2 then bitSet f d else f) :: updateFlags d fs ts

/-- The forward pass `for depth in 0..max_len { ... }` (`src/lib.rs:98-112`),
with `r` levels left to run starting at level `depth`. -/
def pmForward (lt : α → α → Bool) (add : α → α → α) (dflt : α) (freqs : List α)
    (sorted : List Nat) : Nat → Nat → List α → List Nat → List α × List Nat
  | _, 0, list, flags => (list, flags)
  | depth, r + 1, list, flags =>
    let tagged := levelTagged lt add dflt freqs sorted list
    pmForward lt add dflt freqs sorted (depth + 1) r (tagged.map Prod.fst)
      (updateFlags depth flags tagged)

/-- `code_lens[k] += 1` (`src/lib.rs:124`); the index is in bounds on every
reachable call (claim C10). -/
def incNth : List Nat → Nat → List Nat
  | [], _ => []
  | x :: xs, 0 => (x + 1) :: xs
  | x :: xs, k + 1 => x :: incNth xs k

/-- The inner decode loop `for i in 0..n` (`src/lib.rs:121-128`) with `r`
iterations left, current position `i` and current `merged` count: an
unflagged position is a leaf and increments `code_lens[sorted[i - merged]]`,
a flagged one increments `merged`.  Returns the new lengths and the final
`merged`. -/
def decodeLevel (sorted flags : List Nat) (d : Nat) :
    Nat → Nat → Nat → List Nat → List Nat × Nat
  | 0, _, merged, cl => (cl, merged)
  | r + 1, i, merged, cl =>
    if bitGet (flags.getD i 0) d then decodeLevel sorted flags d r (i + 1) (merged + 1) cl
    else decodeLevel sorted flags d r (i + 1) merged (incNth cl (sorted.getD (i - merged) 0))

/-- The backward decode `while depth > 0 && n > 0 { depth -= 1; ... }`
(`src/lib.rs:117-130`). -/
def pmDecode (sorted flags : List Nat) : Nat → Nat → List Nat → List Nat
  | 0, _, cl => cl
  | d + 1, m, cl =>
    if m = 0 then cl
    else
      let s := decodeLevel sorted flags d m 0 0 cl
      pmDecode sorted flags d (2 * s.2) s.1

/-- The validation and engine body shared by every instantiation of the value
type (`src/lib.rs:74-132`); see the header for the modeling of the shift and
of `sort_by`. -/
def pmRun (lt : α → α → Bool) (add : α → α → α) (dflt : α) (frequencies : List α)
    (max_len : Nat) : Except Error (List Nat) :=
  if frequencies.isEmpty then .error .NoSymbols
  else if frequencies.length > 2 ^ (max_len % 64) then .error .MaxLenTooSmall
  else if max_len > 32 then .error .MaxLenTooLarge
  else
    let sorted := sortIdx lt dflt frequencies
    let capa := frequencies.length * 2 - 1
    let fwd := pmForward lt add dflt frequencies sorted 0 max_len [] (List.replicate capa 0)
    .ok (pmDecode sorted fwd.2 max_len (frequencies.length * 2 - 2)
      (List.replicate frequencies.length 0))

/-- `pub fn package_merge(frequencies: &[f64], max_len: u32)` (`src/lib.rs:74`). -/
def package_merge (frequencies : List F64) (max_len : Nat) : Except Error (List Nat) :=
  pmRun F64.lt F64.add (F64.fin 0) frequencies max_len

/-- Boolean `<` on `ℤ`, for the evaluation instantiation. -/
def intLt (a b : ℤ) : Bool :=
  a < b

/-- The engine instantiated at exact integer frequencies (used, via the
transport lemma `package_merge_int`, to evaluate concrete runs). -/
def pmInt (frequencies : List ℤ) (max_len : Nat) : Except Error (List Nat) :=
  pmRun intLt (· + ·) 0 frequencies max_len

/-- Boolean `<` on `ℚ`, for the finite-values instantiation. -/
def ratLt (a b : ℚ) : Bool :=
  a < b

/-- The engine instantiated at exact rational frequencies (the behavior of
`package_merge` on all-finite inputs, via `package_merge_rat`). -/
def pmRat (frequencies : List ℚ) (max_len : Nat) : Except Error (List Nat) :=
  pmRun ratLt (· + ·) 0 frequencies max_len

/-- The embedding of the integers into finite doubles used for evaluation. -/
def intF64 (z : ℤ) : F64 :=
  F64.fin (z : ℚ)

/-- `enum Either<T, U>` (`src/mergeiter.rs:3-7`). -/
inductive Either (α β : Type) where
  | left (a : α)
  | right (b : β)

/-- `enum Pick` (`src/mergeiter.rs:9-12`). -/
inductive Pick where
  | left
  | right

/-- `struct MergeIter` (`src/mergeiter.rs:14-21`): the two source iterators are
modeled by the lists of elements they have not produced yet; `ela`/`elb` are
the one-element lookahead buffers.  The pick closure is passed to `next`
explicitly (it is modeled as a pure function). -/
structure MergeIter (α β : Type) where
  ita : List α
  itb : List β
  ela : Option α
  elb : Option β

/-- `MergeIter::new` (`src/mergeiter.rs:25-35`): buffer one element from each
source. -/
def MergeIter.new (ia : List α) (ib : List β) : MergeIter α β :=
  { ita := ia.tail, itb := ib.tail, ela := ia.head?, elb := ib.head? }

/-- `MergeIter::next` (`src/mergeiter.rs:42-67`).  In addition to the emitted
element and the successor state it reports whether `pck` was invoked, so that
claim C8's "no further calls to `pick`" can be stated. -/
def MergeIter.next (pck : α → β → Pick) (s : MergeIter α β) :
    Option (Either α β) × MergeIter α β × Bool :=
  match s.ela, s.elb with
  | none, none => (none, s, false)
  | some a, none =>
    (some (.left a), { s with ela := s.ita.head?, ita := s.ita.tail }, false)
  | none, some b =>
    (some (.right b), { s with elb := s.itb.head?, itb := s.itb.tail }, false)
  | some a, some b =>
    match pck a b with
    | .left => (some (.left a), { s with ela := s.ita.head?, ita := s.ita.tail }, true)
    | .right => (some (.right b), { s with elb := s.itb.head?, itb := s.itb.tail }, true)

/-- Number of elements the iterator can still emit. -/
def MergeIter.size (s : MergeIter α β) : Nat :=
  s.ita.length + s.itb.length + s.ela.toList.length + s.elb.toList.length

/-- Fuel-driven drain loop; `MergeIter.size` fuel always suffices
(`drainFuel_eq`). -/
def MergeIter.drainFuel (pck : α → β → Pick) : Nat → MergeIter α β → List (Either α β) × Nat
  | 0, _ => ([], 0)
  | f + 1, s =>
    match s.next pck with
    | (none, _, _) => ([], 0)
    | (some e, s', c) =>
      let r := MergeIter.drainFuel pck f s'
      (e :: r.1, (if c then 1 else 0) + r.2)

/-- Drain the iterator: everything it yields until it returns `None`, paired
with the total number of `pck` invocations. -/
def MergeIter.drain (pck : α → β → Pick) (s : MergeIter α β) : List (Either α β) × Nat :=
  MergeIter.drainFuel pck s.size s

/-- Extract the payload of a left-tagged element. -/
def Either.getLeft : Either α β → Option α
  | .left a => some a
  | .right _ => none

/-- Extract the payload of a right-tagged element. -/
def Either.getRight : Either α β → Option β
  | .left _ => none
  | .right b => some b

/-- The length of level `d` (`length_levelList`): level `d + 1` consists of
`⌊len d / 2⌋` pair-sums merged with the `n` ranked frequencies. -/
def levelLen (n : Nat) : Nat → Nat
  | 0 => 0
  | d + 1 => levelLen n d / 2 + n

/-- The flag vector after the first `r` forward levels (`flagsAcc_eq_pmForward`
connects it to `pmForward`). -/
def flagsAcc (lt : α → α → Bool) (add : α → α → α) (dflt : α) (freqs : List α)
    (sorted : List Nat) (capa : Nat) : Nat → List Nat
  | 0 => List.replicate capa 0
  | d + 1 =>
    updateFlags d (flagsAcc lt add dflt freqs sorted capa d)
      (levelTagged lt add dflt freqs sorted (levelList lt add dflt freqs sorted d))

/-- The tag (package = `true`, leaf = `false`) at position `i` of a tagged
level, `false` out of range. -/
def tagGet (t : List (α × Bool)) (i : Nat) : Bool :=
  (t.map Prod.snd).getD i false

/-- Number of flagged (package) positions at bit `d` among the first `m` flag
words: the value of the decode loop's `merged` counter after scanning `m`
positions. -/
def fcount (flags : List Nat) (d m : Nat) : Nat :=
  (flags.take m).countP fun f => bitGet f d

/-- Number of unflagged (leaf) positions at bit `d` among the first `m` flag
words. -/
def ufcount (flags : List Nat) (d m : Nat) : Nat :=
  (flags.take m).countP fun f => !bitGet f d

/-- The (bit, relevant-count) pairs processed by the decode loop
(`src/lib.rs:118-130`), top bit first. -/
def decodeChain (flags : List Nat) : Nat → Nat → List (Nat × Nat)
  | 0, _ => []
  | d + 1, m =>
    if m = 0 then [] else (d, m) :: decodeChain flags d (2 * fcount flags d m)

/-- The leaf count of each processed decode level, top bit first. -/
def kListOf (flags : List Nat) (depth m : Nat) : List Nat :=
  (decodeChain flags depth m).map fun p => ufcount flags p.1 p.2

/-- Increment `cl` at positions `sorted[a], sorted[a+1], …, sorted[a+k-1]`. -/
def incSeq (sorted : List Nat) : List Nat → Nat → Nat → List Nat
  | cl, _, 0 => cl
  | cl, a, k + 1 => incSeq sorted (incNth cl (sorted.getD a 0)) (a + 1) k

/-- The stability order: index `a` must come before index `b` in the ranked
vector when its frequency is strictly smaller, or the frequencies are equal
and `a` originally came first. -/
def rankR (qs : List ℚ) (a b : Nat) : Prop :=
  qs.getD a 0 < qs.getD b 0 ∨ (qs.getD a 0 = qs.getD b 0 ∧ a < b)

/-- The frequency value of the symbol of rank `r` (position `r` of the ranked
index vector). -/
def rankVal (qs : List ℚ) (r : Nat) : ℚ :=
  qs.getD ((sortIdx ratLt 0 qs).getD r 0) 0

/-- The accumulated flag vector of the rational engine run. -/
def pmFlags (qs : List ℚ) (maxLen : Nat) : List Nat :=
  flagsAcc ratLt (· + ·) 0 qs (sortIdx ratLt 0 qs) (2 * qs.length - 1) maxLen

/-- The final merged list of a coin-collector instance: classes from the
smallest width upward, pair-summing and merging as in the forward pass. -/
def coinGo : List ℚ → List (List ℚ) → List ℚ
  | prev, [] => prev
  | prev, c :: rest => coinGo (List.merge (pairSums (· + ·) prev) c ratLt) rest

def finalCoins (I : List (List ℚ)) : List ℚ :=
  coinGo [] I

/-- A selection takes a subsequence of each width class. -/
def SelOf : List (List ℚ) → List (List ℚ) → Prop
  | [], [] => True
  | s :: sel, c :: I => s.Sublist c ∧ SelOf sel I
  | _, _ => False

/-- Total selection width, in units of the smallest width class (the head). -/
def widthSel : List (List ℚ) → Nat
  | [] => 0
  | s :: sel => s.length + 2 * widthSel sel

/-- Total selection weight. -/
def weightSel : List (List ℚ) → ℚ
  | [] => 0
  | s :: sel => s.sum + weightSel sel

/-- Keep the entries whose (offset) position satisfies `p`. -/
def maskSelFrom {α : Type} (p : ℕ → Bool) : Nat → List α → List α
  | _, [] => []
  | i, x :: xs =>
    if p i then x :: maskSelFrom p (i + 1) xs else maskSelFrom p (i + 1) xs

def maskSel {α : Type} (p : ℕ → Bool) (l : List α) : List α :=
  maskSelFrom p 0 l

/-! ### The fuel-driven merge is `List.merge` -/
theorem mergeFuel_eq_merge (p : α → α → Bool) :
    ∀ (f : Nat) (as bs : List α), as.length + bs.length ≤ f →
      mergeFuel p f as bs = List.merge as bs p := by
  intro f
  induction f with
  | zero =>
    intro as bs h
    match as, bs with
    | [], bs => simp [mergeFuel]
    | a :: as, [] => simp [mergeFuel]
    | a :: as, b :: bs => simp at h
  | succ f ih =>
    intro as bs h
    match as, bs with
    | [], bs => simp [mergeFuel]
    | a :: as, [] => simp [mergeFuel]
    | a :: as, b :: bs =>
      simp only [List.length_cons] at h
      by_cases hp : p a b
      · rw [mergeFuel, if_pos hp, List.cons_merge_cons_pos _ _ _ hp, ih]
        simp only [List.length_cons]; omega
      · rw [mergeFuel, if_neg hp, List.cons_merge_cons_neg _ _ _ hp, ih]
        simp only [List.length_cons]; omega

theorem mergeBy_eq_merge (p : α → α → Bool) (as bs : List α) :
    mergeBy p as bs = List.merge as bs p :=
  mergeFuel_eq_merge p _ as bs le_rfl

/-! ### Transport: the engine commutes with an embedding of the value type

All the functions below are proved to commute with mapping an embedding
`g` of one value type into another that preserves the comparison and the
addition.  This is used to reduce `package_merge` on finite inputs to the
`ℚ` instantiation (for the universally quantified claims) and to the `ℤ`
instantiation (for kernel evaluation of concrete runs). -/

section Transport

variable {α β : Type} (g : β → α) (lt : α → α → Bool) (lt' : β → β → Bool)

variable (add : α → α → α) (add' : β → β → β) (d' : β)

theorem ordBy_map (hlt : ∀ a b, lt (g a) (g b) = lt' a b) (a b : β) :
    ordBy lt (g a) (g b) = ordBy lt' a b := by
  simp [ordBy, hlt]

theorem insertRank_map (hlt : ∀ a b, lt (g a) (g b) = lt' a b) (freqs : List β)
    (i : Nat) (l : List Nat) :
    insertRank lt (g d') (freqs.map g) i l = insertRank lt' d' freqs i l := by
  induction l with
  | nil => rfl
  | cons j js ih =>
    rw [insertRank, insertRank, List.getD_map, List.getD_map, ordBy_map g lt lt' hlt, ih]

theorem sortIdx_map (hlt : ∀ a b, lt (g a) (g b) = lt' a b) (freqs : List β) :
    sortIdx lt (g d') (freqs.map g) = sortIdx lt' d' freqs := by
  rw [sortIdx, sortIdx, List.length_map]
  generalize List.range freqs.length = r
  induction r generalizing freqs with
  | nil => rfl
  | cons i r ih =>
    simp only [List.foldl_cons]
    rw [show (∀ acc, List.foldl (fun acc i => insertRank lt (g d') (freqs.map g) i acc) acc r =
        List.foldl (fun acc i => insertRank lt' d' freqs i acc) acc r) from fun acc => by
      induction r generalizing acc with
      | nil => rfl
      | cons j r ihr => simp only [List.foldl_cons, insertRank_map g lt lt' d' hlt, ihr],
      insertRank_map g lt lt' d' hlt]

theorem pairSums_map (hadd : ∀ a b, g (add' a b) = add (g a) (g b)) :
    ∀ l : List β, pairSums add (l.map g) = (pairSums add' l).map g
  | [] => rfl
  | [a] => rfl
  | a :: b :: rest => by
    simp only [List.map_cons, pairSums, hadd, List.map]
    exact congrArg _ (pairSums_map hadd rest)

theorem leaves_map (freqs : List β) (sorted : List Nat) :
    leaves (g (d' : β)) (freqs.map g) sorted =
      (leaves d' freqs sorted).map fun x => (g x.1, x.2) := by
  simp only [leaves, List.map_map]
  exact List.map_congr_left fun i _ => by simp [Function.comp, List.getD_map]

theorem levelTagged_map (hlt : ∀ a b, lt (g a) (g b) = lt' a b)
    (hadd : ∀ a b, g (add' a b) = add (g a) (g b)) (freqs : List β)
    (sorted : List Nat) (l : List β) :
    levelTagged lt add (g d') (freqs.map g) sorted (l.map g) =
      (levelTagged lt' add' d' freqs sorted l).map fun x => (g x.1, x.2) := by
  rw [levelTagged, levelTagged, mergeBy_eq_merge, mergeBy_eq_merge,
    pairSums_map g add add' hadd, leaves_map g d' freqs sorted,
    List.map_map, show ((fun s => (s, true)) ∘ g) =
      ((fun (x : β × Bool) => (g x.1, x.2)) ∘ fun s => (s, true)) from rfl,
    ← List.map_map, ← List.map_merge]
  intro a _ b _
  simp [mergePred, hlt]

theorem updateFlags_map (d : Nat) (fs : List Nat) (ts : List (β × Bool)) :
    updateFlags d fs (ts.map fun x => (g x.1, x.2)) = updateFlags d fs ts := by
  induction ts generalizing fs with
  | nil => cases fs <;> simp [updateFlags]
  | cons t ts ih =>
    cases fs with
    | nil => simp [updateFlags]
    | cons f fs => simp only [List.map_cons, updateFlags, ih]

theorem pmForward_map (hlt : ∀ a b, lt (g a) (g b) = lt' a b)
    (hadd : ∀ a b, g (add' a b) = add (g a) (g b)) (freqs : List β)
    (sorted : List Nat) (r : Nat) :
    ∀ (depth : Nat) (list : List β) (flags : List Nat),
      pmForward lt add (g d') (freqs.map g) sorted depth r (list.map g) flags =
        ((pmForward lt' add' d' freqs sorted depth r list flags).1.map g,
          (pmForward lt' add' d' freqs sorted depth r list flags).2) := by
  induction r with
  | zero => intro depth list flags; rfl
  | succ r ih =>
    intro depth list flags
    rw [pmForward, pmForward]
    simp only [levelTagged_map g lt lt' add add' d' hlt hadd, List.map_map,
      updateFlags_map g]
    rw [show (Prod.fst ∘ fun (x : β × Bool) => (g x.1, x.2)) = g ∘ Prod.fst from rfl,
      ← List.map_map]
    exact ih _ _ _

theorem pmRun_map (hlt : ∀ a b, lt (g a) (g b) = lt' a b)
    (hadd : ∀ a b, g (add' a b) = add (g a) (g b)) (freqs : List β) (m : Nat) :
    pmRun lt add (g d') (freqs.map g) m = pmRun lt' add' d' freqs m := by
  have e1 : (freqs.map g).isEmpty = freqs.isEmpty := by cases freqs <;> rfl
  have e2 := pmForward_map g lt lt' add add' d' hlt hadd freqs (sortIdx lt' d' freqs) m 0 []
    (List.replicate (freqs.length * 2 - 1) 0)
  simp only [List.map_nil] at e2
  rw [pmRun, pmRun]
  simp only [e1, List.length_map, sortIdx_map g lt lt' d' hlt, e2]

end Transport

theorem package_merge_int (zs : List ℤ) (m : Nat) :
    package_merge (zs.map intF64) m = pmInt zs m := by
  have h0 : intF64 0 = F64.fin (0 : ℚ) := by rw [intF64, Int.cast_zero]
  rw [package_merge, pmInt, ← h0]
  exact pmRun_map intF64 F64.lt intLt F64.add (· + ·) 0
    (fun a b => by simp [intF64, F64.lt, intLt])
    (fun a b => by rw [intF64, intF64, intF64]; simp [F64.add]) zs m

theorem package_merge_rat (qs : List ℚ) (m : Nat) :
    package_merge (qs.map F64.fin) m = pmRat qs m := by
  rw [package_merge, pmRat]
  exact pmRun_map F64.fin F64.lt ratLt F64.add (· + ·) 0
    (fun a b => by rfl) (fun a b => by rfl) qs m

theorem levelList_map {α β : Type} (g : β → α) (lt : α → α → Bool) (lt' : β → β → Bool)
    (add : α → α → α) (add' : β → β → β) (d' : β)
    (hlt : ∀ a b, lt (g a) (g b) = lt' a b)
    (hadd : ∀ a b, g (add' a b) = add (g a) (g b)) (freqs : List β)
    (sorted : List Nat) (d : Nat) :
    levelList lt add (g d') (freqs.map g) sorted d =
      (levelList lt' add' d' freqs sorted d).map g := by
  induction d with
  | zero => rfl
  | succ d ih =>
    rw [levelList, levelList, ih, levelTagged_map g lt lt' add add' d' hlt hadd,
      List.map_map, List.map_map]
    rfl

theorem sortIdx_int (zs : List ℤ) :
    sortIdx F64.lt (F64.fin 0) (zs.map intF64) = sortIdx intLt 0 zs := by
  have h0 : intF64 0 = F64.fin (0 : ℚ) := by rw [intF64, Int.cast_zero]
  rw [← h0]
  exact sortIdx_map intF64 F64.lt intLt 0 (fun a b => by simp [intF64, F64.lt, intLt]) zs

theorem levelList_int (zs : List ℤ) (sorted : List Nat) (d : Nat) :
    levelList F64.lt F64.add (F64.fin 0) (zs.map intF64) sorted d =
      (levelList intLt (· + ·) 0 zs sorted d).map intF64 := by
  have h0 : intF64 0 = F64.fin (0 : ℚ) := by rw [intF64, Int.cast_zero]
  rw [← h0]
  exact levelList_map intF64 F64.lt intLt F64.add (· + ·) 0
    (fun a b => by simp [intF64, F64.lt, intLt])
    (fun a b => by rw [intF64, intF64, intF64]; simp [F64.add]) zs sorted d

theorem levelTagged_int (zs : List ℤ) (sorted : List Nat) (l : List ℤ) :
    levelTagged F64.lt F64.add (F64.fin 0) (zs.map intF64) sorted (l.map intF64) =
      (levelTagged intLt (· + ·) 0 zs sorted l).map fun x => (intF64 x.1, x.2) := by
  have h0 : intF64 0 = F64.fin (0 : ℚ) := by rw [intF64, Int.cast_zero]
  rw [← h0]
  exact levelTagged_map intF64 F64.lt intLt F64.add (· + ·) 0
    (fun a b => by simp [intF64, F64.lt, intLt])
    (fun a b => by rw [intF64, intF64, intF64]; simp [F64.add]) zs sorted l

/-! ### Claims C2, C5, C6 (counterexample), C7, C9 -/

/-- C2: the three validation checks are *not* faithful to the documented error
taxonomy for `max_len ≥ 64`: the check `frequencies.len() > (1usize << max_len)`
runs before the `max_len > 32` check, and for `max_len = 64` the shift amount
overflows — release builds mask it to `1 << 0 = 1` (the modeled behavior),
debug builds panic.  So on `frequencies = [1.0, 2.0]`, `max_len = 64` the code
returns `MaxLenTooSmall` ("max_len was chosen too small") instead of the
documented `MaxLenTooLarge`.  This theorem evaluates the code at that failing
input. -/
theorem claim_C2_shift_overflow :
    package_merge [F64.fin 1, F64.fin 2] 64 = .error .MaxLenTooSmall := rfl

/-- C5 (counterexample): the tie rule is the opposite of the claimed one.  On
frequencies `[1, 1, 2]`, at level 1 the pair-sum stream is `[2]` and the ranked
frequency stream is `[1, 1, 2]`; the pair-sum `2` equals the ranked frequency
`2`, and the merge emits the *leaf* `(2, false)` before the *pair-sum*
`(2, true)` (itertools' `merge_by` with `|a, b| a.0 < b.0` yields from the
second stream when the comparison is not strictly less). -/
theorem claim_C5_cex :
    levelTagged F64.lt F64.add (F64.fin 0) [F64.fin 1, F64.fin 1, F64.fin 2]
        (sortIdx F64.lt (F64.fin 0) [F64.fin 1, F64.fin 1, F64.fin 2])
        (levelList F64.lt F64.add (F64.fin 0) [F64.fin 1, F64.fin 1, F64.fin 2]
          (sortIdx F64.lt (F64.fin 0) [F64.fin 1, F64.fin 1, F64.fin 2]) 1) =
      [(F64.fin 1, false), (F64.fin 1, false), (F64.fin 2, false), (F64.fin 2, true)] := by
  have h : [F64.fin 1, F64.fin 1, F64.fin 2] = ([1, 1, 2] : List ℤ).map intF64 := by
    norm_num [intF64]
  rw [h, sortIdx_int, levelList_int, levelTagged_int]
  norm_num [intF64]
  rfl

/-- C5 (amended): ties favor the leaf, not the package: whenever at any level
and for any input the head of the pair-sum stream and the head of the
ranked-frequency stream hold equal values, the merge of `src/lib.rs:104` emits
the ranked frequency (the leaf) first. -/
theorem claim_C5 (v : F64) (as bs : List (F64 × Bool)) :
    mergeBy (mergePred F64.lt) ((v, true) :: as) ((v, false) :: bs) =
      (v, false) :: mergeBy (mergePred F64.lt) ((v, true) :: as) bs := by
  rw [mergeBy_eq_merge, mergeBy_eq_merge, List.cons_merge_cons_neg]
  show ¬ F64.lt v v = true
  cases v <;> simp [F64.lt]

/-- C6 (counterexample): on frequencies `[1, 1, 1]` (all equal — in particular
`frequency[2] ≤ frequency[0]`) with `max_len = 2` the code returns the lengths
`[2, 2, 1]`: symbol 2 receives a strictly shorter code than symbol 0, so
`length[2] ≥ length[0]` fails (`¬ 2 ≤ 1` records the violated comparison
of the two lengths). -/
theorem claim_C6_cex :
    package_merge [F64.fin 1, F64.fin 1, F64.fin 1] 2 = .ok [2, 2, 1] ∧
      ¬ ((2 : Nat) ≤ 1) := by
  constructor
  · have h : [F64.fin 1, F64.fin 1, F64.fin 1] = ([1, 1, 1] : List ℤ).map intF64 := by
      norm_num [intF64]
    rw [h, package_merge_int]
    rfl
  · omega

/-- C7: the three regression vectors of the crate's test suite: frequencies
`[1, 32, 16, 4, 8, 2, 1]` with `max_len = 8` give `[6, 1, 2, 4, 3, 5, 6]`,
with `max_len = 5` give `[5, 1, 2, 5, 3, 5, 5]`, and with `max_len = 2`
give the `MaxLenTooSmall` error. -/
theorem claim_C7 :
    package_merge [F64.fin 1, F64.fin 32, F64.fin 16, F64.fin 4, F64.fin 8, F64.fin 2,
        F64.fin 1] 8 = .ok [6, 1, 2, 4, 3, 5, 6] ∧
      package_merge [F64.fin 1, F64.fin 32, F64.fin 16, F64.fin 4, F64.fin 8, F64.fin 2,
        F64.fin 1] 5 = .ok [5, 1, 2, 5, 3, 5, 5] ∧
      package_merge [F64.fin 1, F64.fin 32, F64.fin 16, F64.fin 4, F64.fin 8, F64.fin 2,
        F64.fin 1] 2 = .error .MaxLenTooSmall := by
  have h : [F64.fin 1, F64.fin 32, F64.fin 16, F64.fin 4, F64.fin 8, F64.fin 2, F64.fin 1] =
      ([1, 32, 16, 4, 8, 2, 1] : List ℤ).map intF64 := by norm_num [intF64]
  refine ⟨?_, ?_, ?_⟩ <;> rw [h, package_merge_int] <;> rfl

/-- C9 (counterexample): `package_merge` does *not* reject non-finite input:
on `[NaN, 1.0]` with `max_len = 1` it returns the success result `[1, 1]`
(computed through `order_non_nan`, which reports `Equal` for every comparison
against NaN). -/
theorem claim_C9_cex :
    package_merge [F64.nan, F64.fin 1] 1 = .ok [1, 1] := rfl

/-- C9 (amended): `package_merge` performs no finiteness or NaN validation at
all: whether it returns a success result depends only on the number of
frequencies and on `max_len`, never on the frequency values — in particular it
returns success (never an error) on every NaN- or infinity-containing input of
admissible length. -/
theorem claim_C9 (freqs : List F64) (m : Nat) :
    (∃ ls, package_merge freqs m = .ok ls) ↔
      freqs ≠ [] ∧ freqs.length ≤ 2 ^ (m % 64) ∧ m ≤ 32 := by
  rw [package_merge, pmRun]
  by_cases h1 : freqs.isEmpty
  · rw [if_pos h1]
    simp [List.isEmpty_iff.mp h1]
  · rw [if_neg h1]
    by_cases h2 : freqs.length > 2 ^ (m % 64)
    · rw [if_pos h2]
      constructor
      · rintro ⟨ls, h⟩
        exact Except.noConfusion h
      · rintro ⟨-, h, -⟩
        omega
    · rw [if_neg h2]
      by_cases h3 : m > 32
      · rw [if_pos h3]
        constructor
        · rintro ⟨ls, h⟩
          exact Except.noConfusion h
        · rintro ⟨-, -, h⟩
          omega
      · rw [if_neg h3]
        constructor
        · intro
          exact ⟨by simpa [List.isEmpty_iff] using h1, by omega, by omega⟩
        · intro
          exact ⟨_, rfl⟩

/-! ### The ordered-merge iterator of `src/mergeiter.rs` (claim C8) -/

theorem MergeIter.next_size (pck : α → β → Pick) {s : MergeIter α β}
    {e : Either α β} {s' : MergeIter α β} {c : Bool}
    (h : s.next pck = (some e, s', c)) : s'.size < s.size := by
  obtain ⟨ia, ib, ea, eb⟩ := s
  cases ea <;> cases eb <;> simp only [MergeIter.next, Prod.mk.injEq] at h
  · exact absurd h.1 (by simp)
  · obtain ⟨-, h2, -⟩ := h
    subst h2
    cases ib <;> simp [MergeIter.size]
  · obtain ⟨-, h2, -⟩ := h
    subst h2
    cases ia <;> simp [MergeIter.size]
  · rename_i a b
    cases hp : pck a b <;> rw [hp] at h <;> simp only [Prod.mk.injEq] at h <;>
      obtain ⟨-, h2, -⟩ := h <;> subst h2
    · cases ia <;> simp [MergeIter.size]
    · cases ib <;> simp [MergeIter.size]

theorem MergeIter.next_none_of_size_zero (pck : α → β → Pick) {s : MergeIter α β}
    (h : s.size = 0) : s.next pck = (none, s, false) := by
  obtain ⟨ia, ib, ea, eb⟩ := s
  simp only [MergeIter.size] at h
  have h1 : ea = none := by cases ea <;> simp_all
  have h2 : eb = none := by cases eb <;> simp_all
  subst h1 h2
  rfl

theorem MergeIter.drainFuel_next_none (pck : α → β → Pick) {s t : MergeIter α β} {c : Bool}
    (hn : s.next pck = (none, t, c)) (f : Nat) : MergeIter.drainFuel pck f s = ([], 0) := by
  cases f with
  | zero => rfl
  | succ f => rw [MergeIter.drainFuel, hn]

theorem MergeIter.drainFuel_next_some (pck : α → β → Pick) {s s' : MergeIter α β}
    {e : Either α β} {c : Bool} (hn : s.next pck = (some e, s', c)) (f : Nat) :
    MergeIter.drainFuel pck (f + 1) s =
      (e :: (MergeIter.drainFuel pck f s').1,
        (if c then 1 else 0) + (MergeIter.drainFuel pck f s').2) := by
  rw [MergeIter.drainFuel, hn]

theorem MergeIter.drainFuel_eq (pck : α → β → Pick) :
    ∀ (f : Nat) (s : MergeIter α β), s.size ≤ f → MergeIter.drainFuel pck f s = s.drain pck := by
  intro f
  induction f using Nat.strong_induction_on with
  | _ f ih =>
    intro s hs
    rw [MergeIter.drain]
    rcases hf : s.size with _ | g
    · rw [MergeIter.drainFuel_next_none pck (MergeIter.next_none_of_size_zero pck hf),
        MergeIter.drainFuel_next_none pck (MergeIter.next_none_of_size_zero pck hf)]
    · rcases hn : s.next pck with ⟨_ | e, s', c⟩
      · rw [MergeIter.drainFuel_next_none pck hn, MergeIter.drainFuel_next_none pck hn]
      · have hlt := MergeIter.next_size pck hn
        rw [hf] at hlt
        rcases f with _ | f
        · omega
        · rw [MergeIter.drainFuel_next_some pck hn, MergeIter.drainFuel_next_some pck hn,
            ih f (by omega) s' (by omega), ih g (by omega) s' (by omega)]

theorem MergeIter.drain_step_none (pck : α → β → Pick) {s t : MergeIter α β} {c : Bool}
    (hn : s.next pck = (none, t, c)) : s.drain pck = ([], 0) :=
  MergeIter.drainFuel_next_none pck hn s.size

theorem MergeIter.drain_step_some (pck : α → β → Pick) {s s' : MergeIter α β}
    {e : Either α β} {c : Bool} (hn : s.next pck = (some e, s', c)) :
    s.drain pck = (e :: (s'.drain pck).1, (if c then 1 else 0) + (s'.drain pck).2) := by
  have hlt := MergeIter.next_size pck hn
  rcases hf : s.size with _ | g
  · rw [MergeIter.next_none_of_size_zero pck hf] at hn
    cases hn
  · rw [MergeIter.drain, hf, MergeIter.drainFuel_next_some pck hn,
      MergeIter.drainFuel_eq pck g s' (by omega)]

/-- Once the left side is exhausted, the iterator emits all remaining
right-side elements in order, tagged `right`, and never calls `pck`. -/
theorem MergeIter.drain_right_only (pck : α → β → Pick) (ia : List α) :
    ∀ (ib : List β) (b : β),
      MergeIter.drain pck ⟨ia, ib, none, some b⟩ = ((b :: ib).map Either.right, 0) := by
  intro ib
  induction ib with
  | nil =>
    intro b
    have hn : MergeIter.next pck ⟨ia, ([] : List β), none, some b⟩ =
        (some (.right b), ⟨ia, [], none, none⟩, false) := rfl
    have hn2 : MergeIter.next pck ⟨ia, ([] : List β), none, none⟩ =
        (none, ⟨ia, [], none, none⟩, false) := rfl
    rw [MergeIter.drain_step_some pck hn, MergeIter.drain_step_none pck hn2]
    rfl
  | cons y ys ih =>
    intro b
    have hn : MergeIter.next pck ⟨ia, y :: ys, none, some b⟩ =
        (some (.right b), ⟨ia, ys, none, some y⟩, false) := rfl
    rw [MergeIter.drain_step_some pck hn, ih y]
    rfl

/-- Once the right side is exhausted, the iterator emits all remaining
left-side elements in order, tagged `left`, and never calls `pck`. -/
theorem MergeIter.drain_left_only (pck : α → β → Pick) (ib : List β) :
    ∀ (ia : List α) (a : α),
      MergeIter.drain pck ⟨ia, ib, some a, none⟩ = ((a :: ia).map Either.left, 0) := by
  intro ia
  induction ia with
  | nil =>
    intro a
    have hn : MergeIter.next pck ⟨([] : List α), ib, some a, none⟩ =
        (some (.left a), ⟨[], ib, none, none⟩, false) := rfl
    have hn2 : MergeIter.next pck ⟨([] : List α), ib, none, none⟩ =
        (none, ⟨[], ib, none, none⟩, false) := rfl
    rw [MergeIter.drain_step_some pck hn, MergeIter.drain_step_none pck hn2]
    rfl
  | cons x xs ih =>
    intro a
    have hn : MergeIter.next pck ⟨x :: xs, ib, some a, none⟩ =
        (some (.left a), ⟨xs, ib, some x, none⟩, false) := rfl
    rw [MergeIter.drain_step_some pck hn, ih x]
    rfl

theorem filterMap_sides_length :
    ∀ l : List (Either α β),
      l.length = (l.filterMap Either.getLeft).length + (l.filterMap Either.getRight).length
  | [] => rfl
  | .left a :: l => by
    simp only [List.filterMap_cons, Either.getLeft, Either.getRight, List.length_cons,
      filterMap_sides_length l]
    omega
  | .right b :: l => by
    simp only [List.filterMap_cons, Either.getLeft, Either.getRight, List.length_cons,
      filterMap_sides_length l]
    omega

/-- Left-tagged lists project back on the left side. -/
theorem filterMap_getLeft_map_left (l : List α) :
    (l.map (Either.left (β := β))).filterMap Either.getLeft = l := by
  induction l with
  | nil => rfl
  | cons x xs ih => simp [List.filterMap_cons, Either.getLeft, ih]

theorem filterMap_getRight_map_left (l : List α) :
    (l.map (Either.left (β := β))).filterMap Either.getRight = [] := by
  induction l with
  | nil => rfl
  | cons x xs ih => simp [List.filterMap_cons, Either.getRight, ih]

theorem filterMap_getRight_map_right (l : List β) :
    (l.map (Either.right (α := α))).filterMap Either.getRight = l := by
  induction l with
  | nil => rfl
  | cons x xs ih => simp [List.filterMap_cons, Either.getRight, ih]

theorem filterMap_getLeft_map_right (l : List β) :
    (l.map (Either.right (α := α))).filterMap Either.getLeft = [] := by
  induction l with
  | nil => rfl
  | cons x xs ih => simp [List.filterMap_cons, Either.getLeft, ih]

theorem filterMap_getLeft_comp (l : List α) :
    l.filterMap (Either.getLeft ∘ (Either.left (β := β))) = l := by
  induction l with
  | nil => rfl
  | cons x xs ih => simp [List.filterMap_cons, Either.getLeft, Function.comp, ih]

theorem filterMap_getRight_comp (l : List β) :
    l.filterMap (Either.getRight ∘ (Either.right (α := α))) = l := by
  induction l with
  | nil => rfl
  | cons x xs ih => simp [List.filterMap_cons, Either.getRight, Function.comp, ih]

/-- The elements the drained iterator emits with a `left` tag are exactly the
remaining left-side elements in their original order, and likewise on the
right.  The hypotheses are the (invariant) well-formedness of a state: a
`none` lookahead buffer means the corresponding source is exhausted. -/
theorem MergeIter.drain_sides (pck : α → β → Pick) :
    ∀ (n : Nat) (s : MergeIter α β), s.size ≤ n →
      (s.ela = none → s.ita = []) → (s.elb = none → s.itb = []) →
      (s.drain pck).1.filterMap Either.getLeft = s.ela.toList ++ s.ita ∧
        (s.drain pck).1.filterMap Either.getRight = s.elb.toList ++ s.itb := by
  intro n
  induction n with
  | zero =>
    intro s hs hA hB
    obtain ⟨ia, ib, ea, eb⟩ := s
    simp only [MergeIter.size] at hs
    have h1 : ea = none := by cases ea <;> simp at hs ⊢
    have h2 : eb = none := by cases eb <;> simp at hs ⊢
    subst h1 h2
    have h3 := hA rfl
    have h4 := hB rfl
    simp only at h3 h4
    subst h3 h4
    have hn : MergeIter.next pck (⟨[], [], none, none⟩ : MergeIter α β) =
        (none, ⟨[], [], none, none⟩, false) := rfl
    rw [MergeIter.drain_step_none pck hn]
    simp
  | succ n ih =>
    intro s hs hA hB
    obtain ⟨ia, ib, ea, eb⟩ := s
    cases ea <;> cases eb
    · have h3 := hA rfl
      have h4 := hB rfl
      simp only at h3 h4
      subst h3 h4
      have hn : MergeIter.next pck (⟨[], [], none, none⟩ : MergeIter α β) =
          (none, ⟨[], [], none, none⟩, false) := rfl
      rw [MergeIter.drain_step_none pck hn]
      simp
    · rename_i b
      have h3 := hA rfl
      simp only at h3
      subst h3
      rw [MergeIter.drain_right_only]
      simp [List.filterMap_cons, filterMap_getLeft_map_right, filterMap_getRight_map_right,
        filterMap_getRight_comp, Either.getLeft, Either.getRight]
    · rename_i a
      have h4 := hB rfl
      simp only at h4
      subst h4
      rw [MergeIter.drain_left_only]
      simp [List.filterMap_cons, filterMap_getLeft_map_left, filterMap_getRight_map_left,
        filterMap_getLeft_comp, Either.getLeft, Either.getRight]
    · rename_i a b
      simp only [MergeIter.size, Option.toList_some, List.length_singleton] at hs
      cases hp : pck a b
      · have hn : MergeIter.next pck ⟨ia, ib, some a, some b⟩ =
            (some (.left a), ⟨ia.tail, ib, ia.head?, some b⟩, true) := by
          simp [MergeIter.next, hp]
        rw [MergeIter.drain_step_some pck hn]
        obtain ⟨hL, hR⟩ := ih ⟨ia.tail, ib, ia.head?, some b⟩
          (by cases ia <;> simp_all [MergeIter.size] <;> omega)
          (by intro h; cases ia <;> simp_all)
          (by intro h; cases h)
        simp only at hL hR
        constructor
        · simp only [List.filterMap_cons, Either.getLeft, hL]
          cases ia <;> simp
        · simp only [List.filterMap_cons, Either.getLeft, Either.getRight, hR]
      · have hn : MergeIter.next pck ⟨ia, ib, some a, some b⟩ =
            (some (.right b), ⟨ia, ib.tail, some a, ib.head?⟩, true) := by
          simp [MergeIter.next, hp]
        rw [MergeIter.drain_step_some pck hn]
        obtain ⟨hL, hR⟩ := ih ⟨ia, ib.tail, some a, ib.head?⟩
          (by cases ib <;> simp_all [MergeIter.size] <;> omega)
          (by intro h; cases h)
          (by intro h; cases ib <;> simp_all)
        simp only at hL hR
        constructor
        · simp only [List.filterMap_cons, Either.getLeft, Either.getRight, hL]
        · simp only [List.filterMap_cons, Either.getRight, hR]
          cases ib <;> simp

/-- C8: the ordered-merge primitive: (a) the left-tagged output is exactly the
first input and the right-tagged output exactly the second, in their original
order (so the output is the disjoint union of the two inputs, multiplicity
preserved, tagged by originating side, with same-side relative order kept);
(b) the output length is the sum of the input lengths; (c,d) once one side is
exhausted the remaining elements of the other side are emitted in their
original order with `pick` never invoked (pick-count 0); (e) after both sides
are exhausted the iterator yields nothing further. -/
theorem claim_C8 {α β : Type} (A : List α) (B : List β) (pck : α → β → Pick) :
    ((MergeIter.new A B).drain pck).1.filterMap Either.getLeft = A ∧
      ((MergeIter.new A B).drain pck).1.filterMap Either.getRight = B ∧
      ((MergeIter.new A B).drain pck).1.length = A.length + B.length ∧
      (∀ (ia : List α) (ib : List β) (b : β),
        MergeIter.drain pck ⟨ia, ib, none, some b⟩ = ((b :: ib).map Either.right, 0)) ∧
      (∀ (ia : List α) (ib : List β) (a : α),
        MergeIter.drain pck ⟨ia, ib, some a, none⟩ = ((a :: ia).map Either.left, 0)) ∧
      (∀ (ia : List α) (ib : List β),
        MergeIter.drain pck ⟨ia, ib, none, none⟩ = ([], 0)) := by
  have hmain := MergeIter.drain_sides pck (MergeIter.new A B).size (MergeIter.new A B) le_rfl
    (by cases A <;> simp [MergeIter.new])
    (by cases B <;> simp [MergeIter.new])
  have hL : ((MergeIter.new A B).drain pck).1.filterMap Either.getLeft = A := by
    rw [hmain.1]
    cases A <;> simp [MergeIter.new]
  have hR : ((MergeIter.new A B).drain pck).1.filterMap Either.getRight = B := by
    rw [hmain.2]
    cases B <;> simp [MergeIter.new]
  refine ⟨hL, hR, ?_, ?_, ?_, ?_⟩
  · rw [filterMap_sides_length ((MergeIter.new A B).drain pck).1, hL, hR]
  · intro ia ib b
    exact MergeIter.drain_right_only pck ia ib b
  · intro ia ib a
    exact MergeIter.drain_left_only pck ib ia a
  · intro ia ib
    have hn : MergeIter.next pck (⟨ia, ib, none, none⟩ : MergeIter α β) =
        (none, ⟨ia, ib, none, none⟩, false) := rfl
    exact MergeIter.drain_step_none pck hn

/-! ### Lengths of the level lists -/

theorem length_mergeBy (p : α → α → Bool) (as bs : List α) :
    (mergeBy p as bs).length = as.length + bs.length := by
  rw [mergeBy_eq_merge]
  exact List.length_merge p as bs

theorem length_pairSums (add : α → α → α) :
    ∀ l : List α, (pairSums add l).length = l.length / 2
  | [] => by
    rw [show pairSums add ([] : List α) = [] from rfl]
    simp
  | [a] => by
    rw [show pairSums add [a] = [] from rfl]
    simp
  | a :: b :: rest => by
    rw [pairSums, List.length_cons, length_pairSums add rest]
    simp only [List.length_cons]
    omega

theorem length_levelTagged (lt : α → α → Bool) (add : α → α → α) (dflt : α)
    (freqs : List α) (sorted : List Nat) (l : List α) :
    (levelTagged lt add dflt freqs sorted l).length = l.length / 2 + sorted.length := by
  rw [levelTagged, length_mergeBy, List.length_map, length_pairSums, leaves, List.length_map]

theorem length_levelList (lt : α → α → Bool) (add : α → α → α) (dflt : α)
    (freqs : List α) (sorted : List Nat) :
    ∀ d, (levelList lt add dflt freqs sorted d).length = levelLen sorted.length d
  | 0 => rfl
  | d + 1 => by
    rw [levelList, List.length_map, length_levelTagged,
      length_levelList lt add dflt freqs sorted d, levelLen]

theorem levelLen_le (n : Nat) (hn : 1 ≤ n) : ∀ d, levelLen n d ≤ 2 * n - 1
  | 0 => by rw [levelLen]; omega
  | d + 1 => by
    have h := levelLen_le n hn d
    rw [levelLen]
    omega

theorem levelLen_deficit (n : Nat) (hn : 1 ≤ n) :
    ∀ d, levelLen n d = 2 * n - 1 - (2 * n - 1) / 2 ^ d
  | 0 => by rw [levelLen]; simp
  | d + 1 => by
    have h := levelLen_deficit n hn d
    have hle := levelLen_le n hn d
    have hds : (2 * n - 1) / 2 ^ (d + 1) = (2 * n - 1) / 2 ^ d / 2 := by
      rw [Nat.pow_succ, Nat.div_div_eq_div_mul]
    have hdle : (2 * n - 1) / 2 ^ d ≤ 2 * n - 1 := Nat.div_le_self _ _
    rw [levelLen, hds]
    omega

theorem levelLen_final_ge (n D : Nat) (hn : 1 ≤ n) (h : n ≤ 2 ^ D) :
    2 * n - 2 ≤ levelLen n D := by
  rw [levelLen_deficit n hn D]
  have h1 : (2 * n - 1) / 2 ^ D < 2 :=
    (Nat.div_lt_iff_lt_mul (Nat.pos_pow_of_pos D (by norm_num))).mpr (by omega)
  have h2 : (2 * n - 1) / 2 ^ D ≤ 2 * n - 1 := Nat.div_le_self _ _
  omega

/-! ### Flag words: bit arithmetic -/
theorem bitGet_eq_testBit (f d : Nat) : bitGet f d = Nat.testBit f d := by
  rw [bitGet, Nat.testBit_to_div_mod]

theorem bitGet_of_lt {f d : Nat} (h : f < 2 ^ d) : bitGet f d = false := by
  rw [bitGet]
  simp [Nat.div_eq_of_lt h]

theorem bitGet_zero (d : Nat) : bitGet 0 d = false :=
  bitGet_of_lt (Nat.pos_pow_of_pos d (by norm_num))

theorem bitSet_of_lt {f d : Nat} (h : f < 2 ^ d) : bitSet f d = f + 2 ^ d := by
  rw [bitSet, if_neg (by simp [bitGet_of_lt h])]

theorem bitGet_bitSet_self {f d : Nat} (h : f < 2 ^ d) : bitGet (bitSet f d) d = true := by
  rw [bitSet_of_lt h, bitGet, Nat.add_div_right f (Nat.pos_pow_of_pos d (by norm_num)),
    Nat.div_eq_of_lt h]
  simp

theorem bitGet_bitSet_lt {f d : Nat} (hf : f < 2 ^ d) {e : Nat} (he : e < d) :
    bitGet (bitSet f d) e = bitGet f e := by
  rw [bitSet_of_lt hf, bitGet, bitGet]
  have h2 : 2 ^ d = 2 ^ (d - e - 1) * 2 * 2 ^ e := by
    rw [Nat.mul_assoc, ← Nat.pow_succ']
    rw [← Nat.pow_add]
    congr 1
    omega
  rw [h2, Nat.add_mul_div_right _ _ (Nat.pos_pow_of_pos e (by norm_num)),
    Nat.mul_comm (2 ^ (d - e - 1)) 2, Nat.mul_comm 2 (2 ^ (d - e - 1)),
    Nat.add_mul_mod_self_right]

theorem bitGet_bitSet_gt {f d : Nat} (hf : f < 2 ^ d) {e : Nat} (he : d < e) :
    bitGet (bitSet f d) e = false := by
  apply bitGet_of_lt
  rw [bitSet_of_lt hf]
  calc f + 2 ^ d < 2 ^ d + 2 ^ d := by omega
  _ = 2 ^ (d + 1) := by rw [Nat.pow_succ]; omega
  _ ≤ 2 ^ e := Nat.pow_le_pow_right (by norm_num) he

theorem bitSet_lt {f d : Nat} (h : f < 2 ^ d) : bitSet f d < 2 ^ (d + 1) := by
  rw [bitSet_of_lt h, Nat.pow_succ]
  omega

/-- Sanity: on the flag words the algorithm builds (no bit at or above `d` is
set yet when bit `d` is written), `bitSet` is exactly the code's `|= 1 << d`. -/
theorem bitSet_eq_lor {f d : Nat} (h : f < 2 ^ d) : bitSet f d = f ||| 2 ^ d := by
  apply Nat.eq_of_testBit_eq
  intro e
  rw [Nat.testBit_lor, Nat.testBit_two_pow, ← bitGet_eq_testBit, ← bitGet_eq_testBit]
  rcases Nat.lt_trichotomy e d with he | he | he
  · rw [bitGet_bitSet_lt h he, decide_eq_false (by omega : ¬ d = e)]
    simp
  · subst he
    rw [bitGet_bitSet_self h, bitGet_of_lt h]
    simp
  · rw [bitGet_bitSet_gt h he,
      bitGet_of_lt (Nat.lt_of_lt_of_le h (Nat.pow_le_pow_right (by norm_num) (by omega))),
      decide_eq_false (by omega : ¬ d = e)]
    rfl

/-! ### The flag vector accumulated by the forward pass -/
theorem getD_replicate_zero : ∀ (c i : Nat), (List.replicate c (0 : Nat)).getD i 0 = 0
  | 0, _ => rfl
  | _ + 1, 0 => rfl
  | c + 1, i + 1 => getD_replicate_zero c i

theorem length_updateFlags (d : Nat) :
    ∀ (fs : List Nat) (ts : List (α × Bool)), (updateFlags d fs ts).length = fs.length
  | fs, [] => by cases fs <;> rfl
  | [], _ :: _ => rfl
  | f :: fs, t :: ts => by
    rw [updateFlags, List.length_cons, List.length_cons, length_updateFlags d fs ts]

theorem updateFlags_getD (d : Nat) :
    ∀ (fs : List Nat) (ts : List (α × Bool)) (i : Nat),
      (updateFlags d fs ts).getD i 0 =
        if tagGet ts i ∧ i < fs.length then bitSet (fs.getD i 0) d else fs.getD i 0
  | fs, [], i => by
    cases fs <;> simp [updateFlags, tagGet]
  | [], _ :: _, i => by
    simp [updateFlags]
  | f :: fs, t :: ts, 0 => by
    rw [updateFlags]
    by_cases ht : t.2 <;> simp [tagGet, ht]
  | f :: fs, t :: ts, i + 1 => by
    rw [updateFlags]
    have ih := updateFlags_getD d fs ts i
    simp only [List.getD_cons_succ, List.length_cons, ih, tagGet, List.map_cons,
      Nat.succ_lt_succ_iff]

section FlagsAcc

variable {α : Type} (lt : α → α → Bool) (add : α → α → α) (dflt : α)

variable (freqs : List α) (sorted : List Nat) (capa : Nat)

theorem length_flagsAcc :
    ∀ r, (flagsAcc lt add dflt freqs sorted capa r).length = capa
  | 0 => List.length_replicate capa 0
  | r + 1 => by
    rw [flagsAcc, length_updateFlags, length_flagsAcc r]

theorem flagsAcc_getD_lt :
    ∀ (r i : Nat), (flagsAcc lt add dflt freqs sorted capa r).getD i 0 < 2 ^ r
  | 0, i => by
    rw [flagsAcc, getD_replicate_zero]
    norm_num
  | r + 1, i => by
    have ih := flagsAcc_getD_lt r i
    rw [flagsAcc, updateFlags_getD]
    split
    · exact bitSet_lt ih
    · calc (flagsAcc lt add dflt freqs sorted capa r).getD i 0 < 2 ^ r := ih
      _ ≤ 2 ^ (r + 1) := Nat.pow_le_pow_right (by norm_num) (by omega)

/-- Bit `d` of flag word `i` after `r` forward levels is set iff level `d` has
already run, position `i` exists in the flag vector, and position `i` of the
merged level-`d` output came from the pair-sum side. -/
theorem flagsAcc_bitGet :
    ∀ (r d i : Nat),
      bitGet ((flagsAcc lt add dflt freqs sorted capa r).getD i 0) d =
        if d < r ∧ i < capa then
          tagGet (levelTagged lt add dflt freqs sorted (levelList lt add dflt freqs sorted d)) i
        else false
  | 0, d, i => by
    rw [flagsAcc, getD_replicate_zero, bitGet_zero, if_neg (by omega)]
  | r + 1, d, i => by
    have ih := flagsAcc_bitGet r d i
    have hlen := length_flagsAcc lt add dflt freqs sorted capa r
    have hlt := flagsAcc_getD_lt lt add dflt freqs sorted capa r i
    rw [flagsAcc, updateFlags_getD, hlen]
    by_cases hcond : tagGet
        (levelTagged lt add dflt freqs sorted (levelList lt add dflt freqs sorted r)) i ∧
        i < capa
    · rw [if_pos hcond]
      rcases Nat.lt_trichotomy d r with hd | hd | hd
      · rw [bitGet_bitSet_lt hlt hd, ih, if_pos ⟨hd, hcond.2⟩, if_pos ⟨by omega, hcond.2⟩]
      · subst hd
        rw [bitGet_bitSet_self hlt, if_pos ⟨by omega, hcond.2⟩]
        exact hcond.1.symm
      · rw [bitGet_bitSet_gt hlt hd, if_neg (by omega)]
    · rw [if_neg hcond, ih]
      by_cases hi : i < capa
      · have htag : tagGet
            (levelTagged lt add dflt freqs sorted (levelList lt add dflt freqs sorted r)) i =
            false := by
          rcases h : tagGet
              (levelTagged lt add dflt freqs sorted (levelList lt add dflt freqs sorted r)) i
          · rfl
          · exact absurd ⟨h, hi⟩ hcond
        by_cases hd : d < r
        · rw [if_pos ⟨hd, hi⟩, if_pos ⟨by omega, hi⟩]
        · by_cases hd2 : d < r + 1
          · have hdr : d = r := by omega
            subst hdr
            rw [if_neg (by omega), if_pos ⟨hd2, hi⟩, htag]
          · rw [if_neg (by omega), if_neg (by omega)]
      · rw [if_neg (by omega), if_neg (by omega)]

/-- The forward pass computes exactly the level lists and accumulated flag
vector described by `levelList` and `flagsAcc`. -/
theorem pmForward_eq :
    ∀ (r depth : Nat),
      pmForward lt add dflt freqs sorted depth r
          (levelList lt add dflt freqs sorted depth)
          (flagsAcc lt add dflt freqs sorted capa depth) =
        (levelList lt add dflt freqs sorted (depth + r),
          flagsAcc lt add dflt freqs sorted capa (depth + r))
  | 0, depth => rfl
  | r + 1, depth => by
    rw [pmForward]
    have step1 : (levelTagged lt add dflt freqs sorted
        (levelList lt add dflt freqs sorted depth)).map Prod.fst =
        levelList lt add dflt freqs sorted (depth + 1) := rfl
    have step2 : updateFlags depth (flagsAcc lt add dflt freqs sorted capa depth)
        (levelTagged lt add dflt freqs sorted (levelList lt add dflt freqs sorted depth)) =
        flagsAcc lt add dflt freqs sorted capa (depth + 1) := rfl
    rw [step1, step2, pmForward_eq r (depth + 1)]
    rw [show depth + 1 + r = depth + (r + 1) by omega]

end FlagsAcc

/-- On a valid input, `pmRun` succeeds, and its result is the backward decode
of the flag vector accumulated over `max_len` forward levels. -/
theorem pmRun_success {α : Type} (lt : α → α → Bool) (add : α → α → α) (dflt : α)
    (freqs : List α) (m : Nat) (hne : freqs ≠ [])
    (hlen : freqs.length ≤ 2 ^ (m % 64)) (hml : m ≤ 32) :
    pmRun lt add dflt freqs m =
      .ok (pmDecode (sortIdx lt dflt freqs)
        (flagsAcc lt add dflt freqs (sortIdx lt dflt freqs) (freqs.length * 2 - 1) m) m
        (freqs.length * 2 - 2) (List.replicate freqs.length 0)) := by
  rw [pmRun, if_neg (by simpa [List.isEmpty_iff] using hne), if_neg (by omega),
    if_neg (by omega)]
  have h := pmForward_eq lt add dflt freqs (sortIdx lt dflt freqs) (freqs.length * 2 - 1) m 0
  simp only [Nat.zero_add] at h
  rw [show levelList lt add dflt freqs (sortIdx lt dflt freqs) 0 = [] from rfl] at h
  rw [show flagsAcc lt add dflt freqs (sortIdx lt dflt freqs) (freqs.length * 2 - 1) 0 =
    List.replicate (freqs.length * 2 - 1) 0 from rfl] at h
  simp only [h]

/-! ### The backward decode -/

theorem countP_add_countP_not {γ : Type} (p : γ → Bool) :
    ∀ l : List γ, l.countP p + l.countP (fun x => !p x) = l.length
  | [] => rfl
  | x :: l => by
    have ih := countP_add_countP_not p l
    rcases h : p x <;> simp [List.countP_cons, h] <;> omega

theorem count_take_succ {γ : Type} (p : γ → Bool) (l : List γ) (dflt : γ) (i : Nat)
    (h : i < l.length) :
    (l.take (i + 1)).countP p = (l.take i).countP p + if p (l.getD i dflt) then 1 else 0 := by
  rw [List.take_succ, List.countP_append, List.getElem?_eq_getElem h]
  simp [List.countP_cons, List.getD_eq_getElem?_getD, List.getElem?_eq_getElem h]

theorem count_take_mono {γ : Type} (p : γ → Bool) (l : List γ) {m m' : Nat} (h : m ≤ m') :
    (l.take m).countP p ≤ (l.take m').countP p := by
  rw [show m' = m + (m' - m) by omega, List.take_add, List.countP_append]
  omega

theorem count_take_le_count {γ : Type} (p : γ → Bool) (l : List γ) (m : Nat) :
    (l.take m).countP p ≤ l.countP p := by
  conv_rhs => rw [← List.take_append_drop m l]
  rw [List.countP_append]
  omega

theorem fcount_add_ufcount (flags : List Nat) (d m : Nat) (h : m ≤ flags.length) :
    fcount flags d m + ufcount flags d m = m := by
  rw [fcount, ufcount, countP_add_countP_not, List.length_take]
  omega

theorem fcount_succ (flags : List Nat) (d i : Nat) (h : i < flags.length) :
    fcount flags d (i + 1) =
      fcount flags d i + if bitGet (flags.getD i 0) d then 1 else 0 :=
  count_take_succ _ flags 0 i h

theorem ufcount_succ (flags : List Nat) (d i : Nat) (h : i < flags.length) :
    ufcount flags d (i + 1) =
      ufcount flags d i + if bitGet (flags.getD i 0) d then 0 else 1 := by
  rw [ufcount, ufcount, count_take_succ _ flags 0 i h]
  rcases hb : bitGet (flags.getD i 0) d <;> simp [hb]

theorem ufcount_mono (flags : List Nat) (d : Nat) {m m' : Nat} (h : m ≤ m') :
    ufcount flags d m ≤ ufcount flags d m' :=
  count_take_mono _ flags h

theorem length_incNth : ∀ (cl : List Nat) (j : Nat), (incNth cl j).length = cl.length
  | [], _ => rfl
  | _ :: _, 0 => rfl
  | x :: xs, j + 1 => by
    rw [incNth, List.length_cons, List.length_cons, length_incNth xs j]

theorem incNth_getD_ne : ∀ (cl : List Nat) (j s : Nat), s ≠ j →
    (incNth cl j).getD s 0 = cl.getD s 0
  | [], _, _, _ => rfl
  | x :: xs, 0, 0, h => absurd rfl h
  | x :: xs, 0, _ + 1, _ => rfl
  | x :: xs, _ + 1, 0, _ => rfl
  | x :: xs, j + 1, s + 1, h => by
    rw [incNth, List.getD_cons_succ, List.getD_cons_succ, incNth_getD_ne xs j s (by omega)]

theorem incNth_getD_self : ∀ (cl : List Nat) (j : Nat), j < cl.length →
    (incNth cl j).getD j 0 = cl.getD j 0 + 1
  | [], j, h => by simp at h
  | x :: xs, 0, _ => rfl
  | x :: xs, j + 1, h => by
    rw [incNth, List.getD_cons_succ, List.getD_cons_succ,
      incNth_getD_self xs j (by simpa using h)]

theorem length_incSeq (sorted : List Nat) :
    ∀ (k : Nat) (cl : List Nat) (a : Nat), (incSeq sorted cl a k).length = cl.length
  | 0, _, _ => rfl
  | k + 1, cl, a => by
    rw [incSeq, length_incSeq sorted k, length_incNth]

theorem incSeq_getD (sorted : List Nat) (hnd : sorted.Nodup) :
    ∀ (k a : Nat) (cl : List Nat) (r : Nat), r < sorted.length → a + k ≤ sorted.length →
      sorted.getD r 0 < cl.length →
      (incSeq sorted cl a k).getD (sorted.getD r 0) 0 =
        cl.getD (sorted.getD r 0) 0 + if a ≤ r ∧ r < a + k then 1 else 0
  | 0, a, cl, r, hr, hak, hcl => by
    rw [incSeq, if_neg (by omega)]
    omega
  | k + 1, a, cl, r, hr, hak, hcl => by
    rw [incSeq, incSeq_getD sorted hnd k (a + 1) (incNth cl (sorted.getD a 0)) r hr
      (by omega) (by rw [length_incNth]; exact hcl)]
    by_cases har : r = a
    · subst har
      rw [incNth_getD_self cl _ hcl, if_neg (by omega), if_pos (by omega)]
    · have hra : a < sorted.length := by omega
      have hne : sorted.getD r 0 ≠ sorted.getD a 0 := by
        intro he
        rw [List.getD_eq_get sorted 0 hr, List.getD_eq_get sorted 0 hra] at he
        have h2 := (List.Nodup.get_inj_iff hnd).mp he
        simp only [Fin.mk.injEq] at h2
        exact har h2
      rw [incNth_getD_ne cl _ _ hne]
      by_cases hcond : a + 1 ≤ r ∧ r < a + 1 + k
      · rw [if_pos hcond, if_pos (by omega)]
      · rw [if_neg hcond, if_neg (by omega)]

theorem decodeLevel_spec (sorted flags : List Nat) (d : Nat) :
    ∀ (r i : Nat) (cl : List Nat), i + r ≤ flags.length →
      decodeLevel sorted flags d r i (fcount flags d i) cl =
        (incSeq sorted cl (ufcount flags d i)
            (ufcount flags d (i + r) - ufcount flags d i),
          fcount flags d (i + r)) := by
  intro r
  induction r with
  | zero =>
    intro i cl h
    rw [decodeLevel, Nat.add_zero, Nat.sub_self, incSeq]
  | succ r ih =>
    intro i cl h
    have hi : i < flags.length := by omega
    rw [decodeLevel]
    by_cases hb : bitGet (flags.getD i 0) d
    · rw [if_pos hb]
      have hf : fcount flags d i + 1 = fcount flags d (i + 1) := by
        rw [fcount_succ flags d i hi, if_pos hb]
      have hu : ufcount flags d (i + 1) = ufcount flags d i := by
        rw [ufcount_succ flags d i hi, if_pos hb]
        omega
      rw [hf, ih (i + 1) cl (by omega), hu, show i + 1 + r = i + (r + 1) by omega]
    · rw [if_neg hb]
      have hf : fcount flags d i = fcount flags d (i + 1) := by
        rw [fcount_succ flags d i hi, if_neg hb]
        omega
      have hu : ufcount flags d (i + 1) = ufcount flags d i + 1 := by
        rw [ufcount_succ flags d i hi, if_neg hb]
      have him : i - fcount flags d i = ufcount flags d i := by
        have h1 := fcount_add_ufcount flags d i (by omega)
        omega
      rw [him, hf, ih (i + 1) (incNth cl (sorted.getD (ufcount flags d i) 0)) (by omega),
        hu, show i + 1 + r = i + (r + 1) by omega]
      have hk : ufcount flags d (i + (r + 1)) - ufcount flags d i =
          (ufcount flags d (i + (r + 1)) - (ufcount flags d i + 1)) + 1 := by
        have hmono : ufcount flags d (i + 1) ≤ ufcount flags d (i + (r + 1)) :=
          ufcount_mono flags d (by omega)
        omega
      conv_rhs => rw [hk, incSeq]

theorem pmDecode_spec (sorted flags : List Nat) (hnd : sorted.Nodup) :
    ∀ (D m : Nat) (cl : List Nat),
      (∀ p ∈ decodeChain flags D m, p.2 ≤ flags.length ∧ ufcount flags p.1 p.2 ≤ sorted.length) →
      (∀ x ∈ sorted, x < cl.length) →
      (pmDecode sorted flags D m cl).length = cl.length ∧
        ∀ r, r < sorted.length →
          (pmDecode sorted flags D m cl).getD (sorted.getD r 0) 0 =
            cl.getD (sorted.getD r 0) 0 + (kListOf flags D m).countP fun k => r < k := by
  intro D
  induction D with
  | zero =>
    intro m cl hchain hcl
    rw [pmDecode]
    refine ⟨rfl, fun r hr => ?_⟩
    rw [kListOf, decodeChain]
    simp
  | succ d ih =>
    intro m cl hchain hcl
    rw [pmDecode]
    by_cases hm : m = 0
    · rw [if_pos hm]
      refine ⟨rfl, fun r hr => ?_⟩
      rw [kListOf, decodeChain, if_pos hm]
      simp
    · rw [if_neg hm]
      have hhead : (d, m) ∈ decodeChain flags (d + 1) m := by
        rw [decodeChain, if_neg hm]
        exact List.mem_cons_self _ _
      obtain ⟨hmlen, hufc⟩ := hchain (d, m) hhead
      dsimp only at hmlen hufc
      have hzero : fcount flags d 0 = 0 := rfl
      have hspec := decodeLevel_spec sorted flags d m 0 cl (by omega)
      rw [hzero] at hspec
      rw [hspec]
      have hufc0 : ufcount flags d 0 = 0 := rfl
      rw [hufc0, Nat.zero_add, Nat.sub_zero]
      have htail : ∀ p ∈ decodeChain flags d (2 * fcount flags d m),
          p.2 ≤ flags.length ∧ ufcount flags p.1 p.2 ≤ sorted.length := by
        intro p hp
        refine hchain p ?_
        rw [decodeChain, if_neg hm]
        exact List.mem_cons_of_mem _ hp
      have hcl' : ∀ x ∈ sorted, x < (incSeq sorted cl 0 (ufcount flags d m)).length := by
        intro x hx
        rw [length_incSeq]
        exact hcl x hx
      obtain ⟨hlen2, hget2⟩ := ih (2 * fcount flags d m) (incSeq sorted cl 0 (ufcount flags d m))
        htail hcl'
      constructor
      · rw [hlen2, length_incSeq]
      · intro r hr
        have hmem : sorted.getD r 0 ∈ sorted := by
          rw [List.getD_eq_get sorted 0 hr]
          exact sorted.get_mem _ _
        rw [hget2 r hr, incSeq_getD sorted hnd (ufcount flags d m) 0 cl r hr
          (by omega) (hcl _ hmem)]
        rw [show kListOf flags (d + 1) m =
          ufcount flags d m :: kListOf flags d (2 * fcount flags d m) by
            rw [kListOf, kListOf, decodeChain, if_neg hm, List.map_cons]]
        rw [List.countP_cons]
        by_cases hrk : r < ufcount flags d m
        · simp [hrk]
          omega
        · simp [hrk]

/-! ### Counting packages and leaves through the flag bits -/
theorem length_insertRank (lt : α → α → Bool) (dflt : α) (freqs : List α) (i : Nat) :
    ∀ l : List Nat, (insertRank lt dflt freqs i l).length = l.length + 1
  | [] => rfl
  | j :: js => by
    rw [insertRank]
    split
    · rfl
    · rw [List.length_cons, length_insertRank lt dflt freqs i js, List.length_cons]

theorem length_sortIdx (lt : α → α → Bool) (dflt : α) (freqs : List α) :
    (sortIdx lt dflt freqs).length = freqs.length := by
  rw [sortIdx]
  have h : ∀ (r : List Nat) (acc : List Nat),
      (r.foldl (fun acc i => insertRank lt dflt freqs i acc) acc).length =
        acc.length + r.length := by
    intro r
    induction r with
    | nil => intro acc; simp
    | cons j js ih =>
      intro acc
      rw [List.foldl_cons, ih, length_insertRank]
      simp only [List.length_cons]
      omega
  rw [h, List.length_range]
  simp

theorem tagGet_lt {α : Type} {t : List (α × Bool)} {i : Nat} (h : i < t.length)
    (x : α × Bool) : tagGet t i = (t.getD i x).2 := by
  rw [tagGet, List.getD_eq_get _ _ (by simpa using h), List.getD_eq_get _ _ h, List.get_map]

/-- All tags of the pair-sum stream are `true`. -/
theorem tags_of_pairs {α : Type} (add : α → α → α) (l : List α) :
    ∀ x ∈ (pairSums add l).map fun s => (s, true), x.2 = true := by
  intro x hx
  obtain ⟨s, -, rfl⟩ := List.mem_map.mp hx
  rfl

/-- All tags of the ranked-frequency stream are `false`. -/
theorem tags_of_leaves {α : Type} (dflt : α) (freqs : List α) (sorted : List Nat) :
    ∀ x ∈ leaves dflt freqs sorted, x.2 = false := by
  intro x hx
  obtain ⟨i, -, rfl⟩ := List.mem_map.mp hx
  rfl

/-- The merged level has exactly `⌊len/2⌋` package entries in total. -/
theorem countP_levelTagged_true {α : Type} (lt : α → α → Bool) (add : α → α → α)
    (dflt : α) (freqs : List α) (sorted : List Nat) (l : List α) :
    (levelTagged lt add dflt freqs sorted l).countP (fun x => x.2) = l.length / 2 := by
  rw [levelTagged, mergeBy_eq_merge,
    List.Perm.countP_eq _ (List.merge_perm_append (mergePred lt)), List.countP_append]
  have h1 : ((pairSums add l).map fun s => (s, true)).countP (fun x => x.2) =
      ((pairSums add l).map fun s => (s, true)).length :=
    List.countP_eq_length.mpr fun a ha => tags_of_pairs add l a ha
  have h2 : (leaves dflt freqs sorted).countP (fun x => x.2) = 0 :=
    List.countP_eq_zero.mpr fun a ha => by simp [tags_of_leaves dflt freqs sorted a ha]
  rw [h1, h2, List.length_map, length_pairSums]
  omega

/-- The merged level has exactly `sorted.length` leaf entries in total. -/
theorem countP_levelTagged_false {α : Type} (lt : α → α → Bool) (add : α → α → α)
    (dflt : α) (freqs : List α) (sorted : List Nat) (l : List α) :
    (levelTagged lt add dflt freqs sorted l).countP (fun x => !x.2) = sorted.length := by
  rw [levelTagged, mergeBy_eq_merge,
    List.Perm.countP_eq _ (List.merge_perm_append (mergePred lt)), List.countP_append]
  have h1 : ((pairSums add l).map fun s => (s, true)).countP (fun x => !x.2) = 0 :=
    List.countP_eq_zero.mpr fun a ha => by simp [tags_of_pairs add l a ha]
  have h2 : (leaves dflt freqs sorted).countP (fun x => !x.2) =
      (leaves dflt freqs sorted).length :=
    List.countP_eq_length.mpr fun a ha => by simp [tags_of_leaves dflt freqs sorted a ha]
  rw [h1, h2, leaves, List.length_map]
  omega

/-- `fcount` on the accumulated flag vector counts exactly the package tags of
the corresponding merged level. -/
theorem fcount_flagsAcc {α : Type} (lt : α → α → Bool) (add : α → α → α) (dflt : α)
    (freqs : List α) (sorted : List Nat) (capa maxLen d : Nat) (hd : d < maxLen) :
    ∀ m, m ≤ capa →
      m ≤ (levelTagged lt add dflt freqs sorted
        (levelList lt add dflt freqs sorted d)).length →
      fcount (flagsAcc lt add dflt freqs sorted capa maxLen) d m =
        ((levelTagged lt add dflt freqs sorted
          (levelList lt add dflt freqs sorted d)).take m).countP (fun x => x.2) := by
  intro m
  induction m with
  | zero => intro _ _; rfl
  | succ m ih =>
    intro hm1 hm2
    have hlen := length_flagsAcc lt add dflt freqs sorted capa maxLen
    have hbit := flagsAcc_bitGet lt add dflt freqs sorted capa maxLen d m
    rw [if_pos (show d < maxLen ∧ m < capa from ⟨hd, by omega⟩)] at hbit
    have htag := tagGet_lt (show m < (levelTagged lt add dflt freqs sorted
      (levelList lt add dflt freqs sorted d)).length by omega) ((dflt, false) : α × Bool)
    rw [fcount_succ _ _ _ (by omega),
      count_take_succ (fun x : α × Bool => x.2) _ (dflt, false) m (by omega),
      ih (by omega) (by omega), hbit, htag]

/-- `ufcount` on the accumulated flag vector counts exactly the leaf tags of
the corresponding merged level. -/
theorem ufcount_flagsAcc {α : Type} (lt : α → α → Bool) (add : α → α → α) (dflt : α)
    (freqs : List α) (sorted : List Nat) (capa maxLen d : Nat) (hd : d < maxLen)
    (m : Nat) (hm1 : m ≤ capa)
    (hm2 : m ≤ (levelTagged lt add dflt freqs sorted
      (levelList lt add dflt freqs sorted d)).length) :
    ufcount (flagsAcc lt add dflt freqs sorted capa maxLen) d m =
      ((levelTagged lt add dflt freqs sorted
        (levelList lt add dflt freqs sorted d)).take m).countP (fun x => !x.2) := by
  have hlen := length_flagsAcc lt add dflt freqs sorted capa maxLen
  have h1 := fcount_add_ufcount (flagsAcc lt add dflt freqs sorted capa maxLen) d m (by omega)
  have h2 := countP_add_countP_not (fun x : α × Bool => x.2)
    ((levelTagged lt add dflt freqs sorted (levelList lt add dflt freqs sorted d)).take m)
  rw [List.length_take] at h2
  have h3 := fcount_flagsAcc lt add dflt freqs sorted capa maxLen d hd m hm1 hm2
  omega

/-- Invariants along the decode chain: every processed `(bit, count)` pair
has its bit inside the run depth, its count bounded by the corresponding
level's length and by `2n − 2`, its package count at most half the previous
level's length, and its leaf count at most `n`. -/
theorem decodeChain_bounds {α : Type} (lt : α → α → Bool) (add : α → α → α) (dflt : α)
    (freqs : List α) (sorted : List Nat) (maxLen : Nat) (hn1 : 1 ≤ sorted.length) :
    ∀ (D m : Nat), D ≤ maxLen → m ≤ levelLen sorted.length D →
      m ≤ 2 * sorted.length - 2 →
      ∀ p ∈ decodeChain
          (flagsAcc lt add dflt freqs sorted (2 * sorted.length - 1) maxLen) D m,
        p.1 < maxLen ∧ p.2 ≤ levelLen sorted.length (p.1 + 1) ∧
          p.2 ≤ 2 * sorted.length - 2 ∧
          fcount (flagsAcc lt add dflt freqs sorted (2 * sorted.length - 1) maxLen)
              p.1 p.2 ≤ levelLen sorted.length p.1 / 2 ∧
          ufcount (flagsAcc lt add dflt freqs sorted (2 * sorted.length - 1) maxLen)
              p.1 p.2 ≤ sorted.length := by
  intro D
  induction D with
  | zero =>
    intro m _ _ _ p hp
    rw [decodeChain] at hp
    cases hp
  | succ d ih =>
    intro m hD hm1 hm2 p hp
    rw [decodeChain] at hp
    by_cases hm : m = 0
    · rw [if_pos hm] at hp
      cases hp
    · rw [if_neg hm] at hp
      have hd : d < maxLen := by omega
      have hcapa : m ≤ 2 * sorted.length - 1 := by omega
      have htlen : (levelTagged lt add dflt freqs sorted
          (levelList lt add dflt freqs sorted d)).length = levelLen sorted.length (d + 1) := by
        rw [length_levelTagged, length_levelList, levelLen]
      have hmt : m ≤ (levelTagged lt add dflt freqs sorted
          (levelList lt add dflt freqs sorted d)).length := by
        rw [htlen]
        exact hm1
      have hfc := fcount_flagsAcc lt add dflt freqs sorted (2 * sorted.length - 1) maxLen d
        hd m hcapa hmt
      have hufc := ufcount_flagsAcc lt add dflt freqs sorted (2 * sorted.length - 1) maxLen d
        hd m hcapa hmt
      have hfc_le : fcount (flagsAcc lt add dflt freqs sorted (2 * sorted.length - 1) maxLen)
          d m ≤ levelLen sorted.length d / 2 := by
        rw [hfc]
        calc ((levelTagged lt add dflt freqs sorted
            (levelList lt add dflt freqs sorted d)).take m).countP (fun x => x.2) ≤
            (levelTagged lt add dflt freqs sorted
              (levelList lt add dflt freqs sorted d)).countP (fun x => x.2) :=
          count_take_le_count _ _ m
        _ = (levelList lt add dflt freqs sorted d).length / 2 :=
          countP_levelTagged_true lt add dflt freqs sorted _
        _ = levelLen sorted.length d / 2 := by rw [length_levelList]
      have hufc_le : ufcount (flagsAcc lt add dflt freqs sorted (2 * sorted.length - 1) maxLen)
          d m ≤ sorted.length := by
        rw [hufc]
        calc ((levelTagged lt add dflt freqs sorted
            (levelList lt add dflt freqs sorted d)).take m).countP (fun x => !x.2) ≤
            (levelTagged lt add dflt freqs sorted
              (levelList lt add dflt freqs sorted d)).countP (fun x => !x.2) :=
          count_take_le_count _ _ m
        _ = sorted.length := countP_levelTagged_false lt add dflt freqs sorted _
      rcases List.mem_cons.mp hp with hp2 | hp2
      · subst hp2
        exact ⟨hd, hm1, hm2, hfc_le, hufc_le⟩
      · have hll := levelLen_le sorted.length hn1 d
        refine ih (2 * fcount (flagsAcc lt add dflt freqs sorted (2 * sorted.length - 1) maxLen)
          d m) (by omega) (by omega) (by omega) p hp2

/-- C10: memory safety of the engine on every input passing the validated
size checks (`n ≥ 1`, `n ≤ 2^max_len`): (a) every forward level's merged
output has length at most `2n − 1`, so each write `flags[merged.len()]`
stays inside the flag vector of length `2n − 1`; (b) the final level has
length at least `2n − 2`, so the `debug_assert!(list.len() >= n)` of
`src/lib.rs:115` holds; (c) in the backward decode every processed relevant
count is at most `2n − 2` (so each read `flags[i]` is in bounds), and at
every position `i`, `merged ≤ i`, and at every unflagged (leaf) position,
`i - merged < n`, so `sorted[i - merged]` and
`code_lens[sorted[i - merged]]` are in bounds. -/
theorem claim_C10 (frequencies : List F64) (maxLen : Nat)
    (h1 : 1 ≤ frequencies.length) (h2 : frequencies.length ≤ 2 ^ maxLen)
    (sorted : List Nat) (hs : sorted = sortIdx F64.lt (F64.fin 0) frequencies)
    (flags : List Nat)
    (hf : flags = flagsAcc F64.lt F64.add (F64.fin 0) frequencies sorted
      (frequencies.length * 2 - 1) maxLen) :
    (∀ d, d < maxLen →
      (levelTagged F64.lt F64.add (F64.fin 0) frequencies sorted
        (levelList F64.lt F64.add (F64.fin 0) frequencies sorted d)).length ≤
        2 * frequencies.length - 1) ∧
      2 * frequencies.length - 2 ≤
        (levelList F64.lt F64.add (F64.fin 0) frequencies sorted maxLen).length ∧
      ∀ p ∈ decodeChain flags maxLen (frequencies.length * 2 - 2),
        p.2 ≤ 2 * frequencies.length - 2 ∧
          ∀ i, i < p.2 →
            fcount flags p.1 i ≤ i ∧
              (bitGet (flags.getD i 0) p.1 = false →
                i - fcount flags p.1 i < frequencies.length) := by
  have hslen : sorted.length = frequencies.length := by
    rw [hs, length_sortIdx]
  have hn1 : 1 ≤ sorted.length := by omega
  have hpow : sorted.length ≤ 2 ^ maxLen := by omega
  have hcapa : frequencies.length * 2 - 1 = 2 * sorted.length - 1 := by omega
  have hf2 : flags = flagsAcc F64.lt F64.add (F64.fin 0) frequencies sorted
      (2 * sorted.length - 1) maxLen := by rw [hf, hcapa]
  have hflen : flags.length = 2 * sorted.length - 1 := by
    rw [hf2, length_flagsAcc]
  have hge := levelLen_final_ge sorted.length maxLen hn1 hpow
  refine ⟨?_, ?_, ?_⟩
  · intro d hd
    rw [length_levelTagged, length_levelList]
    have h4 : levelLen sorted.length d / 2 + sorted.length = levelLen sorted.length (d + 1) :=
      rfl
    have h5 := levelLen_le sorted.length hn1 (d + 1)
    omega
  · rw [length_levelList, hslen] at *
    omega
  · intro p hp
    have hm2 : frequencies.length * 2 - 2 = 2 * sorted.length - 2 := by omega
    rw [hf2, hm2] at hp
    have hb := decodeChain_bounds F64.lt F64.add (F64.fin 0) frequencies sorted maxLen hn1
      maxLen (2 * sorted.length - 2) le_rfl (by omega) le_rfl p hp
    obtain ⟨hbit, hlev, hle, hfcb, hufcb⟩ := hb
    rw [hf2]
    refine ⟨by omega, fun i hi => ⟨?_, fun hub => ?_⟩⟩
    · calc fcount (flagsAcc F64.lt F64.add (F64.fin 0) frequencies sorted
          (2 * sorted.length - 1) maxLen) p.1 i ≤
          ((flagsAcc F64.lt F64.add (F64.fin 0) frequencies sorted
            (2 * sorted.length - 1) maxLen).take i).length := List.countP_le_length _
      _ ≤ i := by rw [List.length_take]; omega
    · have hilen : i < (flagsAcc F64.lt F64.add (F64.fin 0) frequencies sorted
          (2 * sorted.length - 1) maxLen).length := by
        rw [length_flagsAcc]
        omega
      have hadd := fcount_add_ufcount (flagsAcc F64.lt F64.add (F64.fin 0) frequencies sorted
        (2 * sorted.length - 1) maxLen) p.1 i (by omega)
      have hsucc := ufcount_succ (flagsAcc F64.lt F64.add (F64.fin 0) frequencies sorted
        (2 * sorted.length - 1) maxLen) p.1 i hilen
      rw [if_neg (by rw [hub]; exact Bool.false_ne_true)] at hsucc
      have hmono : ufcount (flagsAcc F64.lt F64.add (F64.fin 0) frequencies sorted
          (2 * sorted.length - 1) maxLen) p.1 (i + 1) ≤
          ufcount (flagsAcc F64.lt F64.add (F64.fin 0) frequencies sorted
            (2 * sorted.length - 1) maxLen) p.1 p.2 :=
        ufcount_mono _ _ (by omega)
      omega

theorem claim_C10_witness :
    (∀ d, d < 1 →
      (levelTagged F64.lt F64.add (F64.fin 0) [F64.fin 1, F64.fin 2]
        (sortIdx F64.lt (F64.fin 0) [F64.fin 1, F64.fin 2])
        (levelList F64.lt F64.add (F64.fin 0) [F64.fin 1, F64.fin 2]
          (sortIdx F64.lt (F64.fin 0) [F64.fin 1, F64.fin 2]) d)).length ≤ 3) ∧
      2 ≤ (levelList F64.lt F64.add (F64.fin 0) [F64.fin 1, F64.fin 2]
        (sortIdx F64.lt (F64.fin 0) [F64.fin 1, F64.fin 2]) 1).length ∧
      ∀ p ∈ decodeChain (flagsAcc F64.lt F64.add (F64.fin 0) [F64.fin 1, F64.fin 2]
          (sortIdx F64.lt (F64.fin 0) [F64.fin 1, F64.fin 2]) 3 1) 1 2,
        p.2 ≤ 2 ∧
          ∀ i, i < p.2 →
            fcount (flagsAcc F64.lt F64.add (F64.fin 0) [F64.fin 1, F64.fin 2]
              (sortIdx F64.lt (F64.fin 0) [F64.fin 1, F64.fin 2]) 3 1) p.1 i ≤ i ∧
              (bitGet ((flagsAcc F64.lt F64.add (F64.fin 0) [F64.fin 1, F64.fin 2]
                  (sortIdx F64.lt (F64.fin 0) [F64.fin 1, F64.fin 2]) 3 1).getD i 0) p.1 =
                  false →
                i - fcount (flagsAcc F64.lt F64.add (F64.fin 0) [F64.fin 1, F64.fin 2]
                  (sortIdx F64.lt (F64.fin 0) [F64.fin 1, F64.fin 2]) 3 1) p.1 i < 2) :=
  claim_C10 [F64.fin 1, F64.fin 2] 1 (by decide) (by decide) _ rfl _ rfl

/-! ### The stable sort of the symbol indices -/
theorem mem_insertRank {α : Type} (lt : α → α → Bool) (dflt : α) (freqs : List α) (i : Nat) :
    ∀ (l : List Nat) (x : Nat), x ∈ insertRank lt dflt freqs i l ↔ x = i ∨ x ∈ l
  | [], x => by simp [insertRank]
  | j :: js, x => by
    rw [insertRank]
    split
    · simp [or_comm, or_assoc, or_left_comm]
    · rw [List.mem_cons, mem_insertRank lt dflt freqs i js x]
      simp [or_comm, or_assoc, or_left_comm]

theorem insertRank_perm {α : Type} (lt : α → α → Bool) (dflt : α) (freqs : List α) (i : Nat) :
    ∀ l : List Nat, (insertRank lt dflt freqs i l).Perm (i :: l)
  | [] => List.Perm.refl _
  | j :: js => by
    rw [insertRank]
    split
    · exact List.Perm.refl _
    · exact ((insertRank_perm lt dflt freqs i js).cons j).trans (List.Perm.swap i j js)

theorem foldl_insertRank_perm {α : Type} (lt : α → α → Bool) (dflt : α) (freqs : List α) :
    ∀ (r acc : List Nat),
      (r.foldl (fun acc i => insertRank lt dflt freqs i acc) acc).Perm (acc ++ r)
  | [], acc => by simp
  | j :: r, acc => by
    rw [List.foldl_cons]
    refine (foldl_insertRank_perm lt dflt freqs r (insertRank lt dflt freqs j acc)).trans ?_
    refine (List.Perm.append_right r (insertRank_perm lt dflt freqs j acc)).trans ?_
    exact List.perm_middle.symm.trans (by simp)

theorem sortIdx_perm {α : Type} (lt : α → α → Bool) (dflt : α) (freqs : List α) :
    (sortIdx lt dflt freqs).Perm (List.range freqs.length) := by
  rw [sortIdx]
  simpa using foldl_insertRank_perm lt dflt freqs (List.range freqs.length) []

theorem sortIdx_nodup {α : Type} (lt : α → α → Bool) (dflt : α) (freqs : List α) :
    (sortIdx lt dflt freqs).Nodup :=
  (sortIdx_perm lt dflt freqs).nodup_iff.mpr (List.nodup_range _)

theorem sortIdx_mem_lt {α : Type} (lt : α → α → Bool) (dflt : α) (freqs : List α)
    {x : Nat} (hx : x ∈ sortIdx lt dflt freqs) : x < freqs.length :=
  List.mem_range.mp ((sortIdx_perm lt dflt freqs).mem_iff.mp hx)

theorem ordBy_ratLt_lt {a b : ℚ} : ordBy ratLt a b = .lt ↔ a < b := by
  rw [ordBy, ratLt]
  rcases lt_trichotomy a b with h | h | h
  · simp [h]
  · simp [h, lt_irrefl]
  · simp [h, not_lt_of_lt h, lt_irrefl, ne_of_gt h]

theorem insertRank_pairwise (qs : List ℚ) (i : Nat) :
    ∀ l : List Nat, List.Pairwise (rankR qs) l → (∀ j ∈ l, j < i) →
      List.Pairwise (rankR qs) (insertRank ratLt 0 qs i l)
  | [], _, _ => List.pairwise_singleton _ _
  | j :: js, hP, hlt => by
    rw [insertRank]
    obtain ⟨hj, hjs⟩ := List.pairwise_cons.mp hP
    split
    · rename_i hord
      refine List.pairwise_cons.mpr ⟨?_, hP⟩
      intro x hx
      have hij : qs.getD i 0 < qs.getD j 0 := ordBy_ratLt_lt.mp hord
      rcases List.mem_cons.mp hx with rfl | hx
      · exact Or.inl hij
      · rcases hj x hx with h | ⟨h, -⟩
        · exact Or.inl (lt_trans hij h)
        · exact Or.inl (h ▸ hij)
    · rename_i hord
      refine List.pairwise_cons.mpr ⟨?_, insertRank_pairwise qs i js hjs
        (fun x hx => hlt x (List.mem_cons_of_mem j hx))⟩
      intro x hx
      rcases (mem_insertRank ratLt 0 qs i js x).mp hx with hxi | hx
      · rw [hxi]
        have hij2 : ¬ qs.getD i 0 < qs.getD j 0 := fun hgt => hord (ordBy_ratLt_lt.mpr hgt)
        rcases lt_or_eq_of_le (not_lt.mp hij2) with h | h
        · exact Or.inl h
        · exact Or.inr ⟨h, hlt j (List.mem_cons_self j js)⟩
      · exact hj x hx

theorem foldl_insertRank_pairwise (qs : List ℚ) :
    ∀ (r acc : List Nat), List.Pairwise (· < ·) r → List.Pairwise (rankR qs) acc →
      (∀ j ∈ acc, ∀ i ∈ r, j < i) →
      List.Pairwise (rankR qs) (r.foldl (fun acc i => insertRank ratLt 0 qs i acc) acc)
  | [], acc, _, hacc, _ => hacc
  | i :: r, acc, hr, hacc, hcross => by
    rw [List.foldl_cons]
    obtain ⟨hir, hrr⟩ := List.pairwise_cons.mp hr
    refine foldl_insertRank_pairwise qs r (insertRank ratLt 0 qs i acc) hrr
      (insertRank_pairwise qs i acc hacc
        (fun j hj => hcross j hj i (List.mem_cons_self i r))) ?_
    intro j hj i' hi'
    rcases (mem_insertRank ratLt 0 qs i acc j).mp hj with rfl | hj
    · exact hir i' hi'
    · exact hcross j hj i' (List.mem_cons_of_mem i hi')

theorem sortIdx_pairwise (qs : List ℚ) :
    List.Pairwise (rankR qs) (sortIdx ratLt 0 qs) := by
  rw [sortIdx]
  exact foldl_insertRank_pairwise qs (List.range qs.length) [] (List.pairwise_lt_range _)
    (List.Pairwise.nil) (by simp)

/-- Stability: if `rankR qs i j` then `i` is ranked strictly before `j`. -/
theorem sortIdx_indexOf_lt (qs : List ℚ) (i j : Nat) (hi : i < qs.length)
    (hj : j < qs.length) (hij : rankR qs i j) :
    (sortIdx ratLt 0 qs).indexOf i < (sortIdx ratLt 0 qs).indexOf j := by
  have hmi : i ∈ sortIdx ratLt 0 qs :=
    (sortIdx_perm ratLt 0 qs).mem_iff.mpr (List.mem_range.mpr hi)
  have hmj : j ∈ sortIdx ratLt 0 qs :=
    (sortIdx_perm ratLt 0 qs).mem_iff.mpr (List.mem_range.mpr hj)
  have hpi : (sortIdx ratLt 0 qs).indexOf i < (sortIdx ratLt 0 qs).length :=
    List.indexOf_lt_length.mpr hmi
  have hpj : (sortIdx ratLt 0 qs).indexOf j < (sortIdx ratLt 0 qs).length :=
    List.indexOf_lt_length.mpr hmj
  have hgi : (sortIdx ratLt 0 qs).get ⟨_, hpi⟩ = i := List.indexOf_get hpi
  have hgj : (sortIdx ratLt 0 qs).get ⟨_, hpj⟩ = j := List.indexOf_get hpj
  by_contra hcon
  push_neg at hcon
  rcases lt_or_eq_of_le hcon with hlt2 | heq
  · have := (List.pairwise_iff_get.mp (sortIdx_pairwise qs)) ⟨_, hpj⟩ ⟨_, hpi⟩ hlt2
    rw [hgi, hgj] at this
    rcases hij with h1 | ⟨h1, h2⟩ <;> rcases this with h3 | ⟨h3, h4⟩
    · exact absurd (lt_trans h1 h3) (lt_irrefl _)
    · exact absurd (h3 ▸ h1) (lt_irrefl _)
    · exact absurd (h1 ▸ h3) (lt_irrefl _)
    · omega
  · have : j = i := by
      rw [← hgi, ← hgj]
      congr 1
      exact Fin.ext heq
    subst this
    rcases hij with h1 | ⟨-, h2⟩
    · exact absurd h1 (lt_irrefl _)
    · omega

/-! ### The rank-length formula for the decoded result -/

/-- On every input passing validation, the engine returns a vector of
`frequencies.length` code lengths, and the length of the symbol of rank `r`
(position `r` of the ranked index vector) is the number of processed decode
levels whose leaf count exceeds `r`. -/
theorem pmRun_decode_getD {α : Type} (lt : α → α → Bool) (add : α → α → α) (dflt : α)
    (freqs : List α) (maxLen : Nat) (hne : freqs ≠ [])
    (hlen : freqs.length ≤ 2 ^ (maxLen % 64)) (hml : maxLen ≤ 32) :
    ∃ ls, pmRun lt add dflt freqs maxLen = .ok ls ∧ ls.length = freqs.length ∧
      ∀ r, r < freqs.length →
        ls.getD ((sortIdx lt dflt freqs).getD r 0) 0 =
          (kListOf (flagsAcc lt add dflt freqs (sortIdx lt dflt freqs)
              (freqs.length * 2 - 1) maxLen) maxLen
            (freqs.length * 2 - 2)).countP fun k => r < k := by
  have hn1 : 1 ≤ freqs.length := by
    cases freqs
    · exact absurd rfl hne
    · simp
  have hml64 : maxLen % 64 = maxLen := Nat.mod_eq_of_lt (by omega)
  have hpow : freqs.length ≤ 2 ^ maxLen := by rw [← hml64]; exact hlen
  have hslen : (sortIdx lt dflt freqs).length = freqs.length := length_sortIdx lt dflt freqs
  have hcapa : freqs.length * 2 - 1 = 2 * (sortIdx lt dflt freqs).length - 1 := by omega
  have hm0 : freqs.length * 2 - 2 = 2 * (sortIdx lt dflt freqs).length - 2 := by omega
  have hge := levelLen_final_ge (sortIdx lt dflt freqs).length maxLen (by omega) (by omega)
  have hchain : ∀ p ∈ decodeChain (flagsAcc lt add dflt freqs (sortIdx lt dflt freqs)
      (freqs.length * 2 - 1) maxLen) maxLen (freqs.length * 2 - 2),
      p.2 ≤ (flagsAcc lt add dflt freqs (sortIdx lt dflt freqs)
        (freqs.length * 2 - 1) maxLen).length ∧
      ufcount (flagsAcc lt add dflt freqs (sortIdx lt dflt freqs)
        (freqs.length * 2 - 1) maxLen) p.1 p.2 ≤ (sortIdx lt dflt freqs).length := by
    rw [hcapa, hm0]
    intro p hp
    have hb := decodeChain_bounds lt add dflt freqs (sortIdx lt dflt freqs) maxLen (by omega)
      maxLen (2 * (sortIdx lt dflt freqs).length - 2) le_rfl (by omega) le_rfl p hp
    rw [length_flagsAcc]
    exact ⟨by omega, hb.2.2.2.2⟩
  have hcl : ∀ x ∈ sortIdx lt dflt freqs, x < (List.replicate freqs.length (0 : Nat)).length := by
    intro x hx
    rw [List.length_replicate]
    exact sortIdx_mem_lt lt dflt freqs hx
  obtain ⟨hlen2, hget2⟩ := pmDecode_spec (sortIdx lt dflt freqs)
    (flagsAcc lt add dflt freqs (sortIdx lt dflt freqs) (freqs.length * 2 - 1) maxLen)
    (sortIdx_nodup lt dflt freqs) maxLen (freqs.length * 2 - 2)
    (List.replicate freqs.length 0) hchain hcl
  refine ⟨_, pmRun_success lt add dflt freqs maxLen hne hlen hml, ?_, ?_⟩
  · rw [hlen2, List.length_replicate]
  · intro r hr
    rw [hget2 r (by omega), getD_replicate_zero, Nat.zero_add]

/-- C6 (amended): monotone except on exact frequency ties, where the
*earlier-indexed* symbol gets the (weakly) longer code: if
`frequency[i] < frequency[j]`, or the two frequencies are equal and `i ≤ j`,
then `length[i] ≥ length[j]`.  (The unrestricted claim fails for equal
frequencies, see the counterexample.) -/
theorem claim_C6 (qs : List ℚ) (maxLen : Nat) (hne : qs ≠ [])
    (hlen : qs.length ≤ 2 ^ (maxLen % 64)) (hml : maxLen ≤ 32)
    (i j : Nat) (hi : i < qs.length) (hj : j < qs.length)
    (hij : qs.getD i 0 < qs.getD j 0 ∨ (qs.getD i 0 = qs.getD j 0 ∧ i ≤ j))
    (ls : List Nat) (hok : package_merge (qs.map F64.fin) maxLen = .ok ls) :
    ls.getD j 0 ≤ ls.getD i 0 := by
  by_cases heq : i = j
  · subst heq
    exact le_rfl
  · have hR : rankR qs i j := by
      rcases hij with h | ⟨h, h2⟩
      · exact Or.inl h
      · exact Or.inr ⟨h, by omega⟩
    rw [package_merge_rat, pmRat] at hok
    obtain ⟨ls2, hok2, hlen2, hform⟩ := pmRun_decode_getD ratLt (· + ·) 0 qs maxLen hne hlen hml
    rw [hok2] at hok
    injection hok with hok
    subst hok
    have hrank := sortIdx_indexOf_lt qs i j hi hj hR
    have hmi : i ∈ sortIdx ratLt 0 qs :=
      (sortIdx_perm ratLt 0 qs).mem_iff.mpr (List.mem_range.mpr hi)
    have hmj : j ∈ sortIdx ratLt 0 qs :=
      (sortIdx_perm ratLt 0 qs).mem_iff.mpr (List.mem_range.mpr hj)
    have hpi : (sortIdx ratLt 0 qs).indexOf i < (sortIdx ratLt 0 qs).length :=
      List.indexOf_lt_length.mpr hmi
    have hpj : (sortIdx ratLt 0 qs).indexOf j < (sortIdx ratLt 0 qs).length :=
      List.indexOf_lt_length.mpr hmj
    have hslen : (sortIdx ratLt 0 qs).length = qs.length := length_sortIdx ratLt 0 qs
    have hgi : (sortIdx ratLt 0 qs).getD ((sortIdx ratLt 0 qs).indexOf i) 0 = i := by
      rw [List.getD_eq_get _ _ hpi]
      exact List.indexOf_get hpi
    have hgj : (sortIdx ratLt 0 qs).getD ((sortIdx ratLt 0 qs).indexOf j) 0 = j := by
      rw [List.getD_eq_get _ _ hpj]
      exact List.indexOf_get hpj
    have hfi := hform ((sortIdx ratLt 0 qs).indexOf i) (by omega)
    have hfj := hform ((sortIdx ratLt 0 qs).indexOf j) (by omega)
    rw [hgi] at hfi
    rw [hgj] at hfj
    rw [hfi, hfj]
    exact List.countP_mono_left fun k _ hk => by
      simp only [decide_eq_true_eq] at hk ⊢
      omega

/-- C6 witness: frequencies `[1, 2]`, `max_len = 2`, symbols `i = 0`, `j = 1`:
the returned lengths are `[1, 1]` and `length[1] ≤ length[0]`. -/
theorem claim_C6_witness :
    ((1 : ℚ) < 2 ∨ ((1 : ℚ) = 2 ∧ (0 : Nat) ≤ 1)) ∧
      ([1, 1] : List Nat).getD 1 0 ≤ ([1, 1] : List Nat).getD 0 0 := by
  refine ⟨Or.inl (by norm_num), ?_⟩
  refine claim_C6 [1, 2] 2 (by decide) (by norm_num) (by norm_num) 0 1 (by norm_num)
    (by norm_num) (Or.inl (by norm_num)) [1, 1] ?_
  have h : ([(1 : ℚ), 2]).map F64.fin = ([1, 2] : List ℤ).map intF64 := by
    norm_num [intF64]
  rw [h, package_merge_int]
  rfl

/-! ### Prefixes of a two-sided merge -/

/-- Every prefix of a merge of a `true`-tagged stream with a `false`-tagged
stream consists of a prefix of each stream: the `true` elements of the first
`m` merged entries are the first `cT` pair-sums and the `false` elements are
the first `cF` ranked frequencies, where `cT`/`cF` count the tags in the
prefix. -/
theorem merge_take_sides {α : Type} (p : α × Bool → α × Bool → Bool) (A : List (α × Bool)) :
    ∀ (B : List (α × Bool)), (∀ a ∈ A, a.2 = true) → (∀ b ∈ B, b.2 = false) →
      ∀ m,
        ((List.merge A B p).take m).filter (fun y => y.2) =
          A.take (((List.merge A B p).take m).countP fun y => y.2) ∧
        ((List.merge A B p).take m).filter (fun y => !y.2) =
          B.take (((List.merge A B p).take m).countP fun y => !y.2) := by
  induction A with
  | nil =>
    intro B hA hB m
    rw [List.nil_merge]
    constructor
    · have h1 : ∀ y ∈ B.take m, ¬ (y.2 = true) := by
        intro y hy
        rw [hB y (List.mem_of_mem_take hy)]
        simp
      rw [List.filter_eq_nil.mpr (by simpa using h1),
        List.countP_eq_zero.mpr (by simpa using h1), List.take_zero]
    · have h1 : ∀ y ∈ B.take m, (fun y : α × Bool => !y.2) y = true := by
        intro y hy
        show (!y.2) = true
        rw [hB y (List.mem_of_mem_take hy)]
        rfl
      rw [List.filter_eq_self.mpr h1, List.countP_eq_length.mpr h1, List.length_take]
      refine (List.take_eq_take.mpr ?_).symm
      omega
  | cons a A' ihA =>
    intro B
    induction B with
    | nil =>
      intro hA hB m
      rw [List.merge_right]
      constructor
      · have h1 : ∀ y ∈ (a :: A').take m, (fun y : α × Bool => y.2) y = true := by
          intro y hy
          exact hA y (List.mem_of_mem_take hy)
        rw [List.filter_eq_self.mpr h1, List.countP_eq_length.mpr h1, List.length_take]
        refine (List.take_eq_take.mpr ?_).symm
        omega
      · have h1 : ∀ y ∈ (a :: A').take m, ¬ ((fun y : α × Bool => !y.2) y = true) := by
          intro y hy
          show ¬ (!y.2) = true
          rw [hA y (List.mem_of_mem_take hy)]
          simp
        rw [List.filter_eq_nil.mpr (by simpa using h1)]
        simp
    | cons b B' ihB =>
      intro hA hB m
      have ha2 : a.2 = true := hA a (List.mem_cons_self a A')
      have hb2 : b.2 = false := hB b (List.mem_cons_self b B')
      have hA' : ∀ x ∈ A', x.2 = true := fun x hx => hA x (List.mem_cons_of_mem _ hx)
      have hB' : ∀ x ∈ B', x.2 = false := fun x hx => hB x (List.mem_cons_of_mem _ hx)
      by_cases hp : p a b
      · rw [List.cons_merge_cons_pos _ _ _ hp]
        cases m with
        | zero => simp
        | succ m' =>
          rw [List.take_succ_cons]
          obtain ⟨ihT, ihF⟩ := ihA (b :: B') hA' hB m'
          constructor
          · rw [List.filter_cons_of_pos (by simpa using ha2),
              List.countP_cons_of_pos _ _ (by simpa using ha2), List.take_succ_cons, ihT]
          · rw [List.filter_cons_of_neg (by simp [ha2]),
              List.countP_cons_of_neg _ _ (by simp [ha2]), ihF]
      · rw [List.cons_merge_cons_neg _ _ _ hp]
        cases m with
        | zero => simp
        | succ m' =>
          rw [List.take_succ_cons]
          obtain ⟨ihT, ihF⟩ := ihB hA hB' m'
          constructor
          · rw [List.filter_cons_of_neg (by simp [hb2]),
              List.countP_cons_of_neg _ _ (by simp [hb2]), ihT]
          · rw [List.filter_cons_of_pos (by simp [hb2]),
              List.countP_cons_of_pos _ _ (by simp [hb2]), List.take_succ_cons, ihF]

/-- Ordering invariant of the forward merge at every prefix: each `true`-tagged
(pair-sum) element among the first `m` merged entries is strictly below every
ranked frequency not yet consumed at that point (`B.drop cF`, where `cF` counts
the `false` tags in the prefix).  This is what makes the per-level leaf counts
nested across levels. -/
theorem merge_invI (A : List (ℚ × Bool)) :
    ∀ (B : List (ℚ × Bool)), (∀ a ∈ A, a.2 = true) → (∀ b ∈ B, b.2 = false) →
      List.Pairwise (fun x y : ℚ × Bool => x.1 ≤ y.1) B →
      ∀ m, ∀ x ∈ (List.merge A B (mergePred ratLt)).take m, x.2 = true →
        ∀ b ∈ B.drop (((List.merge A B (mergePred ratLt)).take m).countP fun y => !y.2),
          x.1 < b.1 := by
  induction A with
  | nil =>
    intro B hA hB hsB m x hx htx b hb
    rw [List.nil_merge] at hx
    rw [hB x (List.mem_of_mem_take hx)] at htx
    exact absurd htx (by simp)
  | cons a A' ihA =>
    intro B
    induction B with
    | nil =>
      intro hA hB hsB m x hx htx b hb
      rw [List.drop_nil] at hb
      exact absurd hb (List.not_mem_nil b)
    | cons b B' ihB =>
      intro hA hB hsB m x hx htx b' hb'
      have ha2 : a.2 = true := hA a (List.mem_cons_self a A')
      have hb2 : b.2 = false := hB b (List.mem_cons_self b B')
      have hA' : ∀ y ∈ A', y.2 = true := fun y hy => hA y (List.mem_cons_of_mem _ hy)
      have hB' : ∀ y ∈ B', y.2 = false := fun y hy => hB y (List.mem_cons_of_mem _ hy)
      by_cases hp : mergePred ratLt a b
      · rw [List.cons_merge_cons_pos _ _ _ hp] at hx hb'
        cases m with
        | zero =>
          rw [List.take_zero] at hx
          exact absurd hx (List.not_mem_nil x)
        | succ m' =>
          rw [List.take_succ_cons] at hx hb'
          rw [List.countP_cons_of_neg _ _ (by simp [ha2])] at hb'
          rcases List.mem_cons.mp hx with hxa | hx'
          · subst hxa
            have hab : x.1 < b.1 := by
              simpa [mergePred, ratLt] using hp
            rcases List.mem_cons.mp (List.mem_of_mem_drop hb') with hbb | hbB'
            · rw [hbb]
              exact hab
            · exact lt_of_lt_of_le hab (List.rel_of_pairwise_cons hsB hbB')
          · exact ihA (b :: B') hA' hB hsB m' x hx' htx b' hb'
      · rw [List.cons_merge_cons_neg _ _ _ hp] at hx hb'
        cases m with
        | zero =>
          rw [List.take_zero] at hx
          exact absurd hx (List.not_mem_nil x)
        | succ m' =>
          rw [List.take_succ_cons] at hx hb'
          rw [List.countP_cons_of_pos _ _ (by simp [hb2]), List.drop_succ_cons] at hb'
          rcases List.mem_cons.mp hx with hxb | hx'
          · rw [hxb, hb2] at htx
            exact absurd htx (by simp)
          · exact ihB hA hB' (List.Pairwise.of_cons hsB) m' x hx' htx b' hb'

/-! ### Value facts: merged levels are ascending and non-negative -/

/-- The forward merge of two ascending tagged streams is ascending (by value). -/
theorem merge_sorted_fst (A : List (ℚ × Bool)) :
    ∀ (B : List (ℚ × Bool)), List.Pairwise (fun x y : ℚ × Bool => x.1 ≤ y.1) A →
      List.Pairwise (fun x y : ℚ × Bool => x.1 ≤ y.1) B →
      List.Pairwise (fun x y : ℚ × Bool => x.1 ≤ y.1) (List.merge A B (mergePred ratLt)) := by
  induction A with
  | nil =>
    intro B _ hB
    rw [List.nil_merge]
    exact hB
  | cons a A' ihA =>
    intro B
    induction B with
    | nil =>
      intro hA _
      rw [List.merge_right]
      exact hA
    | cons b B' ihB =>
      intro hA hB
      have hA' := List.Pairwise.of_cons hA
      have hB' := List.Pairwise.of_cons hB
      by_cases hp : mergePred ratLt a b
      · rw [List.cons_merge_cons_pos _ _ _ hp]
        refine List.pairwise_cons.mpr ⟨?_, ihA (b :: B') hA' hB⟩
        intro y hy
        rcases List.mem_merge.mp hy with hyA | hyB
        · exact List.rel_of_pairwise_cons hA hyA
        · have hab : a.1 < b.1 := by simpa [mergePred, ratLt] using hp
          rcases List.mem_cons.mp hyB with hyb | hyB'
          · rw [hyb]
            exact le_of_lt hab
          · exact le_of_lt (lt_of_lt_of_le hab (List.rel_of_pairwise_cons hB hyB'))
      · rw [List.cons_merge_cons_neg _ _ _ hp]
        refine List.pairwise_cons.mpr ⟨?_, ihB hA hB'⟩
        intro y hy
        have hba : b.1 ≤ a.1 := by
          have h2 : ¬ a.1 < b.1 := by simpa [mergePred, ratLt] using hp
          exact le_of_not_lt h2
        rcases List.mem_merge.mp hy with hyA | hyB'
        · rcases List.mem_cons.mp hyA with hya | hyA'
          · rw [hya]
            exact hba
          · exact le_trans hba (List.rel_of_pairwise_cons hA hyA')
        · exact List.rel_of_pairwise_cons hB hyB'

/-- Every pair-sum of a list bounded below by `c` is at least `c + c`. -/
theorem pairSums_mem_lb (c : ℚ) : ∀ (l : List ℚ), (∀ y ∈ l, c ≤ y) →
    ∀ x ∈ pairSums (· + ·) l, c + c ≤ x
  | [] => by
    intro _ x hx
    simp [pairSums] at hx
  | [a] => by
    intro _ x hx
    simp [pairSums] at hx
  | a :: b :: rest => by
    intro h x hx
    rw [show pairSums (· + ·) (a :: b :: rest) = (a + b) :: pairSums (· + ·) rest from rfl]
      at hx
    rcases List.mem_cons.mp hx with hxe | hx'
    · rw [hxe]
      exact add_le_add (h a (by simp)) (h b (by simp))
    · exact pairSums_mem_lb c rest (fun y hy => h y (by simp [hy])) x hx'

/-- Pair-sums of a non-negative list are non-negative. -/
theorem pairSums_nonneg (l : List ℚ) (h : ∀ y ∈ l, 0 ≤ y) :
    ∀ x ∈ pairSums (· + ·) l, 0 ≤ x := fun x hx => by
  simpa using pairSums_mem_lb 0 l h x hx

/-- Pair-sums of an ascending list are ascending. -/
theorem pairSums_sorted : ∀ (l : List ℚ), List.Pairwise (· ≤ ·) l →
    List.Pairwise (· ≤ ·) (pairSums (· + ·) l)
  | [] => by
    intro _
    rw [show pairSums (· + ·) ([] : List ℚ) = [] from rfl]
    exact List.Pairwise.nil
  | [a] => by
    intro _
    rw [show pairSums (· + ·) [a] = [] from rfl]
    exact List.Pairwise.nil
  | a :: b :: rest => by
    intro h
    rw [show pairSums (· + ·) (a :: b :: rest) = (a + b) :: pairSums (· + ·) rest from rfl]
    have hab : a ≤ b := List.rel_of_pairwise_cons h (List.mem_cons_self b rest)
    refine List.pairwise_cons.mpr ⟨?_, pairSums_sorted rest (h.of_cons.of_cons)⟩
    intro x hx
    have hbx : b + b ≤ x := pairSums_mem_lb b rest
      (fun y hy => List.rel_of_pairwise_cons h.of_cons hy) x hx
    calc a + b ≤ b + b := by linarith
    _ ≤ x := hbx

/-- The ranked-frequency stream is ascending by value. -/
theorem leaves_sorted (qs : List ℚ) :
    List.Pairwise (fun x y : ℚ × Bool => x.1 ≤ y.1)
      (leaves 0 qs (sortIdx ratLt 0 qs)) := by
  rw [leaves, List.pairwise_map]
  refine (sortIdx_pairwise qs).imp ?_
  intro a b hab
  rcases hab with h | ⟨h, -⟩
  · exact le_of_lt h
  · exact le_of_eq h

/-- Entries at valid positions are members. -/
theorem getD_mem {γ : Type} (l : List γ) (d : γ) (i : Nat) (h : i < l.length) :
    l.getD i d ∈ l := by
  rw [List.getD_eq_getElem _ _ h]
  exact List.getElem_mem h

/-- Every merged level of the rational engine run is ascending by value. -/
theorem levelTagged_sorted_rat (qs : List ℚ) (l : List ℚ)
    (hl : List.Pairwise (· ≤ ·) l) :
    List.Pairwise (fun x y : ℚ × Bool => x.1 ≤ y.1)
      (levelTagged ratLt (· + ·) 0 qs (sortIdx ratLt 0 qs) l) := by
  rw [levelTagged, mergeBy_eq_merge]
  refine merge_sorted_fst _ _ ?_ (leaves_sorted qs)
  rw [List.pairwise_map]
  exact (pairSums_sorted l hl).imp fun h => h

/-- The level lists of the rational run are ascending. -/
theorem levelList_sorted_rat (qs : List ℚ) : ∀ d,
    List.Pairwise (· ≤ ·) (levelList ratLt (· + ·) 0 qs (sortIdx ratLt 0 qs) d)
  | 0 => List.Pairwise.nil
  | d + 1 => by
    have h := levelTagged_sorted_rat qs _ (levelList_sorted_rat qs d)
    rw [show levelList ratLt (· + ·) 0 qs (sortIdx ratLt 0 qs) (d + 1) =
      (levelTagged ratLt (· + ·) 0 qs (sortIdx ratLt 0 qs)
        (levelList ratLt (· + ·) 0 qs (sortIdx ratLt 0 qs) d)).map Prod.fst from rfl,
      List.pairwise_map]
    exact h.imp fun hxy => hxy

/-- Ranked-frequency values are non-negative when the input is. -/
theorem leaves_nonneg (qs : List ℚ) (hq : ∀ q ∈ qs, 0 ≤ q) :
    ∀ x ∈ leaves 0 qs (sortIdx ratLt 0 qs), 0 ≤ x.1 := by
  intro x hx
  obtain ⟨i, hi, rfl⟩ := List.mem_map.mp hx
  exact hq _ (getD_mem qs 0 i (sortIdx_mem_lt ratLt 0 qs hi))

/-- All level values of the rational run are non-negative when the input is. -/
theorem levelList_nonneg_rat (qs : List ℚ) (hq : ∀ q ∈ qs, 0 ≤ q) : ∀ d,
    ∀ x ∈ levelList ratLt (· + ·) 0 qs (sortIdx ratLt 0 qs) d, 0 ≤ x
  | 0 => by
    intro x hx
    rw [show levelList ratLt (· + ·) 0 qs (sortIdx ratLt 0 qs) 0 = [] from rfl] at hx
    exact absurd hx (List.not_mem_nil x)
  | d + 1 => by
    intro x hx
    rw [show levelList ratLt (· + ·) 0 qs (sortIdx ratLt 0 qs) (d + 1) =
      (levelTagged ratLt (· + ·) 0 qs (sortIdx ratLt 0 qs)
        (levelList ratLt (· + ·) 0 qs (sortIdx ratLt 0 qs) d)).map Prod.fst from rfl] at hx
    obtain ⟨y, hy, rfl⟩ := List.mem_map.mp hx
    rw [levelTagged, mergeBy_eq_merge] at hy
    rcases List.mem_merge.mp hy with hyA | hyB
    · obtain ⟨s, hs, rfl⟩ := List.mem_map.mp hyA
      exact pairSums_nonneg _ (levelList_nonneg_rat qs hq d) s hs
    · exact leaves_nonneg qs hq y hyB

/-- In an ascending list, values are monotone in the position. -/
theorem getD_mono_of_sorted {l : List ℚ} (hs : List.Pairwise (· ≤ ·) l) {i j : Nat}
    (hij : i ≤ j) (hj : j < l.length) : l.getD i 0 ≤ l.getD j 0 := by
  rcases eq_or_lt_of_le hij with rfl | hlt
  · exact le_rfl
  · have h := List.pairwise_iff_get.mp hs ⟨i, by omega⟩ ⟨j, hj⟩ hlt
    rw [List.getD_eq_getElem _ _ (by omega : i < l.length), List.getD_eq_getElem _ _ hj]
    exact h

/-- The `j`-th pair-sum is the sum of entries `2j` and `2j + 1`. -/
theorem pairSums_getD : ∀ (l : List ℚ) (j : Nat), 2 * j + 1 < l.length →
    (pairSums (· + ·) l).getD j 0 = l.getD (2 * j) 0 + l.getD (2 * j + 1) 0
  | [], j, h => by simp at h
  | [a], j, h => by
    simp only [List.length_cons, List.length_nil] at h
    omega
  | a :: b :: rest, 0, h => rfl
  | a :: b :: rest, j + 1, h => by
    simp only [List.length_cons] at h
    rw [show pairSums (· + ·) (a :: b :: rest) =
        (a + b) :: pairSums (· + ·) rest from rfl, List.getD_cons_succ]
    have h1 : (a :: b :: rest).getD (2 * (j + 1)) 0 = rest.getD (2 * j) 0 := by
      rw [show 2 * (j + 1) = 2 * j + 1 + 1 from by omega, List.getD_cons_succ,
        List.getD_cons_succ]
    have h2 : (a :: b :: rest).getD (2 * (j + 1) + 1) 0 = rest.getD (2 * j + 1) 0 := by
      rw [show 2 * (j + 1) + 1 = 2 * j + 1 + 1 + 1 from by omega, List.getD_cons_succ,
        List.getD_cons_succ]
    rw [h1, h2]
    exact pairSums_getD rest j (by omega)

/-- In an ascending list, a value below `v` at position `j` forces at least
`j + 1` entries below `v`. -/
theorem sorted_countP_lt_ge : ∀ (l : List ℚ), List.Pairwise (· ≤ ·) l →
    ∀ (j : Nat) (v : ℚ), j < l.length → l.getD j 0 < v →
      j + 1 ≤ l.countP fun x => decide (x < v)
  | [], _, j, v, h, _ => by simp at h
  | a :: rest, hs, 0, v, h, hv => by
    rw [List.countP_cons_of_pos _ _ (by simpa using hv)]
    omega
  | a :: rest, hs, j + 1, v, h, hv => by
    simp only [List.length_cons] at h
    rw [List.getD_cons_succ] at hv
    have hmem : rest.getD j 0 ∈ rest := getD_mem rest 0 j (by omega)
    have ha : a < v := lt_of_le_of_lt (List.rel_of_pairwise_cons hs hmem) hv
    rw [List.countP_cons_of_pos _ _ (by simpa using ha)]
    have := sorted_countP_lt_ge rest (List.Pairwise.of_cons hs) j v (by omega) hv
    omega

/-- At most half as many pair-sums as entries lie below any threshold, for an
ascending non-negative list. -/
theorem countP_pairSums_lt : ∀ (l : List ℚ), List.Pairwise (· ≤ ·) l →
    (∀ y ∈ l, 0 ≤ y) → ∀ v : ℚ,
      (pairSums (· + ·) l).countP (fun x => decide (x < v)) ≤
        (l.countP fun x => decide (x < v)) / 2
  | [], _, _, v => by
    rw [show pairSums (· + ·) ([] : List ℚ) = [] from rfl]
    simp
  | [a], _, _, v => by
    rw [show pairSums (· + ·) [a] = [] from rfl]
    simp
  | a :: b :: rest, hs, hnn, v => by
    have ih := countP_pairSums_lt rest (hs.of_cons.of_cons)
      (fun y hy => hnn y (by simp [hy])) v
    have ha0 : 0 ≤ a := hnn a (by simp)
    have hb0 : 0 ≤ b := hnn b (by simp)
    rw [show pairSums (· + ·) (a :: b :: rest) =
      (a + b) :: pairSums (· + ·) rest from rfl]
    by_cases hab : a + b < v
    · have hav : a < v := lt_of_le_of_lt (by linarith) hab
      have hbv : b < v := lt_of_le_of_lt (by linarith) hab
      rw [List.countP_cons_of_pos _ _ (by simpa using hab),
        List.countP_cons_of_pos _ _ (by simpa using hav),
        List.countP_cons_of_pos _ _ (by simpa using hbv)]
      omega
    · rw [List.countP_cons_of_neg _ _ (by simpa using hab)]
      refine le_trans ih (Nat.div_le_div_right ?_)
      rw [List.countP_cons, List.countP_cons]
      omega

/-! ### Positional helpers -/

theorem getD_take_mem {γ : Type} (l : List γ) (d : γ) {j m : Nat} (hjm : j < m)
    (hjl : j < l.length) : l.getD j d ∈ l.take m := by
  have hlen : j < (l.take m).length := by
    rw [List.length_take]
    omega
  have h : (l.take m).getD j d = l.getD j d := by
    rw [List.getD_eq_getElem _ _ hlen, List.getD_eq_getElem _ _ hjl, List.getElem_take]
  rw [← h]
  exact getD_mem _ d j hlen

theorem getD_drop_mem {γ : Type} (l : List γ) (d : γ) {k t : Nat} (hkt : k ≤ t)
    (htl : t < l.length) : l.getD t d ∈ l.drop k := by
  have hlen : t - k < (l.drop k).length := by
    rw [List.length_drop]
    omega
  have h : (l.drop k).getD (t - k) d = l.getD t d := by
    rw [List.getD_eq_getElem _ _ hlen, List.getD_eq_getElem _ _ htl, List.getElem_drop]
    congr 1
    omega
  rw [← h]
  exact getD_mem _ d _ hlen

/-- In a fst-ascending tagged list, every member of a prefix is bounded by the
last entry of the prefix. -/
theorem mem_take_fst_le (T : List (ℚ × Bool))
    (hs : List.Pairwise (fun x y : ℚ × Bool => x.1 ≤ y.1) T) {m : Nat} (hm1 : 1 ≤ m)
    (hm2 : m ≤ T.length) : ∀ x ∈ T.take m, x.1 ≤ (T.getD (m - 1) (0, false)).1 := by
  intro x hx
  obtain ⟨q, hq, hxq⟩ := List.mem_iff_getElem.mp hx
  rw [List.length_take] at hq
  have hq2 : q < T.length := by omega
  have hgx : T.getD q (0, false) = x := by
    rw [List.getD_eq_getElem _ _ hq2, ← hxq, List.getElem_take]
  rcases Nat.lt_or_ge q (m - 1) with hlt | hge
  · have h := List.pairwise_iff_get.mp hs ⟨q, hq2⟩ ⟨m - 1, by omega⟩ hlt
    simp only [List.get_eq_getElem] at h
    rw [← hgx, List.getD_eq_getElem _ _ hq2,
      List.getD_eq_getElem _ _ (show m - 1 < T.length by omega)]
    exact h
  · have hqe : q = m - 1 := by omega
    rw [← hgx, hqe]

theorem getD_map_fst (T : List (ℚ × Bool)) {q : Nat} (hq : q < T.length) :
    (T.map Prod.fst).getD q 0 = (T.getD q (0, false)).1 := by
  rw [List.getD_eq_getElem _ _ (by simpa using hq), List.getD_eq_getElem _ _ hq,
    List.getElem_map]

theorem leaves_getD (qs : List ℚ) {t : Nat} (ht : t < qs.length) :
    (leaves 0 qs (sortIdx ratLt 0 qs)).getD t ((0 : ℚ), false) = (rankVal qs t, false) := by
  have hlen : t < (sortIdx ratLt 0 qs).length := by
    rw [length_sortIdx]
    exact ht
  rw [leaves, rankVal, List.getD_eq_getElem _ _ (by simpa using hlen), List.getElem_map,
    List.getD_eq_getElem _ _ hlen]

theorem pairsStream_getD (l : List ℚ) {j : Nat}
    (hj : j < (pairSums (· + ·) l).length) :
    ((pairSums (· + ·) l).map fun s => (s, true)).getD j ((0 : ℚ), false) =
      ((pairSums (· + ·) l).getD j 0, true) := by
  rw [List.getD_eq_getElem _ _ (by simpa using hj), List.getElem_map,
    List.getD_eq_getElem _ _ hj]

/-- Bit 0 is never flagged: level 0 is empty, so the first merged level has no
packages. -/
theorem fcount_bit0 (qs : List ℚ) (capa maxLen : Nat) (hml : 1 ≤ maxLen) (m : Nat)
    (hm1 : m ≤ capa)
    (hm2 : m ≤ (levelTagged ratLt (· + ·) 0 qs (sortIdx ratLt 0 qs)
      (levelList ratLt (· + ·) 0 qs (sortIdx ratLt 0 qs) 0)).length) :
    fcount (flagsAcc ratLt (· + ·) 0 qs (sortIdx ratLt 0 qs) capa maxLen) 0 m = 0 := by
  rw [fcount_flagsAcc ratLt (· + ·) 0 qs (sortIdx ratLt 0 qs) capa maxLen 0 (by omega)
    m hm1 hm2]
  refine List.countP_eq_zero.mpr ?_
  intro x hx
  have hmem := List.mem_of_mem_take hx
  rw [show levelList ratLt (· + ·) 0 qs (sortIdx ratLt 0 qs) 0 = [] from rfl,
    levelTagged, mergeBy_eq_merge] at hmem
  rcases List.mem_merge.mp hmem with hA | hB
  · rw [show pairSums (· + ·) ([] : List ℚ) = [] from rfl] at hA
    simp at hA
  · simp [tags_of_leaves 0 qs (sortIdx ratLt 0 qs) x hB]

/-! ### Counting entries below the top-ranked frequency -/
theorem countP_levelList_succ (qs : List ℚ) (v : ℚ) (d : Nat) :
    (levelList ratLt (· + ·) 0 qs (sortIdx ratLt 0 qs) (d + 1)).countP
        (fun x => decide (x < v)) =
      (pairSums (· + ·) (levelList ratLt (· + ·) 0 qs (sortIdx ratLt 0 qs) d)).countP
          (fun x => decide (x < v)) +
        ((sortIdx ratLt 0 qs).map fun i => qs.getD i 0).countP
          (fun x => decide (x < v)) := by
  rw [show levelList ratLt (· + ·) 0 qs (sortIdx ratLt 0 qs) (d + 1) =
    (levelTagged ratLt (· + ·) 0 qs (sortIdx ratLt 0 qs)
      (levelList ratLt (· + ·) 0 qs (sortIdx ratLt 0 qs) d)).map Prod.fst from rfl,
    levelTagged, mergeBy_eq_merge]
  rw [List.Perm.countP_eq _ ((List.merge_perm_append (mergePred ratLt)).map Prod.fst),
    List.map_append]
  have hA : ((pairSums (· + ·)
      (levelList ratLt (· + ·) 0 qs (sortIdx ratLt 0 qs) d)).map
        fun s => (s, true)).map Prod.fst =
      pairSums (· + ·) (levelList ratLt (· + ·) 0 qs (sortIdx ratLt 0 qs) d) := by
    rw [List.map_map, show (Prod.fst ∘ fun s : ℚ => (s, true)) = id from rfl, List.map_id]
  have hB : (leaves 0 qs (sortIdx ratLt 0 qs)).map Prod.fst =
      (sortIdx ratLt 0 qs).map fun i => qs.getD i 0 := by
    rw [leaves, List.map_map]
    rfl
  rw [hA, hB, List.countP_append]

theorem countP_leavesVals_le (qs : List ℚ) (hn1 : 1 ≤ qs.length) :
    ((sortIdx ratLt 0 qs).map fun i => qs.getD i 0).countP
        (fun x => decide (x < rankVal qs (qs.length - 1))) ≤ qs.length - 1 := by
  have hslen : (sortIdx ratLt 0 qs).length = qs.length := length_sortIdx ratLt 0 qs
  have hlen : ((sortIdx ratLt 0 qs).map fun i => qs.getD i 0).length = qs.length := by
    rw [List.length_map, hslen]
  have hval : ((sortIdx ratLt 0 qs).map fun i => qs.getD i 0).getD (qs.length - 1) 0 =
      rankVal qs (qs.length - 1) := by
    rw [rankVal, List.getD_eq_getElem ((sortIdx ratLt 0 qs).map fun i => qs.getD i 0) 0
      (show qs.length - 1 < _ from by omega), List.getElem_map]
    congr 1
    rw [List.getD_eq_getElem _ _
      (show qs.length - 1 < (sortIdx ratLt 0 qs).length from by omega)]
  have hmem : ((sortIdx ratLt 0 qs).map fun i => qs.getD i 0).getD (qs.length - 1) 0 ∈
      (sortIdx ratLt 0 qs).map fun i => qs.getD i 0 :=
    getD_mem _ 0 _ (by omega)
  have hppos : (fun x => !(decide (x < rankVal qs (qs.length - 1))))
      (((sortIdx ratLt 0 qs).map fun i => qs.getD i 0).getD (qs.length - 1) 0) = true := by
    rw [hval]
    simp
  have hpos : 0 < ((sortIdx ratLt 0 qs).map fun i => qs.getD i 0).countP
      fun x => !(decide (x < rankVal qs (qs.length - 1))) :=
    List.countP_pos.mpr ⟨_, hmem, hppos⟩
  have hsum := countP_add_countP_not (fun x => decide (x < rankVal qs (qs.length - 1)))
    ((sortIdx ratLt 0 qs).map fun i => qs.getD i 0)
  omega

/-- At every level, fewer than `2n - 2` entries lie strictly below the
top-ranked frequency. -/
theorem countP_levelList_le (qs : List ℚ) (hq : ∀ q ∈ qs, 0 ≤ q)
    (hn2 : 2 ≤ qs.length) :
    ∀ d, (levelList ratLt (· + ·) 0 qs (sortIdx ratLt 0 qs) d).countP
        (fun x => decide (x < rankVal qs (qs.length - 1))) ≤ 2 * qs.length - 3
  | 0 => by
    rw [show levelList ratLt (· + ·) 0 qs (sortIdx ratLt 0 qs) 0 = [] from rfl]
    simp
  | d + 1 => by
    have ih := countP_levelList_le qs hq hn2 d
    rw [countP_levelList_succ]
    have h1 := countP_pairSums_lt (levelList ratLt (· + ·) 0 qs (sortIdx ratLt 0 qs) d)
      (levelList_sorted_rat qs d) (levelList_nonneg_rat qs hq d)
      (rankVal qs (qs.length - 1))
    have h2 := countP_leavesVals_le qs (by omega)
    omega

/-! ### Leaf counts in merge prefixes -/

/-- Top-level full leaf consumption: if fewer than `n − 1` pair-sums lie below
the top-ranked frequency, then the first `2n − 2` merged entries contain all
`n` ranked frequencies. -/
theorem merge_count_false_top (P : List ℚ) (B : List (ℚ × Bool))
    (hB : ∀ b ∈ B, b.2 = false)
    (hsB : List.Pairwise (fun x y : ℚ × Bool => x.1 ≤ y.1) B)
    (hsP : List.Pairwise (· ≤ ·) P) (hn2 : 2 ≤ B.length)
    (hmlen : 2 * B.length - 2 ≤
      (List.merge (P.map fun s => (s, true)) B (mergePred ratLt)).length)
    (hPcnt : P.countP
        (fun x => decide (x < (B.getD (B.length - 1) ((0 : ℚ), false)).1)) ≤
      B.length - 2) :
    ((List.merge (P.map fun s => (s, true)) B (mergePred ratLt)).take
        (2 * B.length - 2)).countP (fun y => !y.2) = B.length := by
  have hA : ∀ a ∈ P.map fun s => (s, true), (a : ℚ × Bool).2 = true := by
    intro a ha
    obtain ⟨s, -, rfl⟩ := List.mem_map.mp ha
    rfl
  have hlenTake : ((List.merge (P.map fun s => (s, true)) B (mergePred ratLt)).take
      (2 * B.length - 2)).length = 2 * B.length - 2 := by
    rw [List.length_take]
    omega
  have hsum := countP_add_countP_not (fun y : ℚ × Bool => y.2)
    ((List.merge (P.map fun s => (s, true)) B (mergePred ratLt)).take (2 * B.length - 2))
  rw [hlenTake] at hsum
  have htotF : (List.merge (P.map fun s => (s, true)) B (mergePred ratLt)).countP
      (fun y => !y.2) = B.length := by
    rw [List.Perm.countP_eq _ (List.merge_perm_append (mergePred ratLt)),
      List.countP_append, List.countP_eq_zero.mpr (fun a ha => by simp [hA a ha]),
      List.countP_eq_length.mpr (fun a ha => by simp [hB a ha]), Nat.zero_add]
  have htotT : (List.merge (P.map fun s => (s, true)) B (mergePred ratLt)).countP
      (fun y => y.2) = P.length := by
    rw [List.Perm.countP_eq _ (List.merge_perm_append (mergePred ratLt)),
      List.countP_append, List.countP_eq_length.mpr (fun a ha => by simp [hA a ha]),
      List.countP_eq_zero.mpr (fun a ha => by simp [hB a ha]), List.length_map]
    omega
  have hcFle : ((List.merge (P.map fun s => (s, true)) B (mergePred ratLt)).take
      (2 * B.length - 2)).countP (fun y => !y.2) ≤ B.length := by
    rw [← htotF]
    exact count_take_le_count _ _ _
  by_contra hne
  have hcFlt : ((List.merge (P.map fun s => (s, true)) B (mergePred ratLt)).take
      (2 * B.length - 2)).countP (fun y => !y.2) ≤ B.length - 1 := by omega
  have hcTge : B.length - 1 ≤ ((List.merge (P.map fun s => (s, true)) B
      (mergePred ratLt)).take (2 * B.length - 2)).countP (fun y => y.2) := by omega
  have hcTle : ((List.merge (P.map fun s => (s, true)) B (mergePred ratLt)).take
      (2 * B.length - 2)).countP (fun y => y.2) ≤ P.length := by
    rw [← htotT]
    exact count_take_le_count _ _ _
  have hn2lt : B.length - 2 < P.length := by omega
  have hxA : (P.map fun s => (s, true)).getD (B.length - 2) ((0 : ℚ), false) =
      (P.getD (B.length - 2) 0, true) := by
    rw [List.getD_eq_getElem _ _ (by simpa using hn2lt), List.getElem_map,
      List.getD_eq_getElem _ _ hn2lt]
  have hsides := merge_take_sides (mergePred ratLt) (P.map fun s => (s, true)) B hA hB
    (2 * B.length - 2)
  have hxmemA : (P.map fun s => (s, true)).getD (B.length - 2) ((0 : ℚ), false) ∈
      (P.map fun s => (s, true)).take
        (((List.merge (P.map fun s => (s, true)) B (mergePred ratLt)).take
          (2 * B.length - 2)).countP fun y => y.2) :=
    getD_take_mem _ _ (by omega) (by rw [List.length_map]; omega)
  have hxmemM : (P.map fun s => (s, true)).getD (B.length - 2) ((0 : ℚ), false) ∈
      (List.merge (P.map fun s => (s, true)) B (mergePred ratLt)).take
        (2 * B.length - 2) := by
    rw [← hsides.1] at hxmemA
    exact List.mem_of_mem_filter hxmemA
  have hinv := merge_invI (P.map fun s => (s, true)) B hA hB hsB (2 * B.length - 2)
    ((P.map fun s => (s, true)).getD (B.length - 2) ((0 : ℚ), false)) hxmemM
    (by rw [hxA])
  have hbmem : B.getD (B.length - 1) ((0 : ℚ), false) ∈
      B.drop (((List.merge (P.map fun s => (s, true)) B (mergePred ratLt)).take
        (2 * B.length - 2)).countP fun y => !y.2) :=
    getD_drop_mem B _ (by omega) (by omega)
  have hblt := hinv (B.getD (B.length - 1) ((0 : ℚ), false)) hbmem
  rw [hxA] at hblt
  have hge := sorted_countP_lt_ge P hsP (B.length - 2)
    ((B.getD (B.length - 1) ((0 : ℚ), false)).1) hn2lt hblt
  omega

/-- Nestedness of leaf counts: the leaves consumed at the lower level within
the packaged prefix (`2p` entries, `p` the packages of the upper prefix) are
no more than the leaves consumed at the upper level. -/
theorem merge_nested_core (Plow : List ℚ) (B : List (ℚ × Bool))
    (hB : ∀ b ∈ B, b.2 = false)
    (hsB : List.Pairwise (fun x y : ℚ × Bool => x.1 ≤ y.1) B)
    (hsLow : List.Pairwise (fun x y : ℚ × Bool => x.1 ≤ y.1)
      (List.merge (Plow.map fun s => (s, true)) B (mergePred ratLt)))
    (hnnL : ∀ x ∈ (List.merge (Plow.map fun s => (s, true)) B (mergePred ratLt)).map
      Prod.fst, 0 ≤ x)
    (m : Nat)
    (hm : m ≤ (List.merge
      ((pairSums (· + ·) ((List.merge (Plow.map fun s => (s, true)) B
        (mergePred ratLt)).map Prod.fst)).map fun s => (s, true)) B
      (mergePred ratLt)).length) :
    ((List.merge (Plow.map fun s => (s, true)) B (mergePred ratLt)).take
        (2 * (((List.merge
          ((pairSums (· + ·) ((List.merge (Plow.map fun s => (s, true)) B
            (mergePred ratLt)).map Prod.fst)).map fun s => (s, true)) B
          (mergePred ratLt)).take m).countP fun y => y.2))).countP (fun y => !y.2) ≤
      ((List.merge
        ((pairSums (· + ·) ((List.merge (Plow.map fun s => (s, true)) B
          (mergePred ratLt)).map Prod.fst)).map fun s => (s, true)) B
        (mergePred ratLt)).take m).countP fun y => !y.2 := by
  have hAlow : ∀ a ∈ Plow.map fun s => (s, true), (a : ℚ × Bool).2 = true := by
    intro a ha
    obtain ⟨s, -, rfl⟩ := List.mem_map.mp ha
    rfl
  set Mlow := List.merge (Plow.map fun s => (s, true)) B (mergePred ratLt) with hMlow
  set L := Mlow.map Prod.fst with hLdef
  set P := pairSums (· + ·) L with hPdef
  have hAhigh : ∀ a ∈ P.map fun s => (s, true), (a : ℚ × Bool).2 = true := by
    intro a ha
    obtain ⟨s, -, rfl⟩ := List.mem_map.mp ha
    rfl
  set Mhigh := List.merge (P.map fun s => (s, true)) B (mergePred ratLt) with hMhigh
  set p := ((Mhigh.take m).countP fun y => y.2) with hpdef
  set k := ((Mhigh.take m).countP fun y => !y.2) with hkdef
  set kl := ((Mlow.take (2 * p)).countP fun y => !y.2) with hkldef
  -- bounds
  have hLlen : L.length = Mlow.length := by rw [hLdef, List.length_map]
  have htotT : Mhigh.countP (fun y => y.2) = P.length := by
    rw [hMhigh, List.Perm.countP_eq _ (List.merge_perm_append (mergePred ratLt)),
      List.countP_append, List.countP_eq_length.mpr (fun a ha => by simp [hAhigh a ha]),
      List.countP_eq_zero.mpr (fun a ha => by simp [hB a ha]), List.length_map]
    omega
  have hpP : p ≤ P.length := by
    rw [hpdef, ← htotT]
    exact count_take_le_count _ _ _
  have hPlen : P.length = L.length / 2 := by
    rw [hPdef, length_pairSums]
  have h2p : 2 * p ≤ Mlow.length := by omega
  rcases Nat.eq_zero_or_pos kl with hkl0 | hklpos
  · omega
  -- kl ≥ 1: find the (kl−1)-th leaf inside the lower prefix
  have hklB : kl ≤ B.length := by
    have htotF : Mlow.countP (fun y => !y.2) = B.length := by
      rw [hMlow, List.Perm.countP_eq _ (List.merge_perm_append (mergePred ratLt)),
        List.countP_append, List.countP_eq_zero.mpr (fun a ha => by simp [hAlow a ha]),
        List.countP_eq_length.mpr (fun a ha => by simp [hB a ha]), Nat.zero_add]
    rw [hkldef, ← htotF]
    exact count_take_le_count _ _ _
  have hppos : 1 ≤ p := by
    by_contra hp0
    have hp0' : p = 0 := by omega
    rw [hkldef, hp0'] at hklpos
    simp at hklpos
  have hsidesLow := merge_take_sides (mergePred ratLt) (Plow.map fun s => (s, true)) B
    hAlow hB (2 * p)
  have hbt_take : B.getD (kl - 1) ((0 : ℚ), false) ∈ B.take kl :=
    getD_take_mem B _ (by omega) (by omega)
  have hbt_low : B.getD (kl - 1) ((0 : ℚ), false) ∈ Mlow.take (2 * p) := by
    have h2 := hsidesLow.2
    rw [← hkldef] at h2
    rw [← h2] at hbt_take
    exact List.mem_of_mem_filter hbt_take
  have hbt_le : (B.getD (kl - 1) ((0 : ℚ), false)).1 ≤
      (Mlow.getD (2 * p - 1) (0, false)).1 :=
    mem_take_fst_le Mlow hsLow (by omega) (by omega) _ hbt_low
  have hLget : L.getD (2 * p - 1) 0 = (Mlow.getD (2 * p - 1) (0, false)).1 := by
    rw [hLdef]
    exact getD_map_fst Mlow (by omega)
  have hPget : P.getD (p - 1) 0 = L.getD (2 * (p - 1)) 0 + L.getD (2 * (p - 1) + 1) 0 := by
    rw [hPdef]
    exact pairSums_getD L (p - 1) (by omega)
  have hidx : 2 * (p - 1) + 1 = 2 * p - 1 := by omega
  have hnn1 : 0 ≤ L.getD (2 * (p - 1)) 0 :=
    hnnL _ (getD_mem L 0 _ (by omega))
  have hPge : (B.getD (kl - 1) ((0 : ℚ), false)).1 ≤ P.getD (p - 1) 0 := by
    rw [hPget, hidx, hLget] at *
    calc (B.getD (kl - 1) ((0 : ℚ), false)).1 ≤ (Mlow.getD (2 * p - 1) (0, false)).1 :=
      hbt_le
    _ ≤ L.getD (2 * (p - 1)) 0 + (Mlow.getD (2 * p - 1) (0, false)).1 := by linarith
  -- the (p−1)-th package sits in the upper prefix
  have hxA : (P.map fun s => (s, true)).getD (p - 1) ((0 : ℚ), false) =
      (P.getD (p - 1) 0, true) := by
    rw [List.getD_eq_getElem _ _ (by rw [List.length_map]; omega), List.getElem_map,
      List.getD_eq_getElem _ _ (by omega)]
  have hsidesHigh := merge_take_sides (mergePred ratLt) (P.map fun s => (s, true)) B
    hAhigh hB m
  have hxmemA : (P.map fun s => (s, true)).getD (p - 1) ((0 : ℚ), false) ∈
      (P.map fun s => (s, true)).take p :=
    getD_take_mem _ _ (by omega) (by rw [List.length_map]; omega)
  have hxmemM : (P.map fun s => (s, true)).getD (p - 1) ((0 : ℚ), false) ∈
      Mhigh.take m := by
    have h1 := hsidesHigh.1
    rw [← hpdef] at h1
    rw [← h1] at hxmemA
    exact List.mem_of_mem_filter hxmemA
  have hinv := merge_invI (P.map fun s => (s, true)) B hAhigh hB hsB m
    ((P.map fun s => (s, true)).getD (p - 1) ((0 : ℚ), false)) hxmemM (by rw [hxA])
  by_contra hcon
  have hkkl : k ≤ kl - 1 := by omega
  have hbmem : B.getD (kl - 1) ((0 : ℚ), false) ∈ B.drop k :=
    getD_drop_mem B _ (by omega) (by omega)
  have hblt := hinv (B.getD (kl - 1) ((0 : ℚ), false)) hbmem
  rw [hxA] at hblt
  exact absurd hblt (not_lt.mpr hPge)

/-- Nestedness on the flag vector: descending one decode level (to bit `d'`,
scanning `2·merged` positions) consumes no more leaves than the level above. -/
theorem ufcount_nested (qs : List ℚ) (hq : ∀ q ∈ qs, 0 ≤ q) (capa maxLen d' : Nat)
    (hd : d' + 1 < maxLen) (m : Nat) (hm1 : m ≤ capa)
    (hm2 : m ≤ (levelTagged ratLt (· + ·) 0 qs (sortIdx ratLt 0 qs)
      (levelList ratLt (· + ·) 0 qs (sortIdx ratLt 0 qs) (d' + 1))).length)
    (hfc2 : 2 * fcount (flagsAcc ratLt (· + ·) 0 qs (sortIdx ratLt 0 qs) capa maxLen)
      (d' + 1) m ≤ capa) :
    ufcount (flagsAcc ratLt (· + ·) 0 qs (sortIdx ratLt 0 qs) capa maxLen) d'
      (2 * fcount (flagsAcc ratLt (· + ·) 0 qs (sortIdx ratLt 0 qs) capa maxLen)
        (d' + 1) m) ≤
      ufcount (flagsAcc ratLt (· + ·) 0 qs (sortIdx ratLt 0 qs) capa maxLen)
        (d' + 1) m := by
  have hT'len : (levelTagged ratLt (· + ·) 0 qs (sortIdx ratLt 0 qs)
      (levelList ratLt (· + ·) 0 qs (sortIdx ratLt 0 qs) d')).length =
      (levelList ratLt (· + ·) 0 qs (sortIdx ratLt 0 qs) (d' + 1)).length := by
    rw [show levelList ratLt (· + ·) 0 qs (sortIdx ratLt 0 qs) (d' + 1) =
      (levelTagged ratLt (· + ·) 0 qs (sortIdx ratLt 0 qs)
        (levelList ratLt (· + ·) 0 qs (sortIdx ratLt 0 qs) d')).map Prod.fst from rfl,
      List.length_map]
  have hfc := fcount_flagsAcc ratLt (· + ·) 0 qs (sortIdx ratLt 0 qs) capa maxLen
    (d' + 1) hd m hm1 hm2
  have htotT : (levelTagged ratLt (· + ·) 0 qs (sortIdx ratLt 0 qs)
      (levelList ratLt (· + ·) 0 qs (sortIdx ratLt 0 qs) (d' + 1))).countP
      (fun x => x.2) =
      (levelList ratLt (· + ·) 0 qs (sortIdx ratLt 0 qs) (d' + 1)).length / 2 :=
    countP_levelTagged_true ratLt (· + ·) 0 qs (sortIdx ratLt 0 qs) _
  have hfcle : fcount (flagsAcc ratLt (· + ·) 0 qs (sortIdx ratLt 0 qs) capa maxLen)
      (d' + 1) m ≤
      (levelList ratLt (· + ·) 0 qs (sortIdx ratLt 0 qs) (d' + 1)).length / 2 := by
    rw [hfc, ← htotT]
    exact count_take_le_count _ _ _
  have hm2' : 2 * fcount (flagsAcc ratLt (· + ·) 0 qs (sortIdx ratLt 0 qs) capa maxLen)
      (d' + 1) m ≤ (levelTagged ratLt (· + ·) 0 qs (sortIdx ratLt 0 qs)
      (levelList ratLt (· + ·) 0 qs (sortIdx ratLt 0 qs) d')).length := by
    rw [hT'len]
    omega
  rw [ufcount_flagsAcc ratLt (· + ·) 0 qs (sortIdx ratLt 0 qs) capa maxLen d'
      (by omega) _ hfc2 hm2',
    ufcount_flagsAcc ratLt (· + ·) 0 qs (sortIdx ratLt 0 qs) capa maxLen (d' + 1)
      hd m hm1 hm2, hfc]
  simp only [show levelList ratLt (· + ·) 0 qs (sortIdx ratLt 0 qs) (d' + 1) =
      (levelTagged ratLt (· + ·) 0 qs (sortIdx ratLt 0 qs)
        (levelList ratLt (· + ·) 0 qs (sortIdx ratLt 0 qs) d')).map Prod.fst from rfl,
    levelTagged, mergeBy_eq_merge]
  refine merge_nested_core (pairSums (· + ·)
      (levelList ratLt (· + ·) 0 qs (sortIdx ratLt 0 qs) d'))
    (leaves 0 qs (sortIdx ratLt 0 qs))
    (tags_of_leaves 0 qs (sortIdx ratLt 0 qs)) (leaves_sorted qs) ?_ ?_ m ?_
  · have h := levelTagged_sorted_rat qs _ (levelList_sorted_rat qs d')
    rw [levelTagged, mergeBy_eq_merge] at h
    exact h
  · have h := levelList_nonneg_rat qs hq (d' + 1)
    simp only [show levelList ratLt (· + ·) 0 qs (sortIdx ratLt 0 qs) (d' + 1) =
        (levelTagged ratLt (· + ·) 0 qs (sortIdx ratLt 0 qs)
          (levelList ratLt (· + ·) 0 qs (sortIdx ratLt 0 qs) d')).map Prod.fst from rfl,
      levelTagged, mergeBy_eq_merge] at h
    exact h
  · have h := hm2
    simp only [show levelList ratLt (· + ·) 0 qs (sortIdx ratLt 0 qs) (d' + 1) =
        (levelTagged ratLt (· + ·) 0 qs (sortIdx ratLt 0 qs)
          (levelList ratLt (· + ·) 0 qs (sortIdx ratLt 0 qs) d')).map Prod.fst from rfl,
      levelTagged, mergeBy_eq_merge] at h
    exact h

/-- At the top decode level the first `2n − 2` merged entries contain all `n`
ranked frequencies: the first processed leaf count is exactly `n`. -/
theorem ufcount_top (qs : List ℚ) (hq : ∀ q ∈ qs, 0 ≤ q) (hn2 : 2 ≤ qs.length)
    (maxLen : Nat) (hpow : qs.length ≤ 2 ^ maxLen) (capa : Nat)
    (hcapa : 2 * qs.length - 2 ≤ capa) :
    ufcount (flagsAcc ratLt (· + ·) 0 qs (sortIdx ratLt 0 qs) capa maxLen)
      (maxLen - 1) (2 * qs.length - 2) = qs.length := by
  have hml1 : 1 ≤ maxLen := by
    rcases Nat.eq_zero_or_pos maxLen with h0 | h
    · rw [h0, pow_zero] at hpow
      omega
    · exact h
  obtain ⟨D, rfl⟩ : ∃ D, maxLen = D + 1 := ⟨maxLen - 1, by omega⟩
  simp only [Nat.add_sub_cancel]
  have hslen : (sortIdx ratLt 0 qs).length = qs.length := length_sortIdx ratLt 0 qs
  have hLlen : (levelList ratLt (· + ·) 0 qs (sortIdx ratLt 0 qs) D).length =
      levelLen qs.length D := by
    rw [length_levelList, hslen]
  have hfin : 2 * qs.length - 2 ≤ levelLen qs.length (D + 1) :=
    levelLen_final_ge qs.length (D + 1) (by omega) hpow
  have hlev : levelLen qs.length (D + 1) = levelLen qs.length D / 2 + qs.length := by
    rw [levelLen]
  have hTlen : (levelTagged ratLt (· + ·) 0 qs (sortIdx ratLt 0 qs)
      (levelList ratLt (· + ·) 0 qs (sortIdx ratLt 0 qs) D)).length =
      levelLen qs.length D / 2 + qs.length := by
    rw [length_levelTagged, hslen, hLlen]
  rw [ufcount_flagsAcc ratLt (· + ·) 0 qs (sortIdx ratLt 0 qs) capa (D + 1) D
    (by omega) (2 * qs.length - 2) (by omega) (by omega)]
  rw [levelTagged, mergeBy_eq_merge]
  have hBlen : (leaves 0 qs (sortIdx ratLt 0 qs)).length = qs.length := by
    rw [leaves, List.length_map, hslen]
  have hv : (leaves 0 qs (sortIdx ratLt 0 qs)).getD
      ((leaves 0 qs (sortIdx ratLt 0 qs)).length - 1) ((0 : ℚ), false) =
      (rankVal qs (qs.length - 1), false) := by
    rw [hBlen]
    exact leaves_getD qs (by omega)
  have hPlen : (pairSums (· + ·)
      (levelList ratLt (· + ·) 0 qs (sortIdx ratLt 0 qs) D)).length =
      levelLen qs.length D / 2 := by
    rw [length_pairSums, hLlen]
  have hPcnt : (pairSums (· + ·) (levelList ratLt (· + ·) 0 qs (sortIdx ratLt 0 qs)
      D)).countP (fun x => decide (x < ((leaves 0 qs (sortIdx ratLt 0 qs)).getD
        ((leaves 0 qs (sortIdx ratLt 0 qs)).length - 1) ((0 : ℚ), false)).1)) ≤
      (leaves 0 qs (sortIdx ratLt 0 qs)).length - 2 := by
    rw [hv, hBlen, show ((rankVal qs (qs.length - 1), false) : ℚ × Bool).1 =
      rankVal qs (qs.length - 1) from rfl]
    have h1 := countP_pairSums_lt (levelList ratLt (· + ·) 0 qs (sortIdx ratLt 0 qs) D)
      (levelList_sorted_rat qs D) (levelList_nonneg_rat qs hq D)
      (rankVal qs (qs.length - 1))
    have h2 := countP_levelList_le qs hq hn2 D
    omega
  rw [← hBlen]
  refine merge_count_false_top (pairSums (· + ·) (levelList ratLt (· + ·) 0 qs
      (sortIdx ratLt 0 qs) D)) (leaves 0 qs (sortIdx ratLt 0 qs))
    (tags_of_leaves 0 qs (sortIdx ratLt 0 qs)) (leaves_sorted qs)
    (pairSums_sorted _ (levelList_sorted_rat qs D)) (by omega) ?_ hPcnt
  rw [List.length_merge, List.length_map, hPlen, hBlen]
  omega

/-- The decode chain processes at most one level per bit. -/
theorem decodeChain_length_le (flags : List Nat) :
    ∀ (D m : Nat), (decodeChain flags D m).length ≤ D
  | 0, _ => by
    rw [decodeChain]
    simp
  | D + 1, m => by
    rw [decodeChain]
    split
    · simp
    · simp only [List.length_cons]
      have h := decodeChain_length_le flags D (2 * fcount flags D m)
      omega

/-- Every leaf count along the decode chain is at most the first one: the
counts are nested downwards. -/
theorem kListOf_le_head (qs : List ℚ) (hq : ∀ q ∈ qs, 0 ≤ q) (maxLen : Nat)
    (hn1 : 1 ≤ qs.length) :
    ∀ (D m : Nat), D + 1 ≤ maxLen → m ≤ levelLen qs.length (D + 1) →
      m ≤ 2 * qs.length - 2 →
      ∀ x ∈ kListOf (flagsAcc ratLt (· + ·) 0 qs (sortIdx ratLt 0 qs)
          (2 * qs.length - 1) maxLen) (D + 1) m,
        x ≤ ufcount (flagsAcc ratLt (· + ·) 0 qs (sortIdx ratLt 0 qs)
          (2 * qs.length - 1) maxLen) D m := by
  intro D
  induction D with
  | zero =>
    intro m hD hm1 hm2 x hx
    rw [kListOf, decodeChain] at hx
    by_cases hm : m = 0
    · rw [if_pos hm] at hx
      simp at hx
    · rw [if_neg hm, decodeChain, List.map_cons, List.map_nil] at hx
      rcases List.mem_cons.mp hx with hxe | hx'
      · exact le_of_eq hxe
      · simp at hx'
  | succ D ih =>
    intro m hD hm1 hm2 x hx
    rw [kListOf, decodeChain] at hx
    by_cases hm : m = 0
    · rw [if_pos hm] at hx
      simp at hx
    · rw [if_neg hm, List.map_cons] at hx
      rcases List.mem_cons.mp hx with hxe | hx'
      · exact le_of_eq hxe
      · -- x is in the tail chain at (D + 1, 2·fc)
        have hslen : (sortIdx ratLt 0 qs).length = qs.length := length_sortIdx ratLt 0 qs
        have htlen : (levelTagged ratLt (· + ·) 0 qs (sortIdx ratLt 0 qs)
            (levelList ratLt (· + ·) 0 qs (sortIdx ratLt 0 qs) (D + 1))).length =
            levelLen qs.length (D + 2) := by
          rw [length_levelTagged, length_levelList, hslen,
            show levelLen qs.length (D + 2) = levelLen qs.length (D + 1) / 2 + qs.length
              from rfl]
        have hmt : m ≤ (levelTagged ratLt (· + ·) 0 qs (sortIdx ratLt 0 qs)
            (levelList ratLt (· + ·) 0 qs (sortIdx ratLt 0 qs) (D + 1))).length := by
          rw [htlen]
          exact hm1
        have hfc := fcount_flagsAcc ratLt (· + ·) 0 qs (sortIdx ratLt 0 qs)
          (2 * qs.length - 1) maxLen (D + 1) (by omega) m (by omega) hmt
        have hfc_le : fcount (flagsAcc ratLt (· + ·) 0 qs (sortIdx ratLt 0 qs)
            (2 * qs.length - 1) maxLen) (D + 1) m ≤
            levelLen qs.length (D + 1) / 2 := by
          rw [hfc]
          calc ((levelTagged ratLt (· + ·) 0 qs (sortIdx ratLt 0 qs)
              (levelList ratLt (· + ·) 0 qs (sortIdx ratLt 0 qs) (D + 1))).take
                m).countP (fun x => x.2) ≤
              (levelTagged ratLt (· + ·) 0 qs (sortIdx ratLt 0 qs)
                (levelList ratLt (· + ·) 0 qs (sortIdx ratLt 0 qs) (D + 1))).countP
                (fun x => x.2) :=
            count_take_le_count _ _ m
          _ = (levelList ratLt (· + ·) 0 qs (sortIdx ratLt 0 qs) (D + 1)).length / 2 :=
            countP_levelTagged_true ratLt (· + ·) 0 qs (sortIdx ratLt 0 qs) _
          _ = levelLen qs.length (D + 1) / 2 := by rw [length_levelList, hslen]
        have hll := levelLen_le qs.length hn1 (D + 1)
        have hx2 : x ∈ kListOf (flagsAcc ratLt (· + ·) 0 qs (sortIdx ratLt 0 qs)
            (2 * qs.length - 1) maxLen) (D + 1)
            (2 * fcount (flagsAcc ratLt (· + ·) 0 qs (sortIdx ratLt 0 qs)
              (2 * qs.length - 1) maxLen) (D + 1) m) := hx'
        have hih := ih (2 * fcount (flagsAcc ratLt (· + ·) 0 qs (sortIdx ratLt 0 qs)
            (2 * qs.length - 1) maxLen) (D + 1) m) (by omega) (by omega) (by omega)
          x hx2
        have hnest := ufcount_nested qs hq (2 * qs.length - 1) maxLen D (by omega) m
          (by omega) hmt (by omega)
        exact le_trans hih hnest

/-- Telescoping Kraft identity along the decode chain: summing `2^(−ℓ_r)` over
the ranks below the first processed leaf count gives exactly that count minus
`m/2`. -/
theorem kraft_chain (qs : List ℚ) (hq : ∀ q ∈ qs, 0 ≤ q) (maxLen : Nat)
    (hn1 : 1 ≤ qs.length) :
    ∀ (D m : Nat), D + 1 ≤ maxLen → m ≤ levelLen qs.length (D + 1) →
      m ≤ 2 * qs.length - 2 →
      ∑ r ∈ Finset.range (ufcount (pmFlags qs maxLen) D m),
        ((1 : ℚ) / 2) ^ ((kListOf (pmFlags qs maxLen) (D + 1) m).countP
          fun j => decide (r < j)) =
      (ufcount (pmFlags qs maxLen) D m : ℚ) - (m : ℚ) / 2 := by
  intro D
  induction D with
  | zero =>
    intro m hD hm1 hm2
    by_cases hm : m = 0
    · subst hm
      rw [show ufcount (pmFlags qs maxLen) 0 0 = 0 from rfl]
      simp
    · rw [pmFlags]
      have hslen : (sortIdx ratLt 0 qs).length = qs.length := length_sortIdx ratLt 0 qs
      have hflen : (flagsAcc ratLt (· + ·) 0 qs (sortIdx ratLt 0 qs)
          (2 * qs.length - 1) maxLen).length = 2 * qs.length - 1 :=
        length_flagsAcc ratLt (· + ·) 0 qs (sortIdx ratLt 0 qs) (2 * qs.length - 1) maxLen
      have hsum := fcount_add_ufcount (flagsAcc ratLt (· + ·) 0 qs (sortIdx ratLt 0 qs)
        (2 * qs.length - 1) maxLen) 0 m (by omega)
      have htlen0 : (levelTagged ratLt (· + ·) 0 qs (sortIdx ratLt 0 qs)
          (levelList ratLt (· + ·) 0 qs (sortIdx ratLt 0 qs) 0)).length =
          levelLen qs.length 1 := by
        rw [length_levelTagged, length_levelList, hslen,
          show levelLen qs.length 1 = levelLen qs.length 0 / 2 + qs.length from rfl]
      have hfc0 : fcount (flagsAcc ratLt (· + ·) 0 qs (sortIdx ratLt 0 qs)
          (2 * qs.length - 1) maxLen) 0 m = 0 :=
        fcount_bit0 qs (2 * qs.length - 1) maxLen (by omega) m (by omega)
          (by rw [htlen0]; exact hm1)
      have hufm : ufcount (flagsAcc ratLt (· + ·) 0 qs (sortIdx ratLt 0 qs)
          (2 * qs.length - 1) maxLen) 0 m = m := by omega
      rw [kListOf, decodeChain, if_neg hm, decodeChain, List.map_cons, List.map_nil]
      dsimp only
      rw [hufm]
      have hterm : ∀ r ∈ Finset.range m,
          ((1 : ℚ) / 2) ^ (([m].countP fun j => decide (r < j))) = (1 : ℚ) / 2 := by
        intro r hr
        rw [List.countP_cons_of_pos _ _ (by simpa using Finset.mem_range.mp hr),
          List.countP_nil, Nat.zero_add, pow_one]
      rw [Finset.sum_congr rfl hterm, Finset.sum_const, Finset.card_range, nsmul_eq_mul]
      ring
  | succ D ih =>
    intro m hD hm1 hm2
    by_cases hm : m = 0
    · subst hm
      rw [show ufcount (pmFlags qs maxLen) (D + 1) 0 = 0 from rfl]
      simp
    · rw [pmFlags]
      have hslen : (sortIdx ratLt 0 qs).length = qs.length := length_sortIdx ratLt 0 qs
      have hflen : (flagsAcc ratLt (· + ·) 0 qs (sortIdx ratLt 0 qs)
          (2 * qs.length - 1) maxLen).length = 2 * qs.length - 1 :=
        length_flagsAcc ratLt (· + ·) 0 qs (sortIdx ratLt 0 qs) (2 * qs.length - 1) maxLen
      have hmsum := fcount_add_ufcount (flagsAcc ratLt (· + ·) 0 qs (sortIdx ratLt 0 qs)
        (2 * qs.length - 1) maxLen) (D + 1) m (by omega)
      have htlen : (levelTagged ratLt (· + ·) 0 qs (sortIdx ratLt 0 qs)
          (levelList ratLt (· + ·) 0 qs (sortIdx ratLt 0 qs) (D + 1))).length =
          levelLen qs.length (D + 2) := by
        rw [length_levelTagged, length_levelList, hslen,
          show levelLen qs.length (D + 2) = levelLen qs.length (D + 1) / 2 + qs.length
            from rfl]
      have hmt : m ≤ (levelTagged ratLt (· + ·) 0 qs (sortIdx ratLt 0 qs)
          (levelList ratLt (· + ·) 0 qs (sortIdx ratLt 0 qs) (D + 1))).length := by
        rw [htlen]
        exact hm1
      have hfc := fcount_flagsAcc ratLt (· + ·) 0 qs (sortIdx ratLt 0 qs)
        (2 * qs.length - 1) maxLen (D + 1) (by omega) m (by omega) hmt
      have hfc_le : fcount (flagsAcc ratLt (· + ·) 0 qs (sortIdx ratLt 0 qs)
          (2 * qs.length - 1) maxLen) (D + 1) m ≤
          levelLen qs.length (D + 1) / 2 := by
        rw [hfc]
        calc ((levelTagged ratLt (· + ·) 0 qs (sortIdx ratLt 0 qs)
            (levelList ratLt (· + ·) 0 qs (sortIdx ratLt 0 qs) (D + 1))).take
              m).countP (fun x => x.2) ≤
            (levelTagged ratLt (· + ·) 0 qs (sortIdx ratLt 0 qs)
              (levelList ratLt (· + ·) 0 qs (sortIdx ratLt 0 qs) (D + 1))).countP
              (fun x => x.2) :=
          count_take_le_count _ _ m
        _ = (levelList ratLt (· + ·) 0 qs (sortIdx ratLt 0 qs) (D + 1)).length / 2 :=
          countP_levelTagged_true ratLt (· + ·) 0 qs (sortIdx ratLt 0 qs) _
        _ = levelLen qs.length (D + 1) / 2 := by rw [length_levelList, hslen]
      have hll := levelLen_le qs.length hn1 (D + 1)
      have hnest := ufcount_nested qs hq (2 * qs.length - 1) maxLen D (by omega) m
        (by omega) hmt (by omega)
      have hIH := ih (2 * fcount (flagsAcc ratLt (· + ·) 0 qs (sortIdx ratLt 0 qs)
          (2 * qs.length - 1) maxLen) (D + 1) m) (by omega) (by omega) (by omega)
      rw [pmFlags] at hIH
      have hmono := kListOf_le_head qs hq maxLen hn1 D
        (2 * fcount (flagsAcc ratLt (· + ·) 0 qs (sortIdx ratLt 0 qs)
          (2 * qs.length - 1) maxLen) (D + 1) m) (by omega) (by omega) (by omega)
      rw [kListOf, decodeChain, if_neg hm, List.map_cons]
      dsimp only
      rw [← kListOf]
      have hk'k : ufcount (flagsAcc ratLt (· + ·) 0 qs (sortIdx ratLt 0 qs)
          (2 * qs.length - 1) maxLen) D
          (2 * fcount (flagsAcc ratLt (· + ·) 0 qs (sortIdx ratLt 0 qs)
            (2 * qs.length - 1) maxLen) (D + 1) m) ≤
          ufcount (flagsAcc ratLt (· + ·) 0 qs (sortIdx ratLt 0 qs)
            (2 * qs.length - 1) maxLen) (D + 1) m := hnest
      have hbody : ∀ r ∈ Finset.range (ufcount (flagsAcc ratLt (· + ·) 0 qs
          (sortIdx ratLt 0 qs) (2 * qs.length - 1) maxLen) (D + 1) m),
          ((1 : ℚ) / 2) ^ ((ufcount (flagsAcc ratLt (· + ·) 0 qs (sortIdx ratLt 0 qs)
              (2 * qs.length - 1) maxLen) (D + 1) m ::
            kListOf (flagsAcc ratLt (· + ·) 0 qs (sortIdx ratLt 0 qs)
              (2 * qs.length - 1) maxLen) (D + 1)
              (2 * fcount (flagsAcc ratLt (· + ·) 0 qs (sortIdx ratLt 0 qs)
                (2 * qs.length - 1) maxLen) (D + 1) m)).countP
            fun j => decide (r < j)) =
          (1 : ℚ) / 2 * ((1 : ℚ) / 2) ^ ((kListOf (flagsAcc ratLt (· + ·) 0 qs
              (sortIdx ratLt 0 qs) (2 * qs.length - 1) maxLen) (D + 1)
              (2 * fcount (flagsAcc ratLt (· + ·) 0 qs (sortIdx ratLt 0 qs)
                (2 * qs.length - 1) maxLen) (D + 1) m)).countP
            fun j => decide (r < j)) := by
        intro r hr
        rw [List.countP_cons_of_pos _ _ (by simpa using Finset.mem_range.mp hr),
          pow_succ]
        ring
      rw [Finset.sum_congr rfl hbody, ← Finset.mul_sum, Finset.range_eq_Ico,
        ← Finset.sum_Ico_consecutive _ (Nat.zero_le _) hk'k, ← Finset.range_eq_Ico]
      have hconst : ∀ r ∈ Finset.Ico (ufcount (flagsAcc ratLt (· + ·) 0 qs
          (sortIdx ratLt 0 qs) (2 * qs.length - 1) maxLen) D
            (2 * fcount (flagsAcc ratLt (· + ·) 0 qs (sortIdx ratLt 0 qs)
              (2 * qs.length - 1) maxLen) (D + 1) m))
          (ufcount (flagsAcc ratLt (· + ·) 0 qs (sortIdx ratLt 0 qs)
            (2 * qs.length - 1) maxLen) (D + 1) m),
          ((1 : ℚ) / 2) ^ ((kListOf (flagsAcc ratLt (· + ·) 0 qs (sortIdx ratLt 0 qs)
              (2 * qs.length - 1) maxLen) (D + 1)
              (2 * fcount (flagsAcc ratLt (· + ·) 0 qs (sortIdx ratLt 0 qs)
                (2 * qs.length - 1) maxLen) (D + 1) m)).countP
            fun j => decide (r < j)) = 1 := by
        intro r hr
        have hr' := (Finset.mem_Ico.mp hr).1
        rw [List.countP_eq_zero.mpr ?_, pow_zero]
        intro j hj
        have hjle := hmono j hj
        simp only [decide_eq_true_eq]
        omega
      rw [hIH, Finset.sum_congr rfl hconst, Finset.sum_const, Nat.card_Ico,
        nsmul_eq_mul, Nat.cast_sub hk'k]
      push_cast
      have hc : (fcount (flagsAcc ratLt (· + ·) 0 qs (sortIdx ratLt 0 qs)
          (2 * qs.length - 1) maxLen) (D + 1) m : ℚ) +
          (ufcount (flagsAcc ratLt (· + ·) 0 qs (sortIdx ratLt 0 qs)
            (2 * qs.length - 1) maxLen) (D + 1) m : ℚ) = (m : ℚ) := by
        exact_mod_cast congrArg (Nat.cast : ℕ → ℚ) hmsum
      linarith [hc]

/-- A decode with no relevant entries changes nothing. -/
theorem pmDecode_m_zero (sorted flags : List Nat) :
    ∀ (D : Nat) (cl : List Nat), pmDecode sorted flags D 0 cl = cl
  | 0, _ => rfl
  | D + 1, cl => by rw [pmDecode, if_pos rfl]

/-- The total Kraft sum over the ranks is exactly `1` for every valid input
with at least two symbols. -/
theorem kraft_top (qs : List ℚ) (hq : ∀ q ∈ qs, 0 ≤ q) (hn2 : 2 ≤ qs.length)
    (maxLen : Nat) (hpow : qs.length ≤ 2 ^ maxLen) :
    ∑ r ∈ Finset.range qs.length,
      ((1 : ℚ) / 2) ^ ((kListOf (pmFlags qs maxLen) maxLen
        (2 * qs.length - 2)).countP fun j => decide (r < j)) = 1 := by
  have hml1 : 1 ≤ maxLen := by
    rcases Nat.eq_zero_or_pos maxLen with h0 | h
    · rw [h0, pow_zero] at hpow
      omega
    · exact h
  obtain ⟨D, rfl⟩ : ∃ D, maxLen = D + 1 := ⟨maxLen - 1, by omega⟩
  have htop := ufcount_top qs hq hn2 (D + 1) hpow (2 * qs.length - 1) (by omega)
  simp only [Nat.add_sub_cancel] at htop
  rw [← pmFlags] at htop
  have hk := kraft_chain qs hq (D + 1) (by omega) D (2 * qs.length - 2) le_rfl
    (levelLen_final_ge qs.length (D + 1) (by omega) hpow) le_rfl
  rw [htop] at hk
  rw [hk, Nat.cast_sub (show 2 ≤ 2 * qs.length by omega)]
  push_cast
  ring

/-- C4: for every successful result on a valid input (finite non-negative
frequencies, `n ≥ 2`, `n ≤ 2^max_len`, `max_len ≤ 32`), the returned lengths
satisfy Kraft's inequality `∑ 2^(−length[s]) ≤ 1` (in fact with equality). -/
theorem claim_C4 (qs : List ℚ) (hq : ∀ q ∈ qs, 0 ≤ q) (hn2 : 2 ≤ qs.length)
    (maxLen : Nat) (hlen : qs.length ≤ 2 ^ (maxLen % 64)) (hml : maxLen ≤ 32)
    (ls : List Nat) (hok : package_merge (qs.map F64.fin) maxLen = .ok ls) :
    ∑ s ∈ Finset.range qs.length, (2 : ℚ) ^ (-(ls.getD s 0 : ℤ)) ≤ 1 := by
  have hne : qs ≠ [] := by
    intro h
    rw [h] at hn2
    simp at hn2
  have hml64 : maxLen % 64 = maxLen := Nat.mod_eq_of_lt (by omega)
  have hpow : qs.length ≤ 2 ^ maxLen := by
    rw [← hml64]
    exact hlen
  rw [package_merge_rat, pmRat] at hok
  obtain ⟨ls2, hok2, hlen2, hform⟩ := pmRun_decode_getD ratLt (· + ·) 0 qs maxLen hne
    hlen hml
  rw [hok2] at hok
  injection hok with hok
  subst hok
  have hc1 : qs.length * 2 - 1 = 2 * qs.length - 1 := by omega
  have hc2 : qs.length * 2 - 2 = 2 * qs.length - 2 := by omega
  rw [hc1, hc2, ← pmFlags] at hform
  have hslen : (sortIdx ratLt 0 qs).length = qs.length := length_sortIdx ratLt 0 qs
  have hnd := sortIdx_nodup ratLt 0 qs
  have hre : ∑ s ∈ Finset.range qs.length, (2 : ℚ) ^ (-(ls2.getD s 0 : ℤ)) =
      ∑ r ∈ Finset.range qs.length,
        ((1 : ℚ) / 2) ^ ((kListOf (pmFlags qs maxLen) maxLen
          (2 * qs.length - 2)).countP fun j => decide (r < j)) := by
    refine Finset.sum_nbij' (fun s => (sortIdx ratLt 0 qs).indexOf s)
      (fun r => (sortIdx ratLt 0 qs).getD r 0) ?_ ?_ ?_ ?_ ?_
    · intro s hs
      have hsn := Finset.mem_range.mp hs
      have hmem : s ∈ sortIdx ratLt 0 qs :=
        (sortIdx_perm ratLt 0 qs).mem_iff.mpr (List.mem_range.mpr hsn)
      rw [Finset.mem_range, ← hslen]
      exact List.indexOf_lt_length.mpr hmem
    · intro r hr
      have hrn := Finset.mem_range.mp hr
      rw [Finset.mem_range]
      exact sortIdx_mem_lt ratLt 0 qs (getD_mem _ 0 r (by omega))
    · intro s hs
      have hsn := Finset.mem_range.mp hs
      have hmem : s ∈ sortIdx ratLt 0 qs :=
        (sortIdx_perm ratLt 0 qs).mem_iff.mpr (List.mem_range.mpr hsn)
      have hidx : (sortIdx ratLt 0 qs).indexOf s < (sortIdx ratLt 0 qs).length :=
        List.indexOf_lt_length.mpr hmem
      dsimp only
      rw [List.getD_eq_get _ _ hidx]
      exact List.indexOf_get hidx
    · intro r hr
      have hrn := Finset.mem_range.mp hr
      have hrlt : r < (sortIdx ratLt 0 qs).length := by omega
      dsimp only
      rw [List.getD_eq_get _ _ hrlt]
      have h2 : (sortIdx ratLt 0 qs).indexOf ((sortIdx ratLt 0 qs).get ⟨r, hrlt⟩) <
          (sortIdx ratLt 0 qs).length :=
        List.indexOf_lt_length.mpr (List.get_mem _ _ hrlt)
      have h3 := List.indexOf_get h2
      have h4 := (List.Nodup.get_inj_iff hnd).mp h3
      exact congrArg Fin.val h4
    · intro s hs
      have hsn := Finset.mem_range.mp hs
      have hmem : s ∈ sortIdx ratLt 0 qs :=
        (sortIdx_perm ratLt 0 qs).mem_iff.mpr (List.mem_range.mpr hsn)
      have hidx : (sortIdx ratLt 0 qs).indexOf s < (sortIdx ratLt 0 qs).length :=
        List.indexOf_lt_length.mpr hmem
      have hgs : (sortIdx ratLt 0 qs).getD ((sortIdx ratLt 0 qs).indexOf s) 0 = s := by
        rw [List.getD_eq_get _ _ hidx]
        exact List.indexOf_get hidx
      have hf := hform ((sortIdx ratLt 0 qs).indexOf s) (by omega)
      rw [hgs] at hf
      dsimp only
      rw [hf, zpow_neg, zpow_natCast, one_div, inv_pow]
  rw [hre, kraft_top qs hq hn2 maxLen hpow]

/-- C4 witness: frequencies `[1, 2]`, `max_len = 2`: lengths `[1, 1]` and
`2^(−1) + 2^(−1) ≤ 1`. -/
theorem claim_C4_witness :
    (∀ q ∈ [(1 : ℚ), 2], 0 ≤ q) ∧
      ∑ s ∈ Finset.range [(1 : ℚ), 2].length,
        (2 : ℚ) ^ (-(([1, 1] : List Nat).getD s 0 : ℤ)) ≤ 1 := by
  refine ⟨by decide, ?_⟩
  refine claim_C4 [1, 2] (by decide) (by norm_num) 2 (by norm_num) (by norm_num)
    [1, 1] ?_
  have h : ([(1 : ℚ), 2]).map F64.fin = ([1, 2] : List ℤ).map intF64 := by
    norm_num [intF64]
  rw [h, package_merge_int]
  rfl

/-- C3: on every valid input the result has one length per symbol,
positionally aligned; with `n = 1` the single length is `0`; with `n ≥ 2`
every length lies in `[1, max_len]`. -/
theorem claim_C3 (qs : List ℚ) (hq : ∀ q ∈ qs, 0 ≤ q) (maxLen : Nat)
    (hne : qs ≠ []) (hlen : qs.length ≤ 2 ^ (maxLen % 64)) (hml : maxLen ≤ 32)
    (ls : List Nat) (hok : package_merge (qs.map F64.fin) maxLen = .ok ls) :
    ls.length = qs.length ∧ (qs.length = 1 → ls = [0]) ∧
      (2 ≤ qs.length → ∀ s, s < qs.length →
        1 ≤ ls.getD s 0 ∧ ls.getD s 0 ≤ maxLen) := by
  have hml64 : maxLen % 64 = maxLen := Nat.mod_eq_of_lt (by omega)
  have hpow : qs.length ≤ 2 ^ maxLen := by
    rw [← hml64]
    exact hlen
  rw [package_merge_rat, pmRat] at hok
  obtain ⟨ls2, hok2, hlen2, hform⟩ := pmRun_decode_getD ratLt (· + ·) 0 qs maxLen hne
    hlen hml
  rw [hok2] at hok
  injection hok with hok
  subst hok
  have hc1 : qs.length * 2 - 1 = 2 * qs.length - 1 := by omega
  have hc2 : qs.length * 2 - 2 = 2 * qs.length - 2 := by omega
  rw [hc1, hc2, ← pmFlags] at hform
  have hslen : (sortIdx ratLt 0 qs).length = qs.length := length_sortIdx ratLt 0 qs
  refine ⟨hlen2, ?_, ?_⟩
  · intro h1
    have hsucc := pmRun_success ratLt (· + ·) 0 qs maxLen hne hlen hml
    rw [hok2] at hsucc
    injection hsucc with hsucc
    rw [hsucc, show qs.length * 2 - 2 = 0 from by omega, pmDecode_m_zero, h1]
    rfl
  · intro h2 s hsn
    have hml1 : 1 ≤ maxLen := by
      rcases Nat.eq_zero_or_pos maxLen with h0 | h
      · rw [h0, pow_zero] at hpow
        omega
      · exact h
    obtain ⟨D, rfl⟩ : ∃ D, maxLen = D + 1 := ⟨maxLen - 1, by omega⟩
    have hmem : s ∈ sortIdx ratLt 0 qs :=
      (sortIdx_perm ratLt 0 qs).mem_iff.mpr (List.mem_range.mpr hsn)
    have hidx : (sortIdx ratLt 0 qs).indexOf s < (sortIdx ratLt 0 qs).length :=
      List.indexOf_lt_length.mpr hmem
    have hgs : (sortIdx ratLt 0 qs).getD ((sortIdx ratLt 0 qs).indexOf s) 0 = s := by
      rw [List.getD_eq_get _ _ hidx]
      exact List.indexOf_get hidx
    have hrn : (sortIdx ratLt 0 qs).indexOf s < qs.length := by omega
    have hf := hform ((sortIdx ratLt 0 qs).indexOf s) hrn
    rw [hgs] at hf
    have hup : (kListOf (pmFlags qs (D + 1)) (D + 1) (2 * qs.length - 2)).countP
        (fun k => decide ((sortIdx ratLt 0 qs).indexOf s < k)) ≤ D + 1 := by
      refine le_trans (List.countP_le_length _) ?_
      rw [kListOf, List.length_map]
      exact decodeChain_length_le _ _ _
    have hm0 : ¬ (2 * qs.length - 2 = 0) := by omega
    have htop := ufcount_top qs hq h2 (D + 1) hpow (2 * qs.length - 1) (by omega)
    simp only [Nat.add_sub_cancel] at htop
    rw [← pmFlags] at htop
    have hklist : kListOf (pmFlags qs (D + 1)) (D + 1) (2 * qs.length - 2) =
        ufcount (pmFlags qs (D + 1)) D (2 * qs.length - 2) ::
        kListOf (pmFlags qs (D + 1)) D
          (2 * fcount (pmFlags qs (D + 1)) D (2 * qs.length - 2)) := by
      rw [kListOf, decodeChain, if_neg hm0, List.map_cons]
      dsimp only
      rw [← kListOf]
    have hcount : 1 ≤ (kListOf (pmFlags qs (D + 1)) (D + 1)
        (2 * qs.length - 2)).countP
        (fun k => decide ((sortIdx ratLt 0 qs).indexOf s < k)) := by
      rw [hklist, List.countP_cons_of_pos _ _ (by
        show decide ((sortIdx ratLt 0 qs).indexOf s <
          ufcount (pmFlags qs (D + 1)) D (2 * qs.length - 2)) = true
        rw [htop]
        simpa using hrn)]
      omega
    rw [hf]
    exact ⟨hcount, hup⟩

/-- C3 witness: frequencies `[1, 2]`, `max_len = 2`: lengths `[1, 1]`, of the
input's size, each length in `[1, 2]`. -/
theorem claim_C3_witness :
    ([1, 1] : List Nat).length = [(1 : ℚ), 2].length ∧
      ([(1 : ℚ), 2].length = 1 → ([1, 1] : List Nat) = [0]) ∧
      (2 ≤ [(1 : ℚ), 2].length → ∀ s, s < [(1 : ℚ), 2].length →
        1 ≤ ([1, 1] : List Nat).getD s 0 ∧ ([1, 1] : List Nat).getD s 0 ≤ 2) := by
  refine claim_C3 [1, 2] (by decide) 2 (by decide) (by norm_num) (by norm_num)
    [1, 1] ?_
  have h : ([(1 : ℚ), 2]).map F64.fin = ([1, 2] : List ℤ).map intF64 := by
    norm_num [intF64]
  rw [h, package_merge_int]
  rfl

/-! ### Value-level view of the merge (for the cost accounting) -/

/-- Dropping the tags commutes with the merge. -/
theorem merge_map_fst (A : List (ℚ × Bool)) :
    ∀ B : List (ℚ × Bool), (List.merge A B (mergePred ratLt)).map Prod.fst =
      List.merge (A.map Prod.fst) (B.map Prod.fst) ratLt := by
  induction A with
  | nil =>
    intro B
    rw [List.map_nil, List.nil_merge, List.nil_merge]
  | cons a A' ihA =>
    intro B
    induction B with
    | nil =>
      rw [List.map_nil, List.merge_right, List.merge_right]
    | cons b B' ihB =>
      by_cases hp : mergePred ratLt a b
      · rw [List.cons_merge_cons_pos _ _ _ hp, List.map_cons, ihA (b :: B'),
          List.map_cons, List.map_cons,
          List.cons_merge_cons_pos _ _ _ (show ratLt a.1 b.1 = true from hp)]
      · rw [List.cons_merge_cons_neg _ _ _ hp, List.map_cons, ihB, List.map_cons,
          List.map_cons,
          List.cons_merge_cons_neg _ _ _ (show ¬ ratLt a.1 b.1 = true from hp)]

/-- The value merge of two ascending lists is ascending. -/
theorem merge_sorted_vals (A : List ℚ) :
    ∀ (B : List ℚ), List.Pairwise (· ≤ ·) A → List.Pairwise (· ≤ ·) B →
      List.Pairwise (· ≤ ·) (List.merge A B ratLt) := by
  induction A with
  | nil =>
    intro B _ hB
    rw [List.nil_merge]
    exact hB
  | cons a A' ihA =>
    intro B
    induction B with
    | nil =>
      intro hA _
      rw [List.merge_right]
      exact hA
    | cons b B' ihB =>
      intro hA hB
      have hA' := List.Pairwise.of_cons hA
      have hB' := List.Pairwise.of_cons hB
      by_cases hp : ratLt a b
      · rw [List.cons_merge_cons_pos _ _ _ hp]
        refine List.pairwise_cons.mpr ⟨?_, ihA (b :: B') hA' hB⟩
        intro y hy
        rcases List.mem_merge.mp hy with hyA | hyB
        · exact List.rel_of_pairwise_cons hA hyA
        · have hab : a < b := by simpa [ratLt] using hp
          rcases List.mem_cons.mp hyB with hyb | hyB'
          · rw [hyb]
            exact le_of_lt hab
          · exact le_of_lt (lt_of_lt_of_le hab (List.rel_of_pairwise_cons hB hyB'))
      · rw [List.cons_merge_cons_neg _ _ _ hp]
        refine List.pairwise_cons.mpr ⟨?_, ihB hA hB'⟩
        intro y hy
        have hba : b ≤ a := by
          have h2 : ¬ a < b := by simpa [ratLt] using hp
          exact le_of_not_lt h2
        rcases List.mem_merge.mp hy with hyA | hyB'
        · rcases List.mem_cons.mp hyA with hya | hyA'
          · rw [hya]
            exact hba
          · exact le_trans hba (List.rel_of_pairwise_cons hA hyA')
        · exact List.rel_of_pairwise_cons hB hyB'

/-- Sums of pair-sum prefixes are sums of doubled prefixes. -/
theorem pairSums_take_sum : ∀ (l : List ℚ) (p : Nat), 2 * p ≤ l.length →
    ((pairSums (· + ·) l).take p).sum = (l.take (2 * p)).sum
  | [], p, h => by
    rw [show pairSums (· + ·) ([] : List ℚ) = [] from rfl]
    simp
  | [a], p, h => by
    have hp : p = 0 := by
      simp only [List.length_cons, List.length_nil] at h
      omega
    rw [hp, show 2 * 0 = 0 from rfl, List.take_zero, List.take_zero]
  | a :: b :: rest, 0, h => by
    rw [show 2 * 0 = 0 from rfl, List.take_zero, List.take_zero]
  | a :: b :: rest, p + 1, h => by
    simp only [List.length_cons] at h
    rw [show pairSums (· + ·) (a :: b :: rest) = (a + b) :: pairSums (· + ·) rest from rfl,
      List.take_succ_cons, show 2 * (p + 1) = 2 * p + 1 + 1 from by omega,
      List.take_succ_cons, List.take_succ_cons, List.sum_cons, List.sum_cons,
      List.sum_cons, pairSums_take_sum rest p (by omega)]
    ring

/-- Sum of a prefix as a `Finset.range` sum of its entries. -/
theorem take_sum_eq_sum_range (l : List ℚ) : ∀ (k : Nat), k ≤ l.length →
    (l.take k).sum = ∑ r ∈ Finset.range k, l.getD r 0 := by
  intro k
  induction k with
  | zero =>
    intro _
    simp
  | succ k ih =>
    intro hk
    rw [Finset.sum_range_succ, ← ih (by omega), List.take_succ,
      List.getElem?_eq_getElem (show k < l.length by omega), List.sum_append,
      List.getD_eq_getElem _ _ (show k < l.length by omega)]
    simp

theorem leavesVals_getD (qs : List ℚ) {r : Nat} (hr : r < qs.length) :
    ((sortIdx ratLt 0 qs).map fun i => qs.getD i 0).getD r 0 = rankVal qs r := by
  have hslen : (sortIdx ratLt 0 qs).length = qs.length := length_sortIdx ratLt 0 qs
  rw [rankVal, List.getD_eq_getElem ((sortIdx ratLt 0 qs).map fun i => qs.getD i 0) 0
    (show r < _ from by rw [List.length_map]; omega), List.getElem_map]
  congr 1
  rw [List.getD_eq_getElem _ _ (show r < (sortIdx ratLt 0 qs).length from by omega)]

/-- Partitioning a tagged list by its tags preserves the value sum. -/
theorem sum_fst_filter_partition (T : List (ℚ × Bool)) :
    ((T.filter fun y => y.2).map Prod.fst).sum +
      ((T.filter fun y => !y.2).map Prod.fst).sum = (T.map Prod.fst).sum := by
  have hperm : List.Perm ((T.filter fun y => y.2) ++ (T.filter fun y => !y.2)) T :=
    List.filter_append_perm (fun y : ℚ × Bool => y.2) T
  have h1 : ((T.filter fun y => y.2).map Prod.fst).sum +
      ((T.filter fun y => !y.2).map Prod.fst).sum =
      (((T.filter fun y => y.2) ++ (T.filter fun y => !y.2)).map Prod.fst).sum := by
    rw [List.map_append, List.sum_append]
  rw [h1]
  exact List.Perm.sum_eq (hperm.map Prod.fst)

/-- The value-sum of level prefixes along the decode chain equals the
frequency-weighted sum of the code lengths the chain assigns. -/
theorem cost_chain (qs : List ℚ) (hq : ∀ q ∈ qs, 0 ≤ q) (maxLen : Nat)
    (hn1 : 1 ≤ qs.length) :
    ∀ (D m : Nat), D + 1 ≤ maxLen → m ≤ levelLen qs.length (D + 1) →
      m ≤ 2 * qs.length - 2 →
      ((levelList ratLt (· + ·) 0 qs (sortIdx ratLt 0 qs) (D + 1)).take m).sum =
      ∑ r ∈ Finset.range qs.length, rankVal qs r *
        ((kListOf (pmFlags qs maxLen) (D + 1) m).countP fun j => decide (r < j) : ℚ) := by
  have hslen : (sortIdx ratLt 0 qs).length = qs.length := length_sortIdx ratLt 0 qs
  have hBfst : (leaves 0 qs (sortIdx ratLt 0 qs)).map Prod.fst =
      (sortIdx ratLt 0 qs).map fun i => qs.getD i 0 := by
    rw [leaves, List.map_map]
    rfl
  have hvlen : ((sortIdx ratLt 0 qs).map fun i => qs.getD i 0).length = qs.length := by
    rw [List.length_map, hslen]
  have hflen : (flagsAcc ratLt (· + ·) 0 qs (sortIdx ratLt 0 qs)
      (2 * qs.length - 1) maxLen).length = 2 * qs.length - 1 :=
    length_flagsAcc ratLt (· + ·) 0 qs (sortIdx ratLt 0 qs) (2 * qs.length - 1) maxLen
  intro D
  induction D with
  | zero =>
    intro m hD hm1 hm2
    by_cases hm : m = 0
    · subst hm
      rw [kListOf, show decodeChain (pmFlags qs maxLen) 1 0 = [] from by
        rw [decodeChain]; simp]
      simp
    · rw [pmFlags]
      have hsum := fcount_add_ufcount (flagsAcc ratLt (· + ·) 0 qs (sortIdx ratLt 0 qs)
        (2 * qs.length - 1) maxLen) 0 m (by omega)
      have htlen0 : (levelTagged ratLt (· + ·) 0 qs (sortIdx ratLt 0 qs)
          (levelList ratLt (· + ·) 0 qs (sortIdx ratLt 0 qs) 0)).length =
          levelLen qs.length 1 := by
        rw [length_levelTagged, length_levelList, hslen,
          show levelLen qs.length 1 = levelLen qs.length 0 / 2 + qs.length from rfl]
      have hfc0 : fcount (flagsAcc ratLt (· + ·) 0 qs (sortIdx ratLt 0 qs)
          (2 * qs.length - 1) maxLen) 0 m = 0 :=
        fcount_bit0 qs (2 * qs.length - 1) maxLen (by omega) m (by omega)
          (by rw [htlen0]; exact hm1)
      have hufm : ufcount (flagsAcc ratLt (· + ·) 0 qs (sortIdx ratLt 0 qs)
          (2 * qs.length - 1) maxLen) 0 m = m := by omega
      have hL1 : levelList ratLt (· + ·) 0 qs (sortIdx ratLt 0 qs) 1 =
          (sortIdx ratLt 0 qs).map fun i => qs.getD i 0 := by
        rw [show levelList ratLt (· + ·) 0 qs (sortIdx ratLt 0 qs) 1 =
          (levelTagged ratLt (· + ·) 0 qs (sortIdx ratLt 0 qs)
            (levelList ratLt (· + ·) 0 qs (sortIdx ratLt 0 qs) 0)).map Prod.fst from rfl,
          show levelList ratLt (· + ·) 0 qs (sortIdx ratLt 0 qs) 0 = [] from rfl,
          levelTagged, mergeBy_eq_merge,
          show pairSums (· + ·) ([] : List ℚ) = [] from rfl, List.map_nil,
          List.nil_merge, hBfst]
      have hmn : m ≤ qs.length := by
        have h1 : levelLen qs.length 1 = qs.length := by
          rw [show levelLen qs.length 1 = levelLen qs.length 0 / 2 + qs.length from rfl,
            show levelLen qs.length 0 = 0 from rfl]
          simp
        rw [show (0 : ℕ) + 1 = 1 from rfl] at hm1
        omega
      rw [hL1, take_sum_eq_sum_range _ m (by omega), kListOf, decodeChain, if_neg hm,
        decodeChain, List.map_cons, List.map_nil]
      dsimp only
      rw [hufm]
      have hsplit : ∀ r ∈ Finset.range qs.length,
          rankVal qs r * (([m] : List Nat).countP (fun j => decide (r < j)) : ℚ) =
          (if r < m then rankVal qs r else 0) := by
        intro r hr
        by_cases hrk : r < m
        · rw [List.countP_cons_of_pos _ _ (by simpa using hrk), List.countP_nil,
            if_pos hrk]
          push_cast
          ring
        · rw [List.countP_cons_of_neg _ _ (by simpa using hrk), List.countP_nil,
            if_neg hrk]
          push_cast
          ring
      rw [Finset.sum_congr rfl hsplit, ← Finset.sum_filter,
        show (Finset.range qs.length).filter (fun r => r < m) = Finset.range m from by
          ext r
          simp only [Finset.mem_filter, Finset.mem_range]
          omega]
      refine Finset.sum_congr rfl ?_
      intro r hr
      exact leavesVals_getD qs (by have := Finset.mem_range.mp hr; omega)
  | succ D ih =>
    intro m hD hm1 hm2
    by_cases hm : m = 0
    · subst hm
      rw [kListOf, show decodeChain (pmFlags qs maxLen) (D + 2) 0 = [] from by
        rw [decodeChain]; simp]
      simp
    · rw [pmFlags]
      have hmsum := fcount_add_ufcount (flagsAcc ratLt (· + ·) 0 qs (sortIdx ratLt 0 qs)
        (2 * qs.length - 1) maxLen) (D + 1) m (by omega)
      have htlen : (levelTagged ratLt (· + ·) 0 qs (sortIdx ratLt 0 qs)
          (levelList ratLt (· + ·) 0 qs (sortIdx ratLt 0 qs) (D + 1))).length =
          levelLen qs.length (D + 2) := by
        rw [length_levelTagged, length_levelList, hslen,
          show levelLen qs.length (D + 2) = levelLen qs.length (D + 1) / 2 + qs.length
            from rfl]
      have hmt : m ≤ (levelTagged ratLt (· + ·) 0 qs (sortIdx ratLt 0 qs)
          (levelList ratLt (· + ·) 0 qs (sortIdx ratLt 0 qs) (D + 1))).length := by
        rw [htlen]
        exact hm1
      have hfc := fcount_flagsAcc ratLt (· + ·) 0 qs (sortIdx ratLt 0 qs)
        (2 * qs.length - 1) maxLen (D + 1) (by omega) m (by omega) hmt
      have hufc := ufcount_flagsAcc ratLt (· + ·) 0 qs (sortIdx ratLt 0 qs)
        (2 * qs.length - 1) maxLen (D + 1) (by omega) m (by omega) hmt
      have hfc_le : fcount (flagsAcc ratLt (· + ·) 0 qs (sortIdx ratLt 0 qs)
          (2 * qs.length - 1) maxLen) (D + 1) m ≤
          levelLen qs.length (D + 1) / 2 := by
        rw [hfc]
        calc ((levelTagged ratLt (· + ·) 0 qs (sortIdx ratLt 0 qs)
            (levelList ratLt (· + ·) 0 qs (sortIdx ratLt 0 qs) (D + 1))).take
              m).countP (fun x => x.2) ≤
            (levelTagged ratLt (· + ·) 0 qs (sortIdx ratLt 0 qs)
              (levelList ratLt (· + ·) 0 qs (sortIdx ratLt 0 qs) (D + 1))).countP
              (fun x => x.2) :=
          count_take_le_count _ _ m
        _ = (levelList ratLt (· + ·) 0 qs (sortIdx ratLt 0 qs) (D + 1)).length / 2 :=
          countP_levelTagged_true ratLt (· + ·) 0 qs (sortIdx ratLt 0 qs) _
        _ = levelLen qs.length (D + 1) / 2 := by rw [length_levelList, hslen]
      have hkn : ufcount (flagsAcc ratLt (· + ·) 0 qs (sortIdx ratLt 0 qs)
          (2 * qs.length - 1) maxLen) (D + 1) m ≤ qs.length := by
        rw [hufc]
        calc ((levelTagged ratLt (· + ·) 0 qs (sortIdx ratLt 0 qs)
            (levelList ratLt (· + ·) 0 qs (sortIdx ratLt 0 qs) (D + 1))).take
              m).countP (fun x => !x.2) ≤
            (levelTagged ratLt (· + ·) 0 qs (sortIdx ratLt 0 qs)
              (levelList ratLt (· + ·) 0 qs (sortIdx ratLt 0 qs) (D + 1))).countP
              (fun x => !x.2) :=
          count_take_le_count _ _ m
        _ = (sortIdx ratLt 0 qs).length :=
          countP_levelTagged_false ratLt (· + ·) 0 qs (sortIdx ratLt 0 qs) _
        _ = qs.length := hslen
      have hll := levelLen_le qs.length hn1 (D + 1)
      have hIH := ih (2 * fcount (flagsAcc ratLt (· + ·) 0 qs (sortIdx ratLt 0 qs)
          (2 * qs.length - 1) maxLen) (D + 1) m) (by omega) (by omega) (by omega)
      rw [pmFlags] at hIH
      -- unfold the chain head
      rw [kListOf, decodeChain, if_neg hm, List.map_cons]
      dsimp only
      rw [← kListOf]
      -- split the weighted count at the head
      have hsplit : ∀ r ∈ Finset.range qs.length,
          rankVal qs r * ((ufcount (flagsAcc ratLt (· + ·) 0 qs (sortIdx ratLt 0 qs)
              (2 * qs.length - 1) maxLen) (D + 1) m ::
            kListOf (flagsAcc ratLt (· + ·) 0 qs (sortIdx ratLt 0 qs)
              (2 * qs.length - 1) maxLen) (D + 1)
              (2 * fcount (flagsAcc ratLt (· + ·) 0 qs (sortIdx ratLt 0 qs)
                (2 * qs.length - 1) maxLen) (D + 1) m)).countP
            (fun j => decide (r < j)) : ℚ) =
          rankVal qs r * ((kListOf (flagsAcc ratLt (· + ·) 0 qs (sortIdx ratLt 0 qs)
              (2 * qs.length - 1) maxLen) (D + 1)
              (2 * fcount (flagsAcc ratLt (· + ·) 0 qs (sortIdx ratLt 0 qs)
                (2 * qs.length - 1) maxLen) (D + 1) m)).countP
            (fun j => decide (r < j)) : ℚ) +
          (if r < ufcount (flagsAcc ratLt (· + ·) 0 qs (sortIdx ratLt 0 qs)
              (2 * qs.length - 1) maxLen) (D + 1) m then rankVal qs r else 0) := by
        intro r hr
        by_cases hrk : r < ufcount (flagsAcc ratLt (· + ·) 0 qs (sortIdx ratLt 0 qs)
            (2 * qs.length - 1) maxLen) (D + 1) m
        · rw [List.countP_cons_of_pos _ _ (by simpa using hrk), if_pos hrk]
          push_cast
          ring
        · rw [List.countP_cons_of_neg _ _ (by simpa using hrk), if_neg hrk, add_zero]
      rw [Finset.sum_congr rfl hsplit, Finset.sum_add_distrib, ← hIH,
        ← Finset.sum_filter,
        show (Finset.range qs.length).filter (fun r => r <
            ufcount (flagsAcc ratLt (· + ·) 0 qs (sortIdx ratLt 0 qs)
              (2 * qs.length - 1) maxLen) (D + 1) m) =
          Finset.range (ufcount (flagsAcc ratLt (· + ·) 0 qs (sortIdx ratLt 0 qs)
            (2 * qs.length - 1) maxLen) (D + 1) m) from by
          ext r
          simp only [Finset.mem_filter, Finset.mem_range]
          omega]
      -- now decompose the left-hand prefix sum by tags
      have hLtake : (levelList ratLt (· + ·) 0 qs (sortIdx ratLt 0 qs) (D + 2)).take m =
          ((levelTagged ratLt (· + ·) 0 qs (sortIdx ratLt 0 qs)
            (levelList ratLt (· + ·) 0 qs (sortIdx ratLt 0 qs) (D + 1))).take
              m).map Prod.fst := by
        rw [show levelList ratLt (· + ·) 0 qs (sortIdx ratLt 0 qs) (D + 2) =
          (levelTagged ratLt (· + ·) 0 qs (sortIdx ratLt 0 qs)
            (levelList ratLt (· + ·) 0 qs (sortIdx ratLt 0 qs) (D + 1))).map Prod.fst
          from rfl, List.map_take]
      have hpart := sum_fst_filter_partition ((levelTagged ratLt (· + ·) 0 qs
        (sortIdx ratLt 0 qs)
        (levelList ratLt (· + ·) 0 qs (sortIdx ratLt 0 qs) (D + 1))).take m)
      have hsides := merge_take_sides (mergePred ratLt)
        ((pairSums (· + ·) (levelList ratLt (· + ·) 0 qs (sortIdx ratLt 0 qs)
          (D + 1))).map fun s => (s, true))
        (leaves 0 qs (sortIdx ratLt 0 qs))
        (tags_of_pairs (· + ·) _) (tags_of_leaves 0 qs _) m
      rw [← mergeBy_eq_merge, ← levelTagged] at hsides
      -- true side: the first p pair-sums
      have htrue : (((levelTagged ratLt (· + ·) 0 qs (sortIdx ratLt 0 qs)
          (levelList ratLt (· + ·) 0 qs (sortIdx ratLt 0 qs) (D + 1))).take m).filter
            (fun y => y.2)).map Prod.fst =
          (pairSums (· + ·) (levelList ratLt (· + ·) 0 qs (sortIdx ratLt 0 qs)
            (D + 1))).take (fcount (flagsAcc ratLt (· + ·) 0 qs (sortIdx ratLt 0 qs)
              (2 * qs.length - 1) maxLen) (D + 1) m) := by
        rw [hsides.1, ← hfc, ← List.map_take, List.map_map,
          show (Prod.fst ∘ fun s : ℚ => (s, true)) = id from rfl, List.map_id]
      have hfalse : (((levelTagged ratLt (· + ·) 0 qs (sortIdx ratLt 0 qs)
          (levelList ratLt (· + ·) 0 qs (sortIdx ratLt 0 qs) (D + 1))).take m).filter
            (fun y => !y.2)).map Prod.fst =
          ((sortIdx ratLt 0 qs).map fun i => qs.getD i 0).take
            (ufcount (flagsAcc ratLt (· + ·) 0 qs (sortIdx ratLt 0 qs)
              (2 * qs.length - 1) maxLen) (D + 1) m) := by
        rw [hsides.2, ← hufc, leaves, ← List.map_take, ← List.map_take, List.map_map]
        rfl
      rw [hLtake, ← hpart, htrue, hfalse]
      congr 1
      · rw [pairSums_take_sum _ _ (by
          rw [length_levelList ratLt (· + ·) 0 qs (sortIdx ratLt 0 qs) (D + 1), hslen]
          omega)]
      · rw [take_sum_eq_sum_range _ _ (by omega)]
        refine Finset.sum_congr rfl ?_
        intro r hr
        exact leavesVals_getD qs (by have := Finset.mem_range.mp hr; omega)

/-! ### The abstract coin-collector greedy -/

/-- In an ascending list, each entry is dominated by the corresponding entry
of any subsequence. -/
theorem sublist_getD_le : ∀ (s c : List ℚ), s.Sublist c → List.Pairwise (· ≤ ·) c →
    ∀ i, i < s.length → c.getD i 0 ≤ s.getD i 0 := by
  intro s c hsub
  induction hsub with
  | slnil =>
    intro _ i hi
    simp at hi
  | @cons s' c' a hsub ih =>
    intro hs i hi
    have hlen := hsub.length_le
    have hshift : (a :: c').getD i 0 ≤ c'.getD i 0 := by
      match i, (show i < c'.length by omega) with
      | 0, h0 =>
        rw [List.getD_cons_zero]
        exact List.rel_of_pairwise_cons hs (getD_mem c' 0 0 h0)
      | j + 1, hj =>
        rw [List.getD_cons_succ]
        exact getD_mono_of_sorted (List.Pairwise.of_cons hs) (by omega) hj
    exact le_trans hshift (ih (List.Pairwise.of_cons hs) i hi)
  | @cons₂ s' c' a hsub ih =>
    intro hs i hi
    match i with
    | 0 => rw [List.getD_cons_zero, List.getD_cons_zero]
    | j + 1 =>
      rw [List.getD_cons_succ, List.getD_cons_succ]
      exact ih (List.Pairwise.of_cons hs) j (by simpa using hi)

/-- For an ascending non-negative list, any subsequence of length at least `k`
weighs at least the `k` smallest entries. -/
theorem sum_take_le_sublist (c : List ℚ) (hs : List.Pairwise (· ≤ ·) c)
    (hnn : ∀ x ∈ c, 0 ≤ x) (s : List ℚ) (hsub : s.Sublist c) (k : Nat)
    (hk : k ≤ s.length) : (c.take k).sum ≤ s.sum := by
  have hlen := hsub.length_le
  have h1 : (c.take k).sum = ∑ r ∈ Finset.range k, c.getD r 0 :=
    take_sum_eq_sum_range c k (by omega)
  have h2 : (s.take k).sum = ∑ r ∈ Finset.range k, s.getD r 0 :=
    take_sum_eq_sum_range s k hk
  have h3 : ∑ r ∈ Finset.range k, c.getD r 0 ≤ ∑ r ∈ Finset.range k, s.getD r 0 := by
    refine Finset.sum_le_sum ?_
    intro r hr
    exact sublist_getD_le s c hsub hs r (by have := Finset.mem_range.mp hr; omega)
  have h4 : (s.take k).sum ≤ s.sum := by
    have hsplit : s.take k ++ s.drop k = s := List.take_append_drop k s
    have hnnd : 0 ≤ (s.drop k).sum := by
      refine List.sum_nonneg ?_
      intro x hx
      exact hnn x (hsub.subset (List.mem_of_mem_drop hx))
    calc (s.take k).sum ≤ (s.take k).sum + (s.drop k).sum := by linarith
    _ = s.sum := by rw [← List.sum_append, hsplit]
  calc (c.take k).sum = ∑ r ∈ Finset.range k, c.getD r 0 := h1
  _ ≤ ∑ r ∈ Finset.range k, s.getD r 0 := h3
  _ = (s.take k).sum := h2.symm
  _ ≤ s.sum := h4

/-- Two subsequences of the two merge inputs combine into a subsequence of the
merged output with the same total length and weight. -/
theorem sublist_merge_combine (A : List ℚ) :
    ∀ (B x y : List ℚ), x.Sublist A → y.Sublist B →
      ∃ z : List ℚ, z.Sublist (List.merge A B ratLt) ∧
        z.length = x.length + y.length ∧ z.sum = x.sum + y.sum := by
  induction A with
  | nil =>
    intro B x y hx hy
    have hx0 : x = [] := List.sublist_nil.mp hx
    subst hx0
    refine ⟨y, ?_, by simp, by simp⟩
    rw [List.nil_merge]
    exact hy
  | cons a A' ihA =>
    intro B
    induction B with
    | nil =>
      intro x y hx hy
      have hy0 : y = [] := List.sublist_nil.mp hy
      subst hy0
      refine ⟨x, ?_, by simp, by simp⟩
      rw [List.merge_right]
      exact hx
    | cons b B' ihB =>
      intro x y hx hy
      by_cases hp : ratLt a b
      · rw [List.cons_merge_cons_pos _ _ _ hp]
        cases hx with
        | cons _ hx' =>
          obtain ⟨z, hz1, hz2, hz3⟩ := ihA (b :: B') x y hx' hy
          exact ⟨z, hz1.cons a, hz2, hz3⟩
        | cons₂ _ hx' =>
          rename_i x'
          obtain ⟨z, hz1, hz2, hz3⟩ := ihA (b :: B') x' y hx' hy
          refine ⟨a :: z, hz1.cons₂ a, ?_, ?_⟩
          · simp only [List.length_cons, hz2]
            omega
          · simp only [List.sum_cons, hz3]
            ring
      · rw [List.cons_merge_cons_neg _ _ _ hp]
        cases hy with
        | cons _ hy' =>
          obtain ⟨z, hz1, hz2, hz3⟩ := ihB x y hx hy'
          exact ⟨z, hz1.cons b, hz2, hz3⟩
        | cons₂ _ hy' =>
          rename_i y'
          obtain ⟨z, hz1, hz2, hz3⟩ := ihB x y' hx hy'
          refine ⟨b :: z, hz1.cons₂ b, ?_, ?_⟩
          · simp only [List.length_cons, hz2]
            omega
          · simp only [List.sum_cons, hz3]
            ring

/-- Collapsing the two smallest classes of an instance. -/
theorem finalCoins_cons₂ (c c₂ : List ℚ) (rest₂ : List (List ℚ)) :
    finalCoins (c :: c₂ :: rest₂) =
      finalCoins ((List.merge (pairSums (· + ·) c) c₂ ratLt) :: rest₂) := by
  rw [finalCoins, finalCoins, coinGo, coinGo, coinGo,
    show pairSums (· + ·) ([] : List ℚ) = [] from rfl, List.nil_merge, List.nil_merge]

/-- Greedy optimality of pair-and-merge: the `2q` smallest entries of the
final merged list weigh no more than any selection of total width at least
`2q` top-class units. -/
theorem greedy_min (N : Nat) : ∀ (I : List (List ℚ)), I.length ≤ N →
    (∀ c ∈ I, List.Pairwise (· ≤ ·) c ∧ ∀ x ∈ c, 0 ≤ x) →
    ∀ (sel : List (List ℚ)), SelOf sel I →
    ∀ q : Nat, 2 * q * 2 ^ (I.length - 1) ≤ widthSel sel →
      ((finalCoins I).take (2 * q)).sum ≤ weightSel sel := by
  induction N with
  | zero =>
    intro I hI hcls sel hsel q hw
    have hI0 : I = [] := by
      cases I with
      | nil => rfl
      | cons c rest => simp at hI
    subst hI0
    cases sel with
    | nil =>
      rw [show finalCoins [] = [] from rfl]
      rw [show weightSel [] = 0 from rfl]
      simp
    | cons s sel' => exact hsel.elim
  | succ N ihN =>
    intro I hI hcls sel hsel q hw
    cases I with
    | nil =>
      cases sel with
      | nil =>
        rw [show finalCoins [] = [] from rfl, show weightSel [] = 0 from rfl]
        simp
      | cons s sel' => exact hsel.elim
    | cons c rest =>
      cases sel with
      | nil => exact hsel.elim
      | cons s sel' =>
        obtain ⟨hsub, hsel'⟩ := hsel
        obtain ⟨hcs, hcn⟩ := hcls c (List.mem_cons_self c rest)
        have hcls' : ∀ x ∈ rest, List.Pairwise (· ≤ ·) x ∧ ∀ y ∈ x, 0 ≤ y :=
          fun x hx => hcls x (List.mem_cons_of_mem c hx)
        cases rest with
        | nil =>
          -- single class: the final list is the class itself
          cases sel' with
          | cons s₂ sel₂ => exact hsel'.elim
          | nil =>
            have hfc : finalCoins [c] = c := by
              rw [finalCoins, coinGo, coinGo,
                show pairSums (· + ·) ([] : List ℚ) = [] from rfl, List.nil_merge]
            rw [hfc, show weightSel [s] = s.sum + 0 from rfl, add_zero]
            simp only [List.length_cons, List.length_nil, Nat.add_sub_cancel] at hw
            rw [show widthSel [s] = s.length + 2 * widthSel [] from rfl,
              show widthSel ([] : List (List ℚ)) = 0 from rfl, pow_zero] at hw
            exact sum_take_le_sublist c hcs hcn s hsub (2 * q) (by omega)
        | cons c₂ rest₂ =>
          cases sel' with
          | nil => exact hsel'.elim
          | cons s₂ sel₂ =>
            obtain ⟨hsub₂, hsel₂⟩ := hsel'
            obtain ⟨hcs₂, hcn₂⟩ := hcls c₂ (by simp)
            -- even part of the smallest class selection
            have hslen := hsub.length_le
            obtain ⟨z, hzsub, hzlen, hzsum⟩ := sublist_merge_combine
              (pairSums (· + ·) c) c₂
              ((pairSums (· + ·) c).take (s.length / 2)) s₂
              (List.take_sublist _ _) hsub₂
            have hpslen : (pairSums (· + ·) c).length = c.length / 2 :=
              length_pairSums _ c
            -- the reduced instance
            have hIlen : ((List.merge (pairSums (· + ·) c) c₂ ratLt) :: rest₂).length ≤
                N := by
              simp only [List.length_cons] at hI ⊢
              omega
            have hMcls : ∀ x ∈ (List.merge (pairSums (· + ·) c) c₂ ratLt) :: rest₂,
                List.Pairwise (· ≤ ·) x ∧ ∀ y ∈ x, 0 ≤ y := by
              intro x hx
              rcases List.mem_cons.mp hx with hxe | hxr
              · subst hxe
                refine ⟨merge_sorted_vals _ _ (pairSums_sorted c hcs) hcs₂, ?_⟩
                intro y hy
                rcases List.mem_merge.mp hy with hyP | hyC
                · exact pairSums_nonneg c hcn y hyP
                · exact hcn₂ y hyC
              · exact hcls' x (List.mem_cons_of_mem c₂ hxr)
            have hSel'' : SelOf (z :: sel₂)
                ((List.merge (pairSums (· + ·) c) c₂ ratLt) :: rest₂) := ⟨hzsub, hsel₂⟩
            have hpow2 : (2 : ℕ) ^ (rest₂.length + 1) = 2 * 2 ^ rest₂.length := by
              rw [pow_succ]
              ring
            have hwid : 2 * q * 2 ^ (((List.merge (pairSums (· + ·) c) c₂ ratLt) ::
                rest₂).length - 1) ≤ widthSel (z :: sel₂) := by
              simp only [List.length_cons, Nat.add_sub_cancel]
              rw [show widthSel (z :: sel₂) = z.length + 2 * widthSel sel₂ from rfl]
              simp only [List.length_cons, Nat.add_sub_cancel] at hw
              rw [show widthSel (s :: s₂ :: sel₂) =
                s.length + 2 * (s₂.length + 2 * widthSel sel₂) from rfl, hpow2,
                show 2 * q * (2 * 2 ^ rest₂.length) =
                  2 * (2 * q * 2 ^ rest₂.length) from by ring] at hw
              have hzl : z.length = s.length / 2 + s₂.length := by
                rw [hzlen, List.length_take]
                have h2 : s.length / 2 ≤ (pairSums (· + ·) c).length := by
                  rw [hpslen]
                  omega
                omega
              omega
            have hrec := ihN ((List.merge (pairSums (· + ·) c) c₂ ratLt) :: rest₂)
              hIlen hMcls (z :: sel₂) hSel'' q hwid
            rw [finalCoins_cons₂]
            refine le_trans hrec ?_
            rw [show weightSel (z :: sel₂) = z.sum + weightSel sel₂ from rfl,
              show weightSel (s :: s₂ :: sel₂) =
                s.sum + (s₂.sum + weightSel sel₂) from rfl, hzsum]
            have htake : ((pairSums (· + ·) c).take (s.length / 2)).sum =
                (c.take (2 * (s.length / 2))).sum :=
              pairSums_take_sum c (s.length / 2) (by omega)
            have hle : (c.take (2 * (s.length / 2))).sum ≤ s.sum :=
              sum_take_le_sublist c hcs hcn s hsub (2 * (s.length / 2)) (by omega)
            linarith

/-! ### The engine's run as a coin-collector instance -/
theorem leaves_map_fst (qs : List ℚ) :
    (leaves 0 qs (sortIdx ratLt 0 qs)).map Prod.fst =
      (sortIdx ratLt 0 qs).map fun i => qs.getD i 0 := by
  rw [leaves, List.map_map]
  rfl

theorem leavesVals_sorted (qs : List ℚ) :
    List.Pairwise (· ≤ ·) ((sortIdx ratLt 0 qs).map fun i => qs.getD i 0) := by
  rw [List.pairwise_map]
  refine (sortIdx_pairwise qs).imp ?_
  intro a b hab
  rcases hab with h | ⟨h, -⟩
  · exact le_of_lt h
  · exact le_of_eq h

theorem leavesVals_nonneg (qs : List ℚ) (hq : ∀ q ∈ qs, 0 ≤ q) :
    ∀ x ∈ (sortIdx ratLt 0 qs).map fun i => qs.getD i 0, 0 ≤ x := by
  intro x hx
  obtain ⟨i, hi, rfl⟩ := List.mem_map.mp hx
  exact hq _ (getD_mem qs 0 i (sortIdx_mem_lt ratLt 0 qs hi))

theorem rankVal_nonneg (qs : List ℚ) (hq : ∀ q ∈ qs, 0 ≤ q) (r : Nat)
    (hr : r < qs.length) : 0 ≤ rankVal qs r := by
  rw [← leavesVals_getD qs hr]
  exact leavesVals_nonneg qs hq _ (getD_mem _ 0 r (by
    rw [List.length_map, length_sortIdx]
    exact hr))

/-- One forward level, seen on values. -/
theorem levelList_succ_merge (qs : List ℚ) (d : Nat) :
    levelList ratLt (· + ·) 0 qs (sortIdx ratLt 0 qs) (d + 1) =
    List.merge (pairSums (· + ·) (levelList ratLt (· + ·) 0 qs (sortIdx ratLt 0 qs) d))
      ((sortIdx ratLt 0 qs).map fun i => qs.getD i 0) ratLt := by
  rw [show levelList ratLt (· + ·) 0 qs (sortIdx ratLt 0 qs) (d + 1) =
    (levelTagged ratLt (· + ·) 0 qs (sortIdx ratLt 0 qs)
      (levelList ratLt (· + ·) 0 qs (sortIdx ratLt 0 qs) d)).map Prod.fst from rfl,
    levelTagged, mergeBy_eq_merge, merge_map_fst, List.map_map,
    show (Prod.fst ∘ fun s : ℚ => (s, true)) = id from rfl, List.map_id,
    leaves_map_fst]

theorem coinGo_levelList (qs : List ℚ) : ∀ (k d : Nat),
    coinGo (levelList ratLt (· + ·) 0 qs (sortIdx ratLt 0 qs) d)
      (List.replicate k ((sortIdx ratLt 0 qs).map fun i => qs.getD i 0)) =
    levelList ratLt (· + ·) 0 qs (sortIdx ratLt 0 qs) (d + k) := by
  intro k
  induction k with
  | zero =>
    intro d
    rw [List.replicate, coinGo]
    congr 1
  | succ k ih =>
    intro d
    rw [List.replicate, coinGo, ← levelList_succ_merge, ih (d + 1)]
    congr 1
    omega

/-- The algorithm's forward pass is the greedy on the uniform instance. -/
theorem finalCoins_levelList (qs : List ℚ) (maxLen : Nat) :
    finalCoins (List.replicate maxLen ((sortIdx ratLt 0 qs).map fun i => qs.getD i 0)) =
    levelList ratLt (· + ·) 0 qs (sortIdx ratLt 0 qs) maxLen := by
  rw [finalCoins,
    show ([] : List ℚ) = levelList ratLt (· + ·) 0 qs (sortIdx ratLt 0 qs) 0 from rfl,
    coinGo_levelList qs maxLen 0, Nat.zero_add]

/-! ### Index-mask subsequences and selection bookkeeping -/

theorem maskSelFrom_sublist {α : Type} (p : ℕ → Bool) :
    ∀ (l : List α) (i : Nat), (maskSelFrom p i l).Sublist l
  | [], _ => List.Sublist.refl []
  | x :: xs, i => by
    rw [maskSelFrom]
    split
    · exact (maskSelFrom_sublist p xs (i + 1)).cons₂ x
    · exact (maskSelFrom_sublist p xs (i + 1)).cons x

theorem maskSel_sublist {α : Type} (p : ℕ → Bool) (l : List α) :
    (maskSel p l).Sublist l :=
  maskSelFrom_sublist p l 0

theorem maskSelFrom_length {α : Type} (p : ℕ → Bool) :
    ∀ (l : List α) (i : Nat), (maskSelFrom p i l).length =
      ∑ j ∈ Finset.range l.length, if p (i + j) then 1 else 0
  | [], i => by
    rw [maskSelFrom]
    simp
  | x :: xs, i => by
    rw [maskSelFrom, List.length_cons, Finset.sum_range_succ']
    simp only [Nat.add_zero]
    have hcongr : ∑ j ∈ Finset.range xs.length, (if p (i + (j + 1)) then 1 else 0) =
        ∑ j ∈ Finset.range xs.length, if p ((i + 1) + j) then 1 else 0 := by
      refine Finset.sum_congr rfl ?_
      intro j _
      rw [show i + (j + 1) = (i + 1) + j from by omega]
    rw [hcongr]
    split
    · rw [List.length_cons, maskSelFrom_length p xs (i + 1)]
    · rw [maskSelFrom_length p xs (i + 1)]
      omega

theorem maskSelFrom_sum (p : ℕ → Bool) :
    ∀ (l : List ℚ) (i : Nat), (maskSelFrom p i l).sum =
      ∑ j ∈ Finset.range l.length, if p (i + j) then l.getD j 0 else 0
  | [], i => by
    rw [maskSelFrom]
    simp
  | x :: xs, i => by
    rw [maskSelFrom, List.length_cons, Finset.sum_range_succ']
    simp only [Nat.add_zero]
    have hcongr : ∑ j ∈ Finset.range xs.length,
        (if p (i + (j + 1)) then (x :: xs).getD (j + 1) 0 else 0) =
        ∑ j ∈ Finset.range xs.length, if p ((i + 1) + j) then xs.getD j 0 else 0 := by
      refine Finset.sum_congr rfl ?_
      intro j _
      rw [show i + (j + 1) = (i + 1) + j from by omega, List.getD_cons_succ]
    rw [hcongr, List.getD_cons_zero]
    split
    · rw [List.sum_cons, maskSelFrom_sum p xs (i + 1)]
      ring
    · rw [maskSelFrom_sum p xs (i + 1)]
      ring

theorem maskSel_length {α : Type} (p : ℕ → Bool) (l : List α) :
    (maskSel p l).length = ∑ j ∈ Finset.range l.length, if p j then 1 else 0 := by
  rw [maskSel, maskSelFrom_length]
  refine Finset.sum_congr rfl ?_
  intro j _
  rw [Nat.zero_add]

theorem maskSel_sum (p : ℕ → Bool) (l : List ℚ) :
    (maskSel p l).sum = ∑ j ∈ Finset.range l.length, if p j then l.getD j 0 else 0 := by
  rw [maskSel, maskSelFrom_sum]
  refine Finset.sum_congr rfl ?_
  intro j _
  rw [Nat.zero_add]

theorem SelOf_map_range (F : ℕ → List ℚ) (v : List ℚ) :
    ∀ ts : List ℕ, (∀ t ∈ ts, (F t).Sublist v) →
      SelOf (ts.map F) (List.replicate ts.length v)
  | [], _ => trivial
  | t :: ts, h =>
    ⟨h t (List.mem_cons_self t ts),
      SelOf_map_range F v ts fun t' ht' => h t' (List.mem_cons_of_mem t ht')⟩

theorem widthSel_map_range : ∀ (L : Nat) (F : ℕ → List ℚ),
    widthSel ((List.range L).map F) = ∑ t ∈ Finset.range L, 2 ^ t * (F t).length := by
  intro L
  induction L with
  | zero =>
    intro F
    rw [List.range_zero, List.map_nil, widthSel]
    simp
  | succ L ih =>
    intro F
    rw [List.range_succ_eq_map, List.map_cons,
      show widthSel (F 0 :: ((List.range L).map Nat.succ).map F) =
        (F 0).length + 2 * widthSel (((List.range L).map Nat.succ).map F) from rfl,
      List.map_map, show ((F ∘ Nat.succ) : ℕ → List ℚ) = fun t => F (t + 1) from rfl,
      ih (fun t => F (t + 1)), Finset.sum_range_succ', Finset.mul_sum]
    have hcongr : ∑ t ∈ Finset.range L, 2 * (2 ^ t * (F (t + 1)).length) =
        ∑ t ∈ Finset.range L, 2 ^ (t + 1) * (F (t + 1)).length := by
      refine Finset.sum_congr rfl ?_
      intro t _
      rw [pow_succ]
      ring
    rw [hcongr, pow_zero, Nat.one_mul]
    omega

theorem weightSel_map_range : ∀ (L : Nat) (F : ℕ → List ℚ),
    weightSel ((List.range L).map F) = ∑ t ∈ Finset.range L, (F t).sum := by
  intro L
  induction L with
  | zero =>
    intro F
    rw [List.range_zero, List.map_nil, weightSel]
    simp
  | succ L ih =>
    intro F
    rw [List.range_succ_eq_map, List.map_cons,
      show weightSel (F 0 :: ((List.range L).map Nat.succ).map F) =
        (F 0).sum + weightSel (((List.range L).map Nat.succ).map F) from rfl,
      List.map_map, show ((F ∘ Nat.succ) : ℕ → List ℚ) = fun t => F (t + 1) from rfl,
      ih (fun t => F (t + 1)), Finset.sum_range_succ']
    ring

theorem two_pow_Ico_sum : ∀ (b a : Nat), a ≤ b →
    (∑ t ∈ Finset.Ico a b, 2 ^ t) + 2 ^ a = 2 ^ b := by
  intro b
  induction b with
  | zero =>
    intro a h
    have ha : a = 0 := by omega
    subst ha
    simp
  | succ b ih =>
    intro a h
    rcases Nat.lt_or_ge a (b + 1) with hlt | hge
    · have hab : a ≤ b := by omega
      rw [Finset.sum_Ico_succ_top hab, add_assoc,
        show (2 : ℕ) ^ b + 2 ^ a = 2 ^ a + 2 ^ b from by ring, ← add_assoc, ih a hab,
        pow_succ]
      ring
    · have ha : a = b + 1 := by omega
      subst ha
      rw [Finset.Ico_self, Finset.sum_empty, Nat.zero_add]

/-! ### Tightening a slack Kraft sum -/

/-- Any length assignment within depth `L` whose (denominator-cleared) Kraft
sum is at most `2^L` can be pointwise decreased until the sum is exactly
`2^L`. -/
theorem kraft_tighten (n L : Nat) (hn : 1 ≤ n) : ∀ (M : Nat) (g : ℕ → ℕ),
    (∑ r ∈ Finset.range n, g r) ≤ M → (∀ r, r < n → g r ≤ L) →
    (∑ r ∈ Finset.range n, 2 ^ (L - g r)) ≤ 2 ^ L →
    ∃ g' : ℕ → ℕ, (∀ r, r < n → g' r ≤ g r) ∧ (∀ r, r < n → g' r ≤ L) ∧
      (∑ r ∈ Finset.range n, 2 ^ (L - g' r)) = 2 ^ L := by
  intro M
  induction M with
  | zero =>
    intro g hM hgL hk
    have hg0 : ∀ r, r < n → g r = 0 := by
      intro r hr
      have h1 : g r ≤ ∑ r ∈ Finset.range n, g r :=
        Finset.single_le_sum (fun _ _ => Nat.zero_le _) (Finset.mem_range.mpr hr)
      omega
    have hsum : (∑ r ∈ Finset.range n, 2 ^ (L - g r)) = n * 2 ^ L := by
      rw [Finset.sum_congr rfl fun r hr => by
        rw [hg0 r (Finset.mem_range.mp hr), Nat.sub_zero]]
      rw [Finset.sum_const, Finset.card_range, smul_eq_mul]
    refine ⟨g, fun r _ => le_rfl, hgL, ?_⟩
    rw [hsum]
    rw [hsum] at hk
    have hpow : 1 ≤ 2 ^ L := Nat.one_le_two_pow
    nlinarith
  | succ M ihM =>
    intro g hM hgL hk
    by_cases heq : (∑ r ∈ Finset.range n, 2 ^ (L - g r)) = 2 ^ L
    · exact ⟨g, fun r _ => le_rfl, hgL, heq⟩
    · have hlt : (∑ r ∈ Finset.range n, 2 ^ (L - g r)) < 2 ^ L := by omega
      obtain ⟨r0, hr0mem, hr0max⟩ := Finset.exists_max_image (Finset.range n) g
        ⟨0, Finset.mem_range.mpr (by omega)⟩
      have hr0n := Finset.mem_range.mp hr0mem
      have hgr0pos : 1 ≤ g r0 := by
        by_contra h0
        have h00 : g r0 = 0 := by omega
        have h1 := Finset.add_sum_erase (Finset.range n) (fun r => 2 ^ (L - g r)) hr0mem
        simp only at h1
        rw [h00, Nat.sub_zero] at h1
        omega
      have hdvd : (2 : ℕ) ^ (L - g r0) ∣ 2 ^ L - ∑ r ∈ Finset.range n, 2 ^ (L - g r) := by
        refine Nat.dvd_sub' (pow_dvd_pow 2 (by omega)) (Finset.dvd_sum ?_)
        intro r hr
        exact pow_dvd_pow 2 (by
          have := hr0max r hr
          omega)
      have hslack : 2 ^ (L - g r0) ≤ 2 ^ L - ∑ r ∈ Finset.range n, 2 ^ (L - g r) :=
        Nat.le_of_dvd (by omega) hdvd
      -- decrement the largest length
      have hsum1 : ∑ r ∈ Finset.range n, 2 ^ (L - Function.update g r0 (g r0 - 1) r) =
          (∑ r ∈ Finset.range n, 2 ^ (L - g r)) + 2 ^ (L - g r0) := by
        have h1 : ∑ r ∈ Finset.range n, 2 ^ (L - Function.update g r0 (g r0 - 1) r) =
            2 ^ (L - (g r0 - 1)) +
              ∑ r ∈ (Finset.range n).erase r0, 2 ^ (L - g r) := by
          rw [← Finset.add_sum_erase _ (fun r => 2 ^ (L - Function.update g r0
            (g r0 - 1) r)) hr0mem, Function.update_same]
          congr 1
          refine Finset.sum_congr rfl ?_
          intro r hr
          rw [Function.update_noteq (Finset.ne_of_mem_erase hr)]
        have h2 : ∑ r ∈ Finset.range n, 2 ^ (L - g r) =
            2 ^ (L - g r0) + ∑ r ∈ (Finset.range n).erase r0, 2 ^ (L - g r) :=
          (Finset.add_sum_erase _ _ hr0mem).symm
        have h3 : (2 : ℕ) ^ (L - (g r0 - 1)) = 2 ^ (L - g r0) + 2 ^ (L - g r0) := by
          rw [show L - (g r0 - 1) = (L - g r0) + 1 from by
            have := hgL r0 hr0n
            omega, pow_succ]
          ring
        omega
      have hM1 : (∑ r ∈ Finset.range n, Function.update g r0 (g r0 - 1) r) ≤ M := by
        have h1 : ∑ r ∈ Finset.range n, Function.update g r0 (g r0 - 1) r =
            (g r0 - 1) + ∑ r ∈ (Finset.range n).erase r0, g r := by
          rw [← Finset.add_sum_erase _ (Function.update g r0 (g r0 - 1)) hr0mem,
            Function.update_same]
          congr 1
          refine Finset.sum_congr rfl ?_
          intro r hr
          rw [Function.update_noteq (Finset.ne_of_mem_erase hr)]
        have h2 : ∑ r ∈ Finset.range n, g r =
            g r0 + ∑ r ∈ (Finset.range n).erase r0, g r :=
          (Finset.add_sum_erase _ _ hr0mem).symm
        omega
      have hgL1 : ∀ r, r < n → Function.update g r0 (g r0 - 1) r ≤ L := by
        intro r hr
        by_cases hrr : r = r0
        · subst hrr
          rw [Function.update_same]
          have := hgL r hr
          omega
        · rw [Function.update_noteq hrr]
          exact hgL r hr
      have hk1 : (∑ r ∈ Finset.range n, 2 ^ (L - Function.update g r0 (g r0 - 1) r)) ≤
          2 ^ L := by
        rw [hsum1]
        omega
      obtain ⟨g', hg'le, hg'L, hg'eq⟩ := ihM (Function.update g r0 (g r0 - 1)) hM1
        hgL1 hk1
      refine ⟨g', ?_, hg'L, hg'eq⟩
      intro r hr
      have h1 := hg'le r hr
      by_cases hrr : r = r0
      · subst hrr
        rw [Function.update_same] at h1
        omega
      · rw [Function.update_noteq hrr] at h1
        exact h1

/-- The nodeset selection of a tight length assignment: one leaf coin `(r, j)`
for each `j ≤ g r`, giving total width `(n − 1)·2^L` and total weight
`∑ f_r · g r`. -/
theorem competitor_stats (qs : List ℚ) (L : Nat) (g : ℕ → ℕ)
    (hgL : ∀ r, r < qs.length → g r ≤ L)
    (heq : (∑ r ∈ Finset.range qs.length, 2 ^ (L - g r)) = 2 ^ L) :
    ∃ sel, SelOf sel
        (List.replicate L ((sortIdx ratLt 0 qs).map fun i => qs.getD i 0)) ∧
      widthSel sel = (qs.length - 1) * 2 ^ L ∧
      weightSel sel = ∑ r ∈ Finset.range qs.length, rankVal qs r * (g r : ℚ) := by
  have hvlen : ((sortIdx ratLt 0 qs).map fun i => qs.getD i 0).length = qs.length := by
    rw [List.length_map, length_sortIdx]
  have hfilter : ∀ j, j < qs.length →
      (Finset.range L).filter (fun t => L - t ≤ g j) = Finset.Ico (L - g j) L := by
    intro j hj
    ext t
    simp only [Finset.mem_filter, Finset.mem_range, Finset.mem_Ico]
    omega
  refine ⟨(List.range L).map fun t =>
    maskSel (fun r => decide (L - t ≤ g r))
      ((sortIdx ratLt 0 qs).map fun i => qs.getD i 0), ?_, ?_, ?_⟩
  · have h := SelOf_map_range (fun t => maskSel (fun r => decide (L - t ≤ g r))
      ((sortIdx ratLt 0 qs).map fun i => qs.getD i 0))
      ((sortIdx ratLt 0 qs).map fun i => qs.getD i 0) (List.range L)
      (fun t _ => maskSel_sublist _ _)
    rw [List.length_range] at h
    exact h
  · rw [widthSel_map_range]
    have h1 : ∀ t ∈ Finset.range L,
        2 ^ t * (maskSel (fun r => decide (L - t ≤ g r))
          ((sortIdx ratLt 0 qs).map fun i => qs.getD i 0)).length =
        ∑ j ∈ Finset.range qs.length, if L - t ≤ g j then 2 ^ t else 0 := by
      intro t _
      rw [maskSel_length, hvlen, Finset.mul_sum]
      refine Finset.sum_congr rfl ?_
      intro j _
      by_cases hc : L - t ≤ g j
      · rw [if_pos (by simpa using hc), if_pos hc, Nat.mul_one]
      · rw [if_neg (by simpa using hc), if_neg hc, Nat.mul_zero]
    rw [Finset.sum_congr rfl h1, Finset.sum_comm]
    have h2 : ∀ j ∈ Finset.range qs.length,
        (∑ t ∈ Finset.range L, if L - t ≤ g j then 2 ^ t else 0) =
        2 ^ L - 2 ^ (L - g j) := by
      intro j hj
      rw [← Finset.sum_filter, hfilter j (Finset.mem_range.mp hj)]
      have h3 := two_pow_Ico_sum L (L - g j) (by omega)
      omega
    rw [Finset.sum_congr rfl h2]
    have h4 : (∑ j ∈ Finset.range qs.length, (2 ^ L - 2 ^ (L - g j))) +
        ∑ j ∈ Finset.range qs.length, 2 ^ (L - g j) =
        qs.length * 2 ^ L := by
      rw [← Finset.sum_add_distrib,
        Finset.sum_congr rfl fun j hj => Nat.sub_add_cancel
          (Nat.pow_le_pow_right (by omega) (by omega)),
        Finset.sum_const, Finset.card_range, smul_eq_mul]
    have hn1 : 1 ≤ qs.length := by
      by_contra h0
      have h00 : qs.length = 0 := by omega
      rw [h00] at heq
      simp at heq
      have : 1 ≤ 2 ^ L := Nat.one_le_two_pow
      omega
    rw [heq] at h4
    have h5 : (qs.length - 1) * 2 ^ L + 2 ^ L = qs.length * 2 ^ L := by
      have h6 : qs.length - 1 + 1 = qs.length := by omega
      calc (qs.length - 1) * 2 ^ L + 2 ^ L = (qs.length - 1 + 1) * 2 ^ L := by ring
      _ = qs.length * 2 ^ L := by rw [h6]
    omega
  · rw [weightSel_map_range]
    have h1 : ∀ t ∈ Finset.range L,
        (maskSel (fun r => decide (L - t ≤ g r))
          ((sortIdx ratLt 0 qs).map fun i => qs.getD i 0)).sum =
        ∑ j ∈ Finset.range qs.length, if L - t ≤ g j then rankVal qs j else 0 := by
      intro t _
      rw [maskSel_sum, hvlen]
      refine Finset.sum_congr rfl ?_
      intro j hj
      by_cases hc : L - t ≤ g j
      · rw [if_pos (by simpa using hc), if_pos hc,
          leavesVals_getD qs (Finset.mem_range.mp hj)]
      · rw [if_neg (by simpa using hc), if_neg hc]
    rw [Finset.sum_congr rfl h1, Finset.sum_comm]
    refine Finset.sum_congr rfl ?_
    intro j hj
    rw [← Finset.sum_filter, hfilter j (Finset.mem_range.mp hj), Finset.sum_const,
      Nat.card_Ico, nsmul_eq_mul, show L - (L - g j) = g j from by
        have := hgL j (Finset.mem_range.mp hj)
        omega, mul_comm]

/-- Reindexing a sum over symbols as a sum over ranks. -/
theorem sum_rank_reindex (qs : List ℚ) (F : ℕ → ℚ) :
    ∑ s ∈ Finset.range qs.length, F s =
      ∑ r ∈ Finset.range qs.length, F ((sortIdx ratLt 0 qs).getD r 0) := by
  have hslen : (sortIdx ratLt 0 qs).length = qs.length := length_sortIdx ratLt 0 qs
  have hnd := sortIdx_nodup ratLt 0 qs
  refine Finset.sum_nbij' (fun s => (sortIdx ratLt 0 qs).indexOf s)
    (fun r => (sortIdx ratLt 0 qs).getD r 0) ?_ ?_ ?_ ?_ ?_
  · intro s hs
    have hsn := Finset.mem_range.mp hs
    have hmem : s ∈ sortIdx ratLt 0 qs :=
      (sortIdx_perm ratLt 0 qs).mem_iff.mpr (List.mem_range.mpr hsn)
    rw [Finset.mem_range, ← hslen]
    exact List.indexOf_lt_length.mpr hmem
  · intro r hr
    have hrn := Finset.mem_range.mp hr
    rw [Finset.mem_range]
    exact sortIdx_mem_lt ratLt 0 qs (getD_mem _ 0 r (by omega))
  · intro s hs
    have hsn := Finset.mem_range.mp hs
    have hmem : s ∈ sortIdx ratLt 0 qs :=
      (sortIdx_perm ratLt 0 qs).mem_iff.mpr (List.mem_range.mpr hsn)
    have hidx : (sortIdx ratLt 0 qs).indexOf s < (sortIdx ratLt 0 qs).length :=
      List.indexOf_lt_length.mpr hmem
    dsimp only
    rw [List.getD_eq_get _ _ hidx]
    exact List.indexOf_get hidx
  · intro r hr
    have hrn := Finset.mem_range.mp hr
    have hrlt : r < (sortIdx ratLt 0 qs).length := by omega
    dsimp only
    rw [List.getD_eq_get _ _ hrlt]
    have h2 : (sortIdx ratLt 0 qs).indexOf ((sortIdx ratLt 0 qs).get ⟨r, hrlt⟩) <
        (sortIdx ratLt 0 qs).length :=
      List.indexOf_lt_length.mpr (List.get_mem _ _ hrlt)
    have h3 := List.indexOf_get h2
    have h4 := (List.Nodup.get_inj_iff hnd).mp h3
    exact congrArg Fin.val h4
  · intro s hs
    have hsn := Finset.mem_range.mp hs
    have hmem : s ∈ sortIdx ratLt 0 qs :=
      (sortIdx_perm ratLt 0 qs).mem_iff.mpr (List.mem_range.mpr hsn)
    have hidx : (sortIdx ratLt 0 qs).indexOf s < (sortIdx ratLt 0 qs).length :=
      List.indexOf_lt_length.mpr hmem
    have hgs : (sortIdx ratLt 0 qs).getD ((sortIdx ratLt 0 qs).indexOf s) 0 = s := by
      rw [List.getD_eq_get _ _ hidx]
      exact List.indexOf_get hidx
    dsimp only
    rw [hgs]

/-- C1: on every valid input (finite non-negative frequencies, non-empty,
`n ≤ 2^max_len`, `max_len ≤ 32`), the returned length vector minimizes the
expected code length `∑ frequency[s]·length[s]` among all length assignments
bounded by `max_len` that satisfy Kraft's inequality. -/
theorem claim_C1 (qs : List ℚ) (hq : ∀ q ∈ qs, 0 ≤ q) (maxLen : Nat)
    (hne : qs ≠ []) (hlen : qs.length ≤ 2 ^ (maxLen % 64)) (hml : maxLen ≤ 32)
    (ls : List Nat) (hok : package_merge (qs.map F64.fin) maxLen = .ok ls)
    (g : ℕ → ℕ) (hgL : ∀ s, s < qs.length → g s ≤ maxLen)
    (hkraft : ∑ s ∈ Finset.range qs.length, (2 : ℚ) ^ (-(g s : ℤ)) ≤ 1) :
    ∑ s ∈ Finset.range qs.length, qs.getD s 0 * (ls.getD s 0 : ℚ) ≤
      ∑ s ∈ Finset.range qs.length, qs.getD s 0 * (g s : ℚ) := by
  have hml64 : maxLen % 64 = maxLen := Nat.mod_eq_of_lt (by omega)
  have hpow : qs.length ≤ 2 ^ maxLen := by
    rw [← hml64]
    exact hlen
  have hn1 : 1 ≤ qs.length := by
    cases qs with
    | nil => exact absurd rfl hne
    | cons a l => simp
  have hRHSnn : 0 ≤ ∑ s ∈ Finset.range qs.length, qs.getD s 0 * (g s : ℚ) := by
    refine Finset.sum_nonneg ?_
    intro s hs
    exact mul_nonneg (hq _ (getD_mem qs 0 s (Finset.mem_range.mp hs)))
      (Nat.cast_nonneg _)
  rw [package_merge_rat, pmRat] at hok
  obtain ⟨ls2, hok2, hlen2, hform⟩ := pmRun_decode_getD ratLt (· + ·) 0 qs maxLen hne
    hlen hml
  rw [hok2] at hok
  injection hok with hok
  subst hok
  by_cases hn2 : 2 ≤ qs.length
  · -- the main case
    have hml1 : 1 ≤ maxLen := by
      rcases Nat.eq_zero_or_pos maxLen with h0 | h
      · rw [h0, pow_zero] at hpow
        omega
      · exact h
    have hc1 : qs.length * 2 - 1 = 2 * qs.length - 1 := by omega
    have hc2 : qs.length * 2 - 2 = 2 * qs.length - 2 := by omega
    rw [hc1, hc2, ← pmFlags] at hform
    have hgrL : ∀ r, r < qs.length → g ((sortIdx ratLt 0 qs).getD r 0) ≤ maxLen := by
      intro r hr
      refine hgL _ (sortIdx_mem_lt ratLt 0 qs (getD_mem _ 0 r ?_))
      rw [length_sortIdx]
      exact hr
    -- the Kraft bound over ranks, with cleared denominators
    have hkraft_r : ∑ r ∈ Finset.range qs.length,
        (2 : ℚ) ^ (-(g ((sortIdx ratLt 0 qs).getD r 0) : ℤ)) ≤ 1 := by
      rw [← sum_rank_reindex qs fun s => (2 : ℚ) ^ (-(g s : ℤ))]
      exact hkraft
    have hterm : ∀ r, r < qs.length →
        ((2 ^ (maxLen - g ((sortIdx ratLt 0 qs).getD r 0)) : ℕ) : ℚ) =
        (2 : ℚ) ^ (maxLen : ℤ) *
          (2 : ℚ) ^ (-(g ((sortIdx ratLt 0 qs).getD r 0) : ℤ)) := by
      intro r hr
      have hsub : ((maxLen - g ((sortIdx ratLt 0 qs).getD r 0) : ℕ) : ℤ) =
          (maxLen : ℤ) - (g ((sortIdx ratLt 0 qs).getD r 0) : ℤ) := by
        have := hgrL r hr
        omega
      rw [show ((2 ^ (maxLen - g ((sortIdx ratLt 0 qs).getD r 0)) : ℕ) : ℚ) =
        (2 : ℚ) ^ ((maxLen - g ((sortIdx ratLt 0 qs).getD r 0) : ℕ) : ℤ) from by
          push_cast
          rw [zpow_natCast]]
      rw [hsub, zpow_sub₀ (by norm_num : (2 : ℚ) ≠ 0), zpow_neg]
      ring
    have hnat : (∑ r ∈ Finset.range qs.length,
        2 ^ (maxLen - g ((sortIdx ratLt 0 qs).getD r 0))) ≤ 2 ^ maxLen := by
      have hsumQ : ((∑ r ∈ Finset.range qs.length,
          2 ^ (maxLen - g ((sortIdx ratLt 0 qs).getD r 0)) : ℕ) : ℚ) =
          (2 : ℚ) ^ (maxLen : ℤ) * ∑ r ∈ Finset.range qs.length,
            (2 : ℚ) ^ (-(g ((sortIdx ratLt 0 qs).getD r 0) : ℤ)) := by
        rw [Nat.cast_sum, Finset.mul_sum]
        refine Finset.sum_congr rfl ?_
        intro r hr
        exact hterm r (Finset.mem_range.mp hr)
      have hle : ((∑ r ∈ Finset.range qs.length,
          2 ^ (maxLen - g ((sortIdx ratLt 0 qs).getD r 0)) : ℕ) : ℚ) ≤
          ((2 ^ maxLen : ℕ) : ℚ) := by
        rw [hsumQ, show ((2 ^ maxLen : ℕ) : ℚ) = (2 : ℚ) ^ (maxLen : ℤ) from by
          push_cast
          rw [zpow_natCast]]
        have h3 := mul_le_mul_of_nonneg_left hkraft_r
          (show (0 : ℚ) ≤ (2 : ℚ) ^ (maxLen : ℤ) from by positivity)
        rw [mul_one] at h3
        exact h3
      exact_mod_cast hle
    obtain ⟨g', hg'le, hg'L, hg'eq⟩ := kraft_tighten qs.length maxLen hn1
      (∑ r ∈ Finset.range qs.length, g ((sortIdx ratLt 0 qs).getD r 0))
      (fun r => g ((sortIdx ratLt 0 qs).getD r 0)) le_rfl hgrL hnat
    obtain ⟨sel, hSel, hwidth, hweight⟩ := competitor_stats qs maxLen g' hg'L hg'eq
    -- the greedy bound
    have hrep : ∀ c ∈ List.replicate maxLen
        ((sortIdx ratLt 0 qs).map fun i => qs.getD i 0),
        List.Pairwise (· ≤ ·) c ∧ ∀ x ∈ c, 0 ≤ x := by
      intro c hc
      rw [List.eq_of_mem_replicate hc]
      exact ⟨leavesVals_sorted qs, leavesVals_nonneg qs hq⟩
    have hwq : 2 * (qs.length - 1) * 2 ^ ((List.replicate maxLen
        ((sortIdx ratLt 0 qs).map fun i => qs.getD i 0)).length - 1) ≤
        widthSel sel := by
      rw [List.length_replicate, hwidth]
      have h6 : maxLen - 1 + 1 = maxLen := by omega
      have h7 : 2 * (qs.length - 1) * 2 ^ (maxLen - 1) =
          (qs.length - 1) * 2 ^ maxLen := by
        calc 2 * (qs.length - 1) * 2 ^ (maxLen - 1) =
            (qs.length - 1) * (2 ^ (maxLen - 1) * 2) := by ring
        _ = (qs.length - 1) * 2 ^ (maxLen - 1 + 1) := by rw [pow_succ]
        _ = (qs.length - 1) * 2 ^ maxLen := by rw [h6]
      omega
    have hgr := greedy_min maxLen (List.replicate maxLen
        ((sortIdx ratLt 0 qs).map fun i => qs.getD i 0))
      (by rw [List.length_replicate]) hrep sel hSel (qs.length - 1) hwq
    rw [finalCoins_levelList, hweight] at hgr
    -- the algorithm's cost
    obtain ⟨D, hD⟩ : ∃ D, maxLen = D + 1 := ⟨maxLen - 1, by omega⟩
    have hcost := cost_chain qs hq maxLen hn1 D (2 * qs.length - 2) (by omega)
      (by rw [← hD]; exact levelLen_final_ge qs.length maxLen (by omega) hpow)
      le_rfl
    rw [← hD] at hcost
    have hm2q : 2 * (qs.length - 1) = 2 * qs.length - 2 := by omega
    rw [hm2q] at hgr
    -- chain everything
    have hstep1 : ∑ s ∈ Finset.range qs.length, qs.getD s 0 * (ls2.getD s 0 : ℚ) =
        ∑ r ∈ Finset.range qs.length, rankVal qs r *
          ((kListOf (pmFlags qs maxLen) maxLen (2 * qs.length - 2)).countP
            fun j => decide (r < j) : ℚ) := by
      rw [sum_rank_reindex qs fun s => qs.getD s 0 * (ls2.getD s 0 : ℚ)]
      refine Finset.sum_congr rfl ?_
      intro r hr
      rw [hform r (Finset.mem_range.mp hr), rankVal]
    have hstep4 : ∑ r ∈ Finset.range qs.length, rankVal qs r * (g' r : ℚ) ≤
        ∑ r ∈ Finset.range qs.length, rankVal qs r *
          (g ((sortIdx ratLt 0 qs).getD r 0) : ℚ) := by
      refine Finset.sum_le_sum ?_
      intro r hr
      refine mul_le_mul_of_nonneg_left ?_
        (rankVal_nonneg qs hq r (Finset.mem_range.mp hr))
      exact_mod_cast hg'le r (Finset.mem_range.mp hr)
    have hstep5 : ∑ r ∈ Finset.range qs.length, rankVal qs r *
        (g ((sortIdx ratLt 0 qs).getD r 0) : ℚ) =
        ∑ s ∈ Finset.range qs.length, qs.getD s 0 * (g s : ℚ) := by
      rw [sum_rank_reindex qs fun s => qs.getD s 0 * (g s : ℚ)]
      refine Finset.sum_congr rfl ?_
      intro r hr
      rw [rankVal]
    rw [hstep1, ← hcost]
    exact le_trans hgr (le_trans hstep4 (le_of_eq hstep5))
  · -- single-symbol boundary: the returned length is `0`
    have h1 : qs.length = 1 := by omega
    have hsucc := pmRun_success ratLt (· + ·) 0 qs maxLen hne hlen hml
    rw [hok2] at hsucc
    injection hsucc with hsucc
    have hls : ls2 = [0] := by
      rw [hsucc, show qs.length * 2 - 2 = 0 from by omega, pmDecode_m_zero, h1]
      rfl
    rw [hls, h1, Finset.sum_range_one]
    rw [h1] at hRHSnn
    simpa using hRHSnn

/-- C1 witness: frequencies `[1, 2]`, `max_len = 2`, competitor lengths all
`1` (a feasible Kraft assignment): the returned lengths `[1, 1]` have no
larger expected code length. -/
theorem claim_C1_witness :
    ∑ s ∈ Finset.range [(1 : ℚ), 2].length,
        [(1 : ℚ), 2].getD s 0 * (([1, 1] : List Nat).getD s 0 : ℚ) ≤
      ∑ s ∈ Finset.range [(1 : ℚ), 2].length,
        [(1 : ℚ), 2].getD s 0 * ((fun _ : ℕ => (1 : ℕ)) s : ℚ) := by
  refine claim_C1 [1, 2] (by decide) 2 (by decide) (by norm_num) (by norm_num) [1, 1]
    ?_ (fun _ => 1) (fun s _ => by norm_num) ?_
  · have h : ([(1 : ℚ), 2]).map F64.fin = ([1, 2] : List ℤ).map intF64 := by
      norm_num [intF64]
    rw [h, package_merge_int]
    rfl
  · norm_num [Finset.sum_range_succ]

end PackageMerge
